import Mathlib

/-!
# Endpoint parsing of `pf` rules (`rule_parse.go`)

A shallow embedding of `parsePort`, `parseAddress`, `Rule.ParseSource` and
`Rule.ParseDestination`, together with models of the Go standard library
routines they call (`text/scanner`, `strconv.ParseUint`, `net.ParseIP`,
`net.ParseCIDR`, `net.CIDRMask`), followed by the properties proved of them.

Conventions of the embedding.

* A Go string is read as its sequence of runes (`List Char`).  An invalid
  UTF-8 byte is delivered by `text/scanner` as the rune U+FFFD, so it behaves
  like that character.
* The scanner state is the list of runes not yet consumed, the head of the
  list being the look-ahead rune `s.ch` (`scanner.EOF` when the list is empty).
  `s.next()` is `List.tail`.
* The scanner's error reporting (`s.Error`, `s.ErrorCount`) is not modelled:
  `parsePort` never reads it and it has no influence on the tokens returned.
* A Go function that mutates a record through a pointer and returns `error`
  becomes a function returning an `Outcome`: the record as the call leaves it
  and the error, if any.
-/

namespace pf

/-! ## Unicode classes -/

/-- The classes `unicode.IsLetter` and `unicode.IsDigit` outside ASCII.  The
tables are a parameter of the development: every result holds for all of
them. -/
structure UnicodeTables where
  /-- Membership of a non-ASCII rune in the category L. -/
  IsLetter : Char → Bool
  /-- Membership of a non-ASCII rune in the category Nd. -/
  IsDigit : Char → Bool

/-- The tables with no letter and no digit outside ASCII, used to evaluate the
definitions on ASCII inputs. -/
def UnicodeTables.ascii : UnicodeTables := ⟨fun _ => false, fun _ => false⟩

/-- Go `unicode.IsLetter`: `A`..`Z` and `a`..`z` in ASCII, the table beyond. -/
def unicodeIsLetter (U : UnicodeTables) (ch : Char) : Bool :=
  if ch.toNat < 128 then
    (decide (65 ≤ ch.toNat) && decide (ch.toNat ≤ 90)) ||
      (decide (97 ≤ ch.toNat) && decide (ch.toNat ≤ 122))
  else U.IsLetter ch

/-- Go `unicode.IsDigit`: `0`..`9` in ASCII, the table beyond. -/
def unicodeIsDigit (U : UnicodeTables) (ch : Char) : Bool :=
  if ch.toNat < 128 then decide (48 ≤ ch.toNat) && decide (ch.toNat ≤ 57)
  else U.IsDigit ch

/-! ## `text/scanner` -/

/-- A rune as a Go `rune` value. -/
def rune (ch : Char) : Int := Int.ofNat ch.toNat

namespace scanner

/-- Token `scanner.EOF`. -/
def EOF : Int := -1
/-- Token `scanner.Ident`. -/
def Ident : Int := -2
/-- Token `scanner.Int`. -/
def IntTok : Int := -3
/-- Token `scanner.Float`. -/
def FloatTok : Int := -4
/-- Token `scanner.Char`. -/
def CharTok : Int := -5
/-- Token `scanner.String`. -/
def StringTok : Int := -6
/-- Token `scanner.RawString`. -/
def RawStringTok : Int := -7
/-- Token `scanner.Comment`. -/
def CommentTok : Int := -8

/-- The look-ahead rune `s.Peek()`: the head of the unread input, `EOF` at its
end. -/
def Peek (s : List Char) : Int :=
  match s with
  | [] => EOF
  | ch :: _ => rune ch

/-- The call `s.Next()`: consumes the look-ahead rune (nothing at `EOF`). -/
def Next (s : List Char) : List Char := s.tail

/-- The state after `s.Init(strings.NewReader(src))` and the first `Peek`,
which drops one leading byte order mark. -/
def Init (src : String) : List Char :=
  match src.toList with
  | ch :: r => if ch.toNat = 0xFEFF then r else ch :: r
  | [] => []

/-- Membership in `GoWhitespace`, the bit set of tab, newline, carriage return
and space: `s.Whitespace&(1<<uint(ch)) != 0`. -/
def isWhitespace (ch : Char) : Bool :=
  ch.toNat = 9 || ch.toNat = 10 || ch.toNat = 13 || ch.toNat = 32

/-- The default `isIdentRune`: an underscore, a letter, or a digit that is not
the first rune. -/
def isIdentRune (U : UnicodeTables) (ch : Char) (i : Nat) : Bool :=
  ch.toNat = 95 || unicodeIsLetter U ch || (unicodeIsDigit U ch && decide (0 < i))

/-- The test `'0' <= ch && ch <= '9'`. -/
def isDecimal (ch : Char) : Bool := decide (48 ≤ ch.toNat) && decide (ch.toNat ≤ 57)

/-- The value `('a' - 'A') | ch`. -/
def lower (ch : Char) : Nat := 32 ||| ch.toNat

/-- The test `isDecimal(ch) || 'a' <= lower(ch) && lower(ch) <= 'f'`. -/
def isHex (ch : Char) : Bool :=
  isDecimal ch || (decide (97 ≤ lower ch) && decide (lower ch ≤ 102))

/-- The value of a digit rune, 16 for any other rune. -/
def digitVal (ch : Char) : Nat :=
  if isDecimal ch then ch.toNat - 48
  else if 97 ≤ lower ch ∧ lower ch ≤ 102 then lower ch - 97 + 10
  else 16

/-- The loop of `scanIdentifier`: the runes of the identifier after its first
one are consumed. -/
def scanIdentifier (U : UnicodeTables) : List Char → List Char
  | [] => []
  | ch :: r => if isIdentRune U ch 1 then scanIdentifier U r else ch :: r

/-- The loop of `digits`: decimal digits and underscores for a base up to 10,
hexadecimal digits and underscores otherwise. -/
def digits (base : Nat) : List Char → List Char
  | [] => []
  | ch :: r =>
    if base ≤ 10 then
      if isDecimal ch || ch.toNat = 95 then digits base r else ch :: r
    else
      if isHex ch || ch.toNat = 95 then digits base r else ch :: r

/-- The integer part of `scanNumber` when no dot was seen: an optional
`0x`, `0o`, `0b` or `0` lead, then the digits.  Returns the base with the
unread input. -/
def scanNumberLead (s : List Char) : Nat × List Char :=
  match s with
  | [] => (10, [])
  | ch :: r =>
    if ch.toNat = 48 then
      match r with
      | [] => (8, [])
      | c :: r2 =>
        if lower c = 120 then (16, r2)
        else if lower c = 111 then (8, r2)
        else if lower c = 98 then (2, r2)
        else (8, c :: r2)
    else (10, ch :: r)

/-- The exponent of `scanNumber`: an `e` or `p` (either case), an optional
sign and decimal digits make the token a `Float`. -/
def scanExponent (tok : Int) (s : List Char) : Int × List Char :=
  match s with
  | [] => (tok, [])
  | ch :: r =>
    if lower ch = 101 ∨ lower ch = 112 then
      match r with
      | [] => (FloatTok, [])
      | c :: r2 =>
        if c.toNat = 43 ∨ c.toNat = 45 then (FloatTok, digits 10 r2)
        else (FloatTok, digits 10 (c :: r2))
    else (tok, ch :: r)

/-- Go `scanNumber(ch, seenDot)` in the mode `GoTokens` (which scans floats):
the token kind with the unread input after the literal. -/
def scanNumber (s : List Char) (seenDot : Bool) : Int × List Char :=
  if seenDot then
    scanExponent FloatTok (digits 10 s)
  else
    let lead := scanNumberLead s
    let s1 := digits lead.1 lead.2
    match s1 with
    | [] => scanExponent IntTok []
    | ch :: r =>
      if ch.toNat = 46 then scanExponent FloatTok (digits lead.1 r)
      else scanExponent IntTok (ch :: r)

/-- The loop of `scanDigits(ch, base, n)`: at most `n` digits of the base. -/
def scanDigits (base : Nat) : Nat → List Char → List Char
  | 0, s => s
  | _ + 1, [] => []
  | n + 1, ch :: r => if digitVal ch < base then scanDigits base n r else ch :: r

/-- Go `scanEscape(quote)`, entered with the backslash as look-ahead. -/
def scanEscape (quote : Char) (s : List Char) : List Char :=
  match s.tail with
  | [] => []
  | ch :: r =>
    if ch.toNat = 97 ∨ ch.toNat = 98 ∨ ch.toNat = 102 ∨ ch.toNat = 110 ∨ ch.toNat = 114
        ∨ ch.toNat = 116 ∨ ch.toNat = 118 ∨ ch.toNat = 92 ∨ ch = quote then r
    else if 48 ≤ ch.toNat ∧ ch.toNat ≤ 55 then scanDigits 8 3 (ch :: r)
    else if ch.toNat = 120 then scanDigits 16 2 r
    else if ch.toNat = 117 then scanDigits 16 4 r
    else if ch.toNat = 85 then scanDigits 16 8 r
    else ch :: r

/-- The loop of `scanString(quote)`, entered after the opening quote was
consumed; it stops with the closing quote, a newline or the end of input as
look-ahead.  One unit of fuel is spent per iteration, each of which consumes a
rune. -/
def scanStringLoop (quote : Char) : Nat → List Char → List Char
  | 0, s => s
  | _ + 1, [] => []
  | n + 1, ch :: r =>
    if ch = quote then ch :: r
    else if ch.toNat = 10 then ch :: r
    else if ch.toNat = 92 then scanStringLoop quote n (scanEscape quote (ch :: r))
    else scanStringLoop quote n r

/-- Go `scanString(quote)` with the opening quote as look-ahead. -/
def scanString (quote : Char) (s : List Char) : List Char :=
  scanStringLoop quote s.length s.tail

/-- Go `scanRawString` with the opening back quote as look-ahead; it stops with
the closing back quote (or the end of input) as look-ahead. -/
def scanRawStringLoop : List Char → List Char
  | [] => []
  | ch :: r => if ch.toNat = 96 then ch :: r else scanRawStringLoop r

/-- The line comment loop of `scanComment`: it stops with the newline (or the
end of input) as look-ahead. -/
def scanLineComment : List Char → List Char
  | [] => []
  | ch :: r => if ch.toNat = 10 then ch :: r else scanLineComment r

/-- The general comment loop of `scanComment`: it stops after the closing
star and slash, or at the end of input. -/
def scanGeneralComment : List Char → List Char
  | [] => []
  | ch0 :: r =>
    match r with
    | [] => []
    | ch :: r2 =>
      if ch0.toNat = 42 ∧ ch.toNat = 47 then r2 else scanGeneralComment (ch :: r2)

/-- Go `scanComment(ch)`, entered with the second rune of the opener (a slash
or a star) as look-ahead. -/
def scanComment (s : List Char) : List Char :=
  match s with
  | [] => []
  | ch :: r => if ch.toNat = 47 then scanLineComment r else scanGeneralComment r

/-- The white space loop at the head of `Scan`. -/
def skipWhitespace : List Char → List Char
  | [] => []
  | ch :: r => if isWhitespace ch then skipWhitespace r else ch :: r

/-- The result of one pass through the body of `Scan`. -/
inductive Pass where
  /-- A token and the unread input after it. -/
  | token (tok : Int) (rest : List Char)
  /-- A comment was skipped (`goto redo`) and scanning resumes here. -/
  | redo (rest : List Char)

/-- One pass through the body of `Scan` from the label `redo`, entered after
the white space was skipped: the switch that determines the token value, in
the mode `GoTokens`. -/
def scanPass (U : UnicodeTables) (s : List Char) : Pass :=
  match s with
  | [] => .token EOF []
  | ch :: r =>
    if isIdentRune U ch 0 then .token Ident (scanIdentifier U r)
    else if isDecimal ch then
      let n := scanNumber (ch :: r) false
      .token n.1 n.2
    else if ch.toNat = 34 then .token StringTok (scanString ch (ch :: r)).tail
    else if ch.toNat = 39 then .token CharTok (scanString ch (ch :: r)).tail
    else if ch.toNat = 46 then
      match r with
      | [] => .token (rune ch) []
      | c :: r2 =>
        if isDecimal c then
          let n := scanNumber (c :: r2) true
          .token n.1 n.2
        else .token (rune ch) (c :: r2)
    else if ch.toNat = 47 then
      match r with
      | [] => .token (rune ch) []
      | c :: r2 =>
        if c.toNat = 47 ∨ c.toNat = 42 then .redo (scanComment (c :: r2))
        else .token (rune ch) (c :: r2)
    else if ch.toNat = 96 then .token RawStringTok (scanRawStringLoop r).tail
    else .token (rune ch) r

/-- A scanned token: its value, its text (`s.TokenText()`) and the scanner
state after it. -/
structure Scanned where
  /-- The token value returned by `Scan`. -/
  tok : Int
  /-- The token text. -/
  text : List Char
  /-- The unread input, look-ahead first. -/
  rest : List Char
deriving DecidableEq, Repr

/-- Go `Scan` with fuel for the jumps back to `redo`: each jump follows a
skipped comment, which consumed at least two runes. -/
def scanFuel (U : UnicodeTables) : Nat → List Char → Scanned
  | 0, s => ⟨EOF, [], s⟩
  | n + 1, s =>
    let s1 := skipWhitespace s
    match scanPass U s1 with
    | .token tok rest => ⟨tok, s1.take (s1.length - rest.length), rest⟩
    | .redo rest => scanFuel U n rest

/-- Go `Scan`: skips white space and comments and returns the next token. -/
def Scan (U : UnicodeTables) (s : List Char) : Scanned := scanFuel U (s.length + 1) s

end scanner

/-! ## `strconv.ParseUint` -/

namespace strconv

/-- The errors of `strconv`: `ErrSyntax`, `ErrRange`, an invalid base and an
invalid bit size. -/
inductive NumError where
  | ErrSyn
  | ErrRange
  | ErrBase
  | ErrBitSize
deriving DecidableEq, Repr

/-- The digit loop of `ParseUint` over the bytes of the text, for an explicit
base: `n` is the value accumulated so far, a 64-bit unsigned integer. -/
def parseUintLoop (base maxVal cutoff : Nat) : List Char → Nat → Except NumError Nat
  | [], n => .ok n
  | c :: r, n =>
    if 48 ≤ c.toNat ∧ c.toNat ≤ 57 ∨ 97 ≤ scanner.lower c ∧ scanner.lower c ≤ 122 then
      let d := if 48 ≤ c.toNat ∧ c.toNat ≤ 57 then c.toNat - 48 else scanner.lower c - 97 + 10
      if d ≥ base then .error .ErrSyn
      else if n ≥ cutoff then .error .ErrRange
      else
        let n0 := (n * base) % 2 ^ 64
        let n1 := (n0 + d) % 2 ^ 64
        if n1 < n0 ∨ n1 > maxVal then .error .ErrRange
        else parseUintLoop base maxVal cutoff r n1
    else .error .ErrSyn

/-- Go `strconv.ParseUint(s, base, bitSize)` for an explicit base (2 to 36) and
bit size (1 to 64), the way `parsePort` calls it; the base 0, which reads a
base from the text, is outside the model.  A rune beyond ASCII stands for
bytes above 0x7f, none of which is a digit. -/
def ParseUint (s : List Char) (base bitSize : Nat) : Except NumError Nat :=
  if s = [] then .error .ErrSyn
  else if ¬ (2 ≤ base ∧ base ≤ 36) then .error .ErrBase
  else if bitSize = 0 ∨ bitSize > 64 then .error .ErrBitSize
  else parseUintLoop base (2 ^ bitSize - 1) ((2 ^ 64 - 1) / base + 1) s 0

end strconv

/-! ## The record `struct pf_rule_addr` and `parsePort` -/

/-- The operator `PF_OP_NONE` of `pfvar.h`. -/
def PF_OP_NONE : Nat := 0
/-- The operator `PF_OP_IRG` of `pfvar.h` (`><`). -/
def PF_OP_IRG : Nat := 1
/-- The operator `PF_OP_EQ` of `pfvar.h`. -/
def PF_OP_EQ : Nat := 2
/-- The operator `PF_OP_NE` of `pfvar.h`. -/
def PF_OP_NE : Nat := 3
/-- The operator `PF_OP_LT` of `pfvar.h`. -/
def PF_OP_LT : Nat := 4
/-- The operator `PF_OP_LE` of `pfvar.h`. -/
def PF_OP_LE : Nat := 5
/-- The operator `PF_OP_GT` of `pfvar.h`. -/
def PF_OP_GT : Nat := 6
/-- The operator `PF_OP_GE` of `pfvar.h`. -/
def PF_OP_GE : Nat := 7
/-- The operator `PF_OP_XRG` of `pfvar.h` (`<>`). -/
def PF_OP_XRG : Nat := 8
/-- The operator `PF_OP_RRG` of `pfvar.h` (`:`). -/
def PF_OP_RRG : Nat := 9

/-- The fields of `struct pf_rule_addr` that `rule_parse.go` touches.  The
union `addr.v` is a byte array to cgo: bytes 0 to 15 hold the address and
bytes 16 to 31 the mask. -/
structure pf_rule_addr where
  /-- The bytes `addr.addr.v`. -/
  v : List Nat
  /-- The array `port[2]` of 16-bit values. -/
  port : Nat × Nat
  /-- The flag `neg`. -/
  neg : Nat
  /-- The operator `port_op`. -/
  port_op : Nat
deriving DecidableEq, Repr

/-- How a call ends: it returns, leaving the record it was given in `state`
with the error `err` (`none` for `nil`); it panics; or the model ran out of
fuel. -/
inductive Outcome (σ ε : Type) where
  | ret (state : σ) (err : Option ε)
  | panic
  | outOfFuel
deriving DecidableEq, Repr

/-- The call returned `nil`. -/
def Outcome.isOk {σ ε : Type} : Outcome σ ε → Bool
  | .ret _ none => true
  | _ => false

/-- The call returned an error. -/
def Outcome.isError {σ ε : Type} : Outcome σ ε → Bool
  | .ret _ (some _) => true
  | _ => false

/-- The errors `parsePort` builds with `fmt.Errorf`, one per format string,
with the value formatted into it. -/
inductive PortError where
  /-- Message "Unexpected 3rd number in port range: %s". -/
  | thirdNumber (text : List Char)
  /-- Message "Number not allowed in port range: %s". -/
  | numberNotAllowed (text : List Char)
  /-- Message "Port number can't be negative: %d". -/
  | negative (val : Nat)
  /-- Message "Unexpected number before '!'". -/
  | numberBeforeBang
  /-- Message "Expected '=' after '!'". -/
  | expectedEq
  /-- Message "Expected port number not '%c'". -/
  | expectedPortNumber (peek : Int)
  /-- Message "Unexpected char '%c'". -/
  | unexpectedChar (peek : Int)
deriving DecidableEq, Repr

/-- The C function `htons` on a little-endian host: the two bytes of a 16-bit
value are swapped. -/
def htons (x : Nat) : Nat := (x % 256) * 256 + (x / 256) % 256

/-- The assignment `port[i] = x` on the two-slot array; `none` is the index
out of range panic. -/
def setPort (port : Nat × Nat) (i x : Nat) : Option (Nat × Nat) :=
  match i with
  | 0 => some (x, port.2)
  | 1 => some (port.1, x)
  | _ => none

/-- The variables of the loop of `parsePort`: the scanner, the record and
`curPort`. -/
structure PortLoop where
  /-- The scanner state. -/
  s : List Char
  /-- The record written through `addr`. -/
  addr : pf_rule_addr
  /-- The local `curPort`. -/
  curPort : Nat
deriving DecidableEq, Repr

/-- The record and the number of ports read, as `parsePort` leaves them. -/
structure PortResult where
  /-- The record written through `addr`. -/
  addr : pf_rule_addr
  /-- The final value of the local `curPort`. -/
  curPort : Nat
deriving DecidableEq, Repr

/-- One iteration of the loop of `parsePort`. -/
inductive PortStep where
  /-- The loop goes on. -/
  | next (st : PortLoop)
  /-- The function is left. -/
  | stop (out : Outcome PortResult PortError)

/-- The body of the loop of `parsePort`: `tok = s.Scan()` and the switch on
it. -/
def parsePortBody (U : UnicodeTables) (st : PortLoop) : PortStep :=
  let sc := scanner.Scan U st.s
  let tok := sc.tok
  let s := sc.rest
  let addr := st.addr
  let curPort := st.curPort
  if tok = -3 then
    if curPort ≥ 2 then .stop (.ret ⟨addr, curPort⟩ (some (.thirdNumber sc.text)))
    else
      match strconv.ParseUint sc.text 10 16 with
      | .error _ => .stop (.ret ⟨addr, curPort⟩ (some (.numberNotAllowed sc.text)))
      | .ok val =>
        if val < 0 then .stop (.ret ⟨addr, curPort⟩ (some (.negative val)))
        else
          match setPort addr.port curPort (htons (val % 2 ^ 16) % 2 ^ 16) with
          | none => .stop .panic
          | some port => .next ⟨s, { addr with port := port }, curPort + 1⟩
  else if tok = rune ':' then
    .next ⟨s, { addr with port_op := PF_OP_RRG }, curPort⟩
  else if tok = rune '!' then
    if curPort ≠ 0 then .stop (.ret ⟨addr, curPort⟩ (some .numberBeforeBang))
    else if scanner.Peek s = rune '=' then
      .next ⟨scanner.Next s, { addr with port_op := PF_OP_NE }, curPort⟩
    else .stop (.ret ⟨addr, curPort⟩ (some .expectedEq))
  else if tok = rune '<' then
    if scanner.Peek s = rune '>' then
      .next ⟨scanner.Next s, { addr with port_op := PF_OP_XRG }, curPort⟩
    else if scanner.Peek s = rune '=' then
      .next ⟨scanner.Next s, { addr with port_op := PF_OP_LE }, curPort⟩
    else if scanner.Peek s ≥ rune '0' ∧ scanner.Peek s ≤ rune '9' then
      .next ⟨s, { addr with port_op := PF_OP_LT }, curPort⟩
    else .stop (.ret ⟨addr, curPort⟩ (some (.expectedPortNumber (scanner.Peek s))))
  else if tok = rune '>' then
    if scanner.Peek s = rune '<' then
      .next ⟨scanner.Next s, { addr with port_op := PF_OP_IRG }, curPort⟩
    else if scanner.Peek s = rune '=' then
      .next ⟨scanner.Next s, { addr with port_op := PF_OP_GE }, curPort⟩
    else if scanner.Peek s ≥ rune '0' ∧ scanner.Peek s ≤ rune '9' then
      .next ⟨s, { addr with port_op := PF_OP_GT }, curPort⟩
    else .stop (.ret ⟨addr, curPort⟩ (some (.expectedPortNumber (scanner.Peek s))))
  else if tok = -1 then
    if curPort = 1 ∧ addr.port_op = PF_OP_NONE then
      .stop (.ret ⟨{ addr with port_op := PF_OP_EQ }, curPort⟩ none)
    else .stop (.ret ⟨addr, curPort⟩ none)
  else .stop (.ret ⟨addr, curPort⟩ (some (.unexpectedChar (scanner.Peek s))))

/-- The loop `for tok != scanner.EOF` of `parsePort`, with fuel: every
iteration that goes on has consumed a rune. -/
def parsePortLoop (U : UnicodeTables) : Nat → PortLoop → Outcome PortResult PortError
  | 0, _ => .outOfFuel
  | n + 1, st =>
    match parsePortBody U st with
    | .next st1 => parsePortLoop U n st1
    | .stop out => out

/-- The run of `parsePort(addr, port)`, with the final value of `curPort` kept
next to the record. -/
def parsePortRun (U : UnicodeTables) (addr : pf_rule_addr) (port : String) :
    Outcome PortResult PortError :=
  let s := scanner.Init port
  parsePortLoop U (s.length + 1) ⟨s, { addr with port_op := PF_OP_NONE }, 0⟩

/-- Go `parsePort(addr, port)`: the record as the call leaves it and the
error returned. -/
def parsePort (U : UnicodeTables) (addr : pf_rule_addr) (port : String) :
    Outcome pf_rule_addr PortError :=
  match parsePortRun U addr port with
  | .ret r err => .ret r.addr err
  | .panic => .panic
  | .outOfFuel => .outOfFuel

/-! ## Package `net`: `ParseIP`, `ParseCIDR`, `CIDRMask` -/

namespace net

/-- The loop of `parseIPv4Fields` over the text of a dotted quad: `val` and
`digLen` describe the octet being read, `fields` holds the octets closed by a
dot so far (`pos` is its length), `first` tells that the rune at hand is the
first of the text and `prevDot` that the one before it was a dot.  The result
is the four octets, `none` when the function returns an error. -/
def parseIPv4Loop : List Char → Nat → Nat → List Nat → Bool → Bool → Option (List Nat)
  | [], val, _, fields, _, _ =>
    if fields.length < 3 then none else some (fields ++ [val])
  | c :: r, val, digLen, fields, first, prevDot =>
    if 48 ≤ c.toNat ∧ c.toNat ≤ 57 then
      if digLen = 1 ∧ val = 0 then none
      else
        let val1 := val * 10 + c.toNat - 48
        if val1 > 255 then none
        else parseIPv4Loop r val1 (digLen + 1) fields false false
    else if c.toNat = 46 then
      if first ∨ r = [] ∨ prevDot then none
      else if fields.length = 3 then none
      else parseIPv4Loop r 0 0 (fields ++ [val]) false true
    else none

/-- Go `parseIPv4Fields` of `net/netip` on a whole text: the four octets. -/
def parseIPv4Fields (s : List Char) : Option (List Nat) :=
  parseIPv4Loop s 0 0 [] true false

/-- The value of a hexadecimal digit, `none` for another rune. -/
def hexVal (c : Char) : Option Nat :=
  if 48 ≤ c.toNat ∧ c.toNat ≤ 57 then some (c.toNat - 48)
  else if 97 ≤ c.toNat ∧ c.toNat ≤ 102 then some (c.toNat - 97 + 10)
  else if 65 ≤ c.toNat ∧ c.toNat ≤ 70 then some (c.toNat - 65 + 10)
  else none

/-- The inner loop of `parseIPv6` reading one group of hexadecimal digits:
the number of digits, their value and the text after them; `none` for a fifth
digit or a value above 16 bits. -/
def parseHexGroup : List Char → Nat → Nat → Option (Nat × Nat × List Char)
  | [], off, acc => some (off, acc, [])
  | c :: r, off, acc =>
    match hexVal c with
    | none => some (off, acc, c :: r)
    | some d =>
      let acc1 := (acc * 16 + d) % 2 ^ 32
      if off > 3 then none
      else if acc1 > 65535 then none
      else parseHexGroup r (off + 1) acc1

/-- What the group loop of `parseIPv6` hands over: the text left, the bytes
stored so far (`i` is their number) and the position of the ellipsis. -/
structure V6Groups where
  /-- The text not yet read. -/
  s : List Char
  /-- The bytes `ip[0:i]`. -/
  ip : List Nat
  /-- The position of the ellipsis in `ip`, if one was read. -/
  ellipsis : Option Nat
deriving DecidableEq, Repr

/-- The loop `for i < 16` of `parseIPv6`, each iteration of which stores two
bytes (four for a trailing dotted quad); `none` when it returns an error. -/
def parseIPv6Loop : Nat → List Char → List Nat → Option Nat → Option V6Groups
  | 0, s, ip, ellipsis => some ⟨s, ip, ellipsis⟩
  | n + 1, s, ip, ellipsis =>
    if ¬ ip.length < 16 then some ⟨s, ip, ellipsis⟩
    else
      match parseHexGroup s 0 0 with
      | none => none
      | some (off, acc, rest) =>
        if off = 0 then none
        else if rest.head? = some '.' then
          if ellipsis = none ∧ ip.length ≠ 12 then none
          else if ip.length + 4 > 16 then none
          else
            match parseIPv4Fields s with
            | none => none
            | some quad => some ⟨[], ip ++ quad, ellipsis⟩
        else
          let ip1 := ip ++ [acc / 256 % 256, acc % 256]
          match rest with
          | [] => some ⟨[], ip1, ellipsis⟩
          | c :: r =>
            if c ≠ ':' then none
            else if r = [] then none
            else
              match r with
              | [] => none
              | c2 :: r2 =>
                if c2 = ':' then
                  if ellipsis ≠ none then none
                  else if r2 = [] then some ⟨[], ip1, some ip1.length⟩
                  else parseIPv6Loop n r2 ip1 (some ip1.length)
                else parseIPv6Loop n (c2 :: r2) ip1 ellipsis

/-- An address of `net/netip`: four bytes, or sixteen bytes with a zone. -/
inductive Addr where
  | v4 (b : List Nat)
  | v6 (b : List Nat) (zone : List Char)
deriving DecidableEq, Repr

/-- The end of `parseIPv6`, after the group loop: the whole text must have
been read, and an ellipsis is expanded to the zero bytes that are missing. -/
def parseIPv6Finish (g : V6Groups) (zone : List Char) : Option Addr :=
  if g.s ≠ [] then none
  else if g.ip.length < 16 then
    match g.ellipsis with
    | none => none
    | some e =>
      some (.v6 (g.ip.take e ++ List.replicate (16 - g.ip.length) 0 ++ g.ip.drop e) zone)
  else if g.ellipsis ≠ none then none
  else some (.v6 g.ip zone)

/-- Go `parseIPv6` of `net/netip`: the zone is split off at the first percent
sign, a leading ellipsis is read, the groups are read, and the ellipsis is
expanded to the missing zero bytes. -/
def parseIPv6 (text : List Char) : Option Addr :=
  let s := text.takeWhile (fun c => c ≠ '%')
  let zone := (text.dropWhile (fun c => c ≠ '%')).tail
  if '%' ∈ text ∧ zone = [] then none
  else if s.take 2 = [':', ':'] then
    if s.drop 2 = [] then some (.v6 (List.replicate 16 0) zone)
    else (parseIPv6Loop 9 (s.drop 2) [] (some 0)).bind (fun g => parseIPv6Finish g zone)
  else (parseIPv6Loop 9 s [] none).bind (fun g => parseIPv6Finish g zone)

/-- Go `netip.ParseAddr`: the first dot, colon or percent sign of the text
selects the parser. -/
def ParseAddr (s : List Char) : Option Addr :=
  match s.find? (fun c => c = '.' ∨ c = ':' ∨ c = '%') with
  | some c =>
    if c = '.' then (parseIPv4Fields s).map Addr.v4
    else if c = ':' then parseIPv6 s
    else none
  | none => none

/-- The twelve bytes that lead an IPv4 address in its 16-byte form. -/
def v4InV6Prefix : List Nat := [0, 0, 0, 0, 0, 0, 0, 0, 0, 0, 0xff, 0xff]

/-- Go `Addr.As16`. -/
def Addr.As16 : Addr → List Nat
  | .v4 b => v4InV6Prefix ++ b
  | .v6 b _ => b

/-- Go `Addr.BitLen`. -/
def Addr.BitLen : Addr → Nat
  | .v4 _ => 32
  | .v6 _ _ => 128

/-- Go `Addr.Zone`. -/
def Addr.Zone : Addr → List Char
  | .v4 _ => []
  | .v6 _ z => z

/-- Go `net.ParseIP`: the 16-byte form of the address, the nil slice (`[]`)
when the text is not an address or carries a zone. -/
def ParseIP (s : String) : List Nat :=
  match ParseAddr s.toList with
  | some a => if a.Zone ≠ [] then [] else a.As16
  | none => []

/-- Go `IP.To4`: the four bytes of an IPv4 address, the nil slice otherwise. -/
def To4 (ip : List Nat) : List Nat :=
  if ip.length = 4 then ip
  else if ip.length = 16 ∧ ip.take 10 = List.replicate 10 0 ∧ ip.drop 10 = 0xff :: 0xff :: ip.drop 12
  then ip.drop 12
  else []

/-- The loop of `net.CIDRMask`: `l` bytes of which the first `n` bits are
set. -/
def cidrMaskLoop : Nat → Nat → List Nat
  | 0, _ => []
  | l + 1, n =>
    if n ≥ 8 then 0xff :: cidrMaskLoop l (n - 8)
    else (0xff - 0xff / 2 ^ n) :: cidrMaskLoop l 0

/-- Go `net.CIDRMask(ones, bits)`: the nil slice unless `bits` is 32 or 128 and
`ones` is at most `bits`. -/
def CIDRMask (ones bits : Nat) : List Nat :=
  if bits ≠ 32 ∧ bits ≠ 128 then []
  else if ones > bits then []
  else cidrMaskLoop (bits / 8) ones

/-- Go `IP.Mask`: the bytes of the address and of the mask are combined with
a bitwise and, after a 16-byte IPv4 address met by a 4-byte mask (or the
converse) is cut to four bytes. -/
def Mask (ip mask : List Nat) : List Nat :=
  let mask1 := if mask.length = 16 ∧ ip.length = 4 ∧ mask.take 12 = List.replicate 12 0xff
    then mask.drop 12 else mask
  let ip1 := if mask1.length = 4 ∧ ip.length = 16 ∧ ip.take 12 = v4InV6Prefix
    then ip.drop 12 else ip
  if ip1.length ≠ mask1.length then []
  else List.zipWith (fun a b => a &&& b) ip1 mask1

/-- Go `dtoi`: the decimal number at the head of the text, the number of
runes read, and whether a number below 0xFFFFFF was read. -/
def dtoiLoop : List Char → Nat → Nat → Nat × Nat × Bool
  | [], n, i => (n, i, decide (i ≠ 0))
  | c :: r, n, i =>
    if 48 ≤ c.toNat ∧ c.toNat ≤ 57 then
      let n1 := n * 10 + (c.toNat - 48)
      if n1 ≥ 0xFFFFFF then (0xFFFFFF, i, false) else dtoiLoop r n1 (i + 1)
    else (n, i, decide (i ≠ 0))

/-- A network as `net.IPNet`: address and mask. -/
structure IPNet where
  /-- The network address. -/
  IP : List Nat
  /-- The network mask. -/
  Mask : List Nat
deriving DecidableEq, Repr

/-- Go `net.ParseCIDR`, its second result: the network of the text `ip/len`,
`none` when an error is returned. -/
def ParseCIDR (s : String) : Option IPNet :=
  let t := s.toList
  if '/' ∉ t then none
  else
    let addr := t.takeWhile (fun c => c ≠ '/')
    let mask := (t.dropWhile (fun c => c ≠ '/')).tail
    match ParseAddr addr with
    | none => none
    | some ipAddr =>
      if ipAddr.Zone ≠ [] then none
      else
        let d := dtoiLoop mask 0 0
        if ¬ d.2.2 ∨ d.2.1 ≠ mask.length ∨ d.1 > ipAddr.BitLen then none
        else
          let m := CIDRMask d.1 ipAddr.BitLen
          some ⟨Mask ipAddr.As16 m, m⟩

end net

/-! ## `parseAddress`, `ParseSource`, `ParseDestination` -/

/-- The error values the functions of `rule_parse.go` return. -/
inductive GoError where
  /-- An error built by `parsePort`. -/
  | port (e : PortError)
  /-- The `*net.ParseError` of `net.ParseCIDR` for the text. -/
  | cidr (text : String)
deriving DecidableEq, Repr

/-- Go `copy(dst[lo:hi], src)` on the bytes `dst`: as many bytes as the shorter
of the two slices holds are written from `lo` on. -/
def copyInto (dst : List Nat) (lo hi : Nat) (src : List Nat) : List Nat :=
  let n := min (hi - lo) src.length
  dst.take lo ++ src.take n ++ dst.drop (lo + n)

/-- Go `strings.ContainsRune`. -/
def ContainsRune (s : String) (r : Char) : Bool := decide (r ∈ s.toList)

/-- Go `parseAddress(addr, address, negative)`: the record as the call leaves
it and the error returned. -/
def parseAddress (addr : pf_rule_addr) (address : String) (negative : Bool) :
    Outcome pf_rule_addr GoError :=
  let addr := if negative then { addr with neg := 1 } else addr
  if ContainsRune address '/' then
    match net.ParseCIDR address with
    | none => .ret addr (some (.cidr address))
    | some n =>
      if ContainsRune address ':' then
        .ret { addr with v := copyInto (copyInto addr.v 0 16 n.IP) 16 32 n.Mask } none
      else
        .ret { addr with v := copyInto (copyInto addr.v 0 4 (net.To4 n.IP)) 16 20 n.Mask } none
  else
    let n := net.ParseIP address
    if ContainsRune address ':' then
      .ret { addr with v := copyInto (copyInto addr.v 0 16 n) 16 32 (net.CIDRMask 128 128) } none
    else
      .ret { addr with v := copyInto (copyInto addr.v 0 4 (net.To4 n)) 16 20 (net.CIDRMask 32 32) }
        none

/-- Modelled from the spec: the address families of a rule, `AddressFamilyInet`
and `AddressFamilyInet6`, declared outside `rule_parse.go`. -/
inductive AddressFamily where
  | AddressFamilyInet
  | AddressFamilyInet6
deriving DecidableEq, Repr

/-- Modelled from the spec: the rule object, declared outside `rule_parse.go`,
reduced to what the endpoint parser reaches: the two endpoints
`r.wrap.rule.src` and `r.wrap.rule.dst` and the address family shared by both
sides. -/
structure Rule where
  /-- The endpoint `r.wrap.rule.src`. -/
  src : pf_rule_addr
  /-- The endpoint `r.wrap.rule.dst`. -/
  dst : pf_rule_addr
  /-- The address family of the rule. -/
  af : AddressFamily
deriving DecidableEq, Repr

/-- Modelled from the spec: `Rule.SetAddressFamily`, defined outside
`rule_parse.go`, records the family in the rule and touches nothing else. -/
def Rule.SetAddressFamily (r : Rule) (af : AddressFamily) : Rule := { r with af := af }

/-- Go `Rule.ParseSource(src, port, neg)`. -/
def Rule.ParseSource (U : UnicodeTables) (r : Rule) (src port : String) (neg : Bool) :
    Outcome Rule GoError :=
  match parsePort U r.src port with
  | .panic => .panic
  | .outOfFuel => .outOfFuel
  | .ret a (some err) => .ret { r with src := a } (some (.port err))
  | .ret a none =>
    match parseAddress a src neg with
    | .panic => .panic
    | .outOfFuel => .outOfFuel
    | .ret a1 (some err) => .ret { r with src := a1 } (some err)
    | .ret a1 none =>
      if ContainsRune src ':' then
        .ret (Rule.SetAddressFamily { r with src := a1 } .AddressFamilyInet6) none
      else
        .ret (Rule.SetAddressFamily { r with src := a1 } .AddressFamilyInet) none

/-- Go `Rule.ParseDestination(dst, port, neg)`. -/
def Rule.ParseDestination (U : UnicodeTables) (r : Rule) (dst port : String) (neg : Bool) :
    Outcome Rule GoError :=
  match parsePort U r.dst port with
  | .panic => .panic
  | .outOfFuel => .outOfFuel
  | .ret a (some err) => .ret { r with dst := a } (some (.port err))
  | .ret a none =>
    match parseAddress a dst neg with
    | .panic => .panic
    | .outOfFuel => .outOfFuel
    | .ret a1 err => .ret { r with dst := a1 } err

/-! ## Vocabulary of the properties -/

/-- The tokens that repeated calls of `Scan` return before `EOF`, with fuel:
every token consumes a rune. -/
def scanner.tokensFuel (U : UnicodeTables) : Nat → List Char → List scanner.Scanned
  | 0, _ => []
  | n + 1, s =>
    if (scanner.Scan U s).tok = scanner.EOF then []
    else scanner.Scan U s :: scanner.tokensFuel U n (scanner.Scan U s).rest

/-- The token stream of a text: the tokens `Scan` returns on it, in order, up
to the end of input. -/
def scanner.tokens (U : UnicodeTables) (s : List Char) : List scanner.Scanned :=
  scanner.tokensFuel U s.length s

/-- The value of a text of decimal digits. -/
def decimalValue (text : List Char) : Nat :=
  text.foldl (fun n c => n * 10 + (c.toNat - 48)) 0

/-- The run of `parsePort` from a state of its loop, with the fuel the input
left calls for. -/
def parsePortFrom (U : UnicodeTables) (st : PortLoop) : Outcome PortResult PortError :=
  parsePortLoop U (st.s.length + 1) st

/-- What may follow the digits of a decimal literal for `scanNumber` to stop
there with an `Int` token: the end of input, or a rune that is no digit, no
underscore, no dot and none of the letters `e`, `p`, `x`, `o`, `b` in either
case. -/
def scanner.NumEnd (rest : List Char) : Prop :=
  ∀ c, rest.head? = some c →
    scanner.isDecimal c = false ∧ c.toNat ≠ 95 ∧ c.toNat ≠ 46 ∧ scanner.lower c ≠ 101 ∧
      scanner.lower c ≠ 112 ∧ scanner.lower c ≠ 120 ∧ scanner.lower c ≠ 111 ∧
      scanner.lower c ≠ 98

/-- A record to evaluate the definitions on: all bytes zero, no port, the
operator `PF_OP_GE` left over from an earlier use. -/
def sampleAddr : pf_rule_addr := ⟨List.replicate 32 0, (0, 0), 0, PF_OP_GE⟩

/-- A rule to evaluate the definitions on. -/
def sampleRule : Rule := ⟨sampleAddr, sampleAddr, .AddressFamilyInet⟩

/-- The number of integer tokens in a token stream. -/
def intTokens (ts : List scanner.Scanned) : Nat :=
  ts.countP (fun t => decide (t.tok = -3))

/-- The texts of the integer tokens of a token stream, in order. -/
def intTexts (ts : List scanner.Scanned) : List (List Char) :=
  (ts.filter (fun t => decide (t.tok = -3))).map (fun t => t.text)

/-- The first `n` slots of the array `port[2]`, in order. -/
def portSlots (port : Nat × Nat) (n : Nat) : List Nat := [port.1, port.2].take n

/-- The two bytes of a 16-bit value in the memory of a little-endian host, the
lower address first. -/
def memoryBytes (x : Nat) : Nat × Nat := (x % 256, x / 256 % 256)

/-- An operand of value `a`, read from the token text `text`, stored in the
slot `slot` in network byte order on a little-endian host: `text` parses to
`a`, which fits 16 bits; the slot holds `htons(a)`, the byte swap of `a`, whose
bytes in memory are the high byte of `a` and then its low byte; and the same
swap gives `a` back. -/
def StoredInNetworkOrder (text : List Char) (slot : Nat) : Prop :=
  ∃ a, strconv.ParseUint text 10 16 = .ok a ∧ a ≤ 65535 ∧ slot = htons a ∧
    htons a = 256 * (a % 256) + a / 256 ∧ memoryBytes slot = (a / 256, a % 256) ∧
    htons slot = a

/-- A token of the port grammar: the value `Scan` returned and the rune that
stood right after the token (`EOF` at the end of input). -/
structure PortToken where
  /-- The token value. -/
  tok : Int
  /-- The rune right after the token, as `s.Peek()` gives it. -/
  peek : Int
deriving DecidableEq, Repr

/-- The second rune of a two-rune operator belongs to the operator: after `!`
an `=`, after `<` a `>` or an `=`, after `>` a `<` or an `=` is consumed, the
way `parsePort` does it with `s.Next()`. -/
def portAdvance (tok : Int) (s : List Char) : List Char :=
  if tok = rune '!' ∧ scanner.Peek s = rune '=' then scanner.Next s
  else if tok = rune '<' ∧ (scanner.Peek s = rune '>' ∨ scanner.Peek s = rune '=') then
    scanner.Next s
  else if tok = rune '>' ∧ (scanner.Peek s = rune '<' ∨ scanner.Peek s = rune '=') then
    scanner.Next s
  else s

/-- The tokens of the port grammar on an input, with fuel: every token
consumes a rune. -/
def portTokensFuel (U : UnicodeTables) : Nat → List Char → List PortToken
  | 0, _ => []
  | n + 1, s =>
    if (scanner.Scan U s).tok = scanner.EOF then []
    else
      ⟨(scanner.Scan U s).tok, scanner.Peek (scanner.Scan U s).rest⟩ ::
        portTokensFuel U n (portAdvance (scanner.Scan U s).tok (scanner.Scan U s).rest)

/-- The token stream of the port grammar: the tokens of the scanner, which
skips white space and comments, where the operators `!=`, `<=`, `<>`, `>=` and
`><` are one token each, named by their first rune. -/
def portTokens (U : UnicodeTables) (s : List Char) : List PortToken :=
  portTokensFuel U s.length s

/-- The eight bits of a byte, the most significant first. -/
def byteBits (b : Nat) : List Bool :=
  [decide (b / 128 % 2 = 1), decide (b / 64 % 2 = 1), decide (b / 32 % 2 = 1),
    decide (b / 16 % 2 = 1), decide (b / 8 % 2 = 1), decide (b / 4 % 2 = 1),
    decide (b / 2 % 2 = 1), decide (b % 2 = 1)]

/-- The bits of a mask, byte after byte, the most significant bit first. -/
def maskBits : List Nat → List Bool
  | [] => []
  | b :: m => byteBits b ++ maskBits m

/-- The prefix length recomputed from a mask: the number of its leading
one-bits. -/
def prefixLength (mask : List Nat) : Nat := ((maskBits mask).takeWhile id).length

/-! ## The scanner consumes its input -/

namespace scanner

theorem scanIdentifier_length (U : UnicodeTables) (s : List Char) :
    (scanIdentifier U s).length ≤ s.length := by
  induction s with
  | nil => simp [scanIdentifier]
  | cons ch r ih =>
    unfold scanIdentifier
    split
    · exact Nat.le_succ_of_le ih
    · exact Nat.le_refl _

theorem digits_length (base : Nat) (s : List Char) : (digits base s).length ≤ s.length := by
  induction s with
  | nil => simp [digits]
  | cons ch r ih =>
    unfold digits
    split_ifs
    · exact Nat.le_succ_of_le ih
    · exact Nat.le_refl _
    · exact Nat.le_succ_of_le ih
    · exact Nat.le_refl _

theorem scanNumberLead_length (s : List Char) : (scanNumberLead s).2.length ≤ s.length := by
  unfold scanNumberLead
  split
  · simp
  · split_ifs
    · split
      · simp
      · split_ifs <;> simp <;> omega
    · simp

theorem scanExponent_length (tok : Int) (s : List Char) :
    (scanExponent tok s).2.length ≤ s.length := by
  unfold scanExponent
  split
  · simp
  · split_ifs
    · split
      · simp
      · rename_i c r2
        split_ifs
        · have := digits_length 10 r2
          simp only [List.length_cons]; omega
        · have := digits_length 10 (c :: r2)
          simp only [List.length_cons] at this ⊢; omega
    · simp

theorem scanNumber_length (s : List Char) (seenDot : Bool) :
    (scanNumber s seenDot).2.length ≤ s.length := by
  unfold scanNumber
  have h1 := scanNumberLead_length s
  have h2 := digits_length (scanNumberLead s).1 (scanNumberLead s).2
  split_ifs
  · exact Nat.le_trans (scanExponent_length _ _) (digits_length _ _)
  · simp only
    split
    · simp [scanExponent]
    · rename_i ch r heq
      rw [heq] at h2
      split_ifs
      · have h3 := scanExponent_length FloatTok (digits (scanNumberLead s).1 r)
        have h4 := digits_length (scanNumberLead s).1 r
        simp only [List.length_cons] at h2; omega
      · have h3 := scanExponent_length IntTok (ch :: r)
        omega

theorem scanNumber_consumes (ch : Char) (r : List Char) (h : isDecimal ch = true) :
    (scanNumber (ch :: r) false).2.length ≤ r.length := by
  have key : (digits (scanNumberLead (ch :: r)).1 (scanNumberLead (ch :: r)).2).length
      ≤ r.length := by
    by_cases h0 : ch.toNat = 48
    · have h1 : (scanNumberLead (ch :: r)).2.length ≤ r.length := by
        unfold scanNumberLead
        simp only [h0, if_true]
        split
        · simp
        · split_ifs <;> simp
      exact Nat.le_trans (digits_length _ _) h1
    · have h1 : scanNumberLead (ch :: r) = (10, ch :: r) := by
        simp [scanNumberLead, h0]
      rw [h1]
      simp only [digits, h, Bool.true_or, if_true, Nat.le_refl]
      exact digits_length _ _
  unfold scanNumber
  simp only [Bool.false_eq_true, if_false]
  split
  · simp [scanExponent]
  · rename_i c r2 heq
    rw [heq] at key
    split_ifs
    · have h3 := scanExponent_length FloatTok (digits (scanNumberLead (ch :: r)).1 r2)
      have h4 := digits_length (scanNumberLead (ch :: r)).1 r2
      simp only [List.length_cons] at key; omega
    · have h3 := scanExponent_length IntTok (c :: r2)
      omega

theorem scanDigits_length (base n : Nat) (s : List Char) :
    (scanDigits base n s).length ≤ s.length := by
  induction n generalizing s with
  | zero => simp [scanDigits]
  | succ n ih =>
    cases s with
    | nil => simp [scanDigits]
    | cons ch r =>
      unfold scanDigits
      split_ifs
      · exact Nat.le_succ_of_le (ih r)
      · exact Nat.le_refl _

theorem scanEscape_length (quote ch : Char) (r : List Char) :
    (scanEscape quote (ch :: r)).length ≤ r.length := by
  unfold scanEscape
  simp only [List.tail_cons]
  split
  · simp
  · rename_i c r2
    split_ifs
    · simp
    · exact scanDigits_length _ _ _
    · exact Nat.le_succ_of_le (scanDigits_length _ _ _)
    · exact Nat.le_succ_of_le (scanDigits_length _ _ _)
    · exact Nat.le_succ_of_le (scanDigits_length _ _ _)
    · exact Nat.le_refl _

theorem scanStringLoop_length (quote : Char) (n : Nat) (s : List Char) :
    (scanStringLoop quote n s).length ≤ s.length := by
  induction n generalizing s with
  | zero => simp [scanStringLoop]
  | succ n ih =>
    cases s with
    | nil => simp [scanStringLoop]
    | cons ch r =>
      unfold scanStringLoop
      split_ifs
      · exact Nat.le_refl _
      · exact Nat.le_refl _
      · exact Nat.le_trans (ih _) (Nat.le_succ_of_le (scanEscape_length quote ch r))
      · exact Nat.le_succ_of_le (ih r)

/-- The fuel of the string loop is never used up: any two amounts that reach
the length of the input give the same result. -/
theorem scanStringLoop_irrelevant (quote : Char) (n m : Nat) (s : List Char)
    (hn : s.length ≤ n) (hm : s.length ≤ m) :
    scanStringLoop quote n s = scanStringLoop quote m s := by
  induction n generalizing m s with
  | zero =>
    have hs : s = [] := List.length_eq_zero.mp (by omega)
    subst hs
    cases m <;> rfl
  | succ n ih =>
    cases s with
    | nil => cases m <;> rfl
    | cons ch r =>
      cases m with
      | zero => simp at hm
      | succ m =>
        simp only [List.length_cons] at hn hm
        have he := scanEscape_length quote ch r
        simp only [scanStringLoop]
        split_ifs
        · rfl
        · rfl
        · exact ih m _ (by omega) (by omega)
        · exact ih m _ (by omega) (by omega)

theorem scanRawStringLoop_length (s : List Char) : (scanRawStringLoop s).length ≤ s.length := by
  induction s with
  | nil => simp [scanRawStringLoop]
  | cons ch r ih =>
    unfold scanRawStringLoop
    split_ifs
    · exact Nat.le_refl _
    · exact Nat.le_succ_of_le ih

theorem scanLineComment_length (s : List Char) : (scanLineComment s).length ≤ s.length := by
  induction s with
  | nil => simp [scanLineComment]
  | cons ch r ih =>
    unfold scanLineComment
    split_ifs
    · exact Nat.le_refl _
    · exact Nat.le_succ_of_le ih

theorem scanGeneralComment_length (s : List Char) : (scanGeneralComment s).length ≤ s.length := by
  induction s with
  | nil => simp [scanGeneralComment]
  | cons ch r ih =>
    unfold scanGeneralComment
    split
    · simp
    · split_ifs
      · simp only [List.length_cons]; omega
      · exact Nat.le_succ_of_le ih

theorem scanComment_length (ch : Char) (r : List Char) :
    (scanComment (ch :: r)).length ≤ r.length := by
  simp only [scanComment]
  split_ifs
  · exact scanLineComment_length r
  · exact scanGeneralComment_length r

theorem skipWhitespace_length (s : List Char) : (skipWhitespace s).length ≤ s.length := by
  induction s with
  | nil => simp [skipWhitespace]
  | cons ch r ih =>
    unfold skipWhitespace
    split_ifs
    · exact Nat.le_succ_of_le ih
    · exact Nat.le_refl _

/-- A pass over a non-empty input consumes a rune, whatever it returns. -/
theorem scanPass_token_length (U : UnicodeTables) (s : List Char) (tok : Int)
    (rest : List Char) (h : scanPass U s = .token tok rest) :
    rest.length ≤ s.length ∧ (tok ≠ EOF → rest.length < s.length) := by
  cases s with
  | nil =>
    simp only [scanPass, Pass.token.injEq] at h
    obtain ⟨h1, h2⟩ := h
    subst h1 h2
    simp
  | cons ch r =>
    suffices hlt : rest.length ≤ r.length by
      simp only [List.length_cons]
      exact ⟨Nat.le_succ_of_le hlt, fun _ => Nat.lt_succ_of_le hlt⟩
    simp only [scanPass] at h
    split_ifs at h with h1 h2 h3 h4 h5 h6 h7
    · simp only [Pass.token.injEq] at h
      rw [← h.2]; exact scanIdentifier_length U r
    · simp only [Pass.token.injEq] at h
      rw [← h.2]; exact scanNumber_consumes ch r h2
    · simp only [Pass.token.injEq] at h
      rw [← h.2]
      have := scanStringLoop_length ch (ch :: r).length r
      simp only [scanString, List.tail_cons, List.length_tail]; omega
    · simp only [Pass.token.injEq] at h
      rw [← h.2]
      have := scanStringLoop_length ch (ch :: r).length r
      simp only [scanString, List.tail_cons, List.length_tail]; omega
    · split at h
      · simp only [Pass.token.injEq] at h
        rw [← h.2]
      · rename_i c r2
        split_ifs at h
        · simp only [Pass.token.injEq] at h
          rw [← h.2]; exact scanNumber_length _ _
        · simp only [Pass.token.injEq] at h
          rw [← h.2]
    · split at h
      · simp only [Pass.token.injEq] at h
        rw [← h.2]
      · rename_i c r2
        split_ifs at h
        simp only [Pass.token.injEq] at h
        rw [← h.2]
    · simp only [Pass.token.injEq] at h
      rw [← h.2]
      have := scanRawStringLoop_length r
      simp only [List.length_tail]; omega
    · simp only [Pass.token.injEq] at h
      rw [← h.2]

theorem scanPass_redo_length (U : UnicodeTables) (s rest : List Char)
    (h : scanPass U s = .redo rest) : rest.length < s.length := by
  cases s with
  | nil => simp [scanPass] at h
  | cons ch r =>
    cases r with
    | nil =>
      simp only [scanPass] at h
      split_ifs at h
    | cons c r2 =>
      simp only [scanPass] at h
      split_ifs at h
      simp only [Pass.redo.injEq] at h
      rw [← h]
      have := scanComment_length c r2
      simp only [List.length_cons]; omega

theorem scanFuel_length (U : UnicodeTables) (n : Nat) (s : List Char) :
    (scanFuel U n s).rest.length ≤ s.length ∧
      ((scanFuel U n s).tok ≠ EOF → (scanFuel U n s).rest.length < s.length) := by
  induction n generalizing s with
  | zero => simp [scanFuel]
  | succ n ih =>
    have hw := skipWhitespace_length s
    unfold scanFuel
    simp only
    split
    · rename_i tok rest heq
      have := scanPass_token_length U _ tok rest heq
      exact ⟨by simp only; omega, fun h => by have := this.2 h; simp only; omega⟩
    · rename_i rest heq
      have h1 := scanPass_redo_length U _ rest heq
      have h2 := ih rest
      exact ⟨by omega, fun h => by have := h2.2 h; omega⟩

/-- The fuel of `Scan` is never used up: any two amounts above the length of
the input give the same token. -/
theorem scanFuel_irrelevant (U : UnicodeTables) (n m : Nat) (s : List Char)
    (hn : s.length < n) (hm : s.length < m) : scanFuel U n s = scanFuel U m s := by
  induction n generalizing m s with
  | zero => omega
  | succ n ih =>
    cases m with
    | zero => omega
    | succ m =>
      have hw := skipWhitespace_length s
      simp only [scanFuel]
      split
      · rfl
      · rename_i rest heq
        have h1 := scanPass_redo_length U _ rest heq
        exact ih m rest (by omega) (by omega)

/-- The equation of `Scan`: white space is skipped, a token is returned with
its text, and scanning starts over after a comment. -/
theorem Scan_eq (U : UnicodeTables) (s : List Char) :
    Scan U s =
      match scanPass U (skipWhitespace s) with
      | .token tok rest =>
        ⟨tok, (skipWhitespace s).take ((skipWhitespace s).length - rest.length), rest⟩
      | .redo rest => Scan U rest := by
  have hw := skipWhitespace_length s
  simp only [Scan, scanFuel]
  split
  · rfl
  · rename_i rest heq
    have h1 := scanPass_redo_length U _ rest heq
    exact scanFuel_irrelevant U s.length (rest.length + 1) rest (by omega) (by omega)

theorem Scan_length (U : UnicodeTables) (s : List Char) :
    (Scan U s).rest.length ≤ s.length ∧
      ((Scan U s).tok ≠ EOF → (Scan U s).rest.length < s.length) :=
  scanFuel_length U _ s

end scanner

/-! ## The loop of `parsePort` -/

theorem setPort_isSome (port : Nat × Nat) (i x : Nat) (h : i < 2) :
    ∃ p, setPort port i x = some p := by
  have : i = 0 ∨ i = 1 := by omega
  rcases this with rfl | rfl
  · exact ⟨_, rfl⟩
  · exact ⟨_, rfl⟩

theorem tok_ne_EOF (t : Int)
    (h : t = -3 ∨ t = rune ':' ∨ t = rune '!' ∨ t = rune '<' ∨ t = rune '>') :
    t ≠ scanner.EOF := by
  rcases h with h | h | h | h | h <;> rw [h] <;> decide

/-- An iteration that goes on has read a token other than `EOF` and left the
scanner right after it, or one rune further when that rune was consumed with
`s.Next()`. -/
theorem parsePortBody_next (U : UnicodeTables) (st st1 : PortLoop)
    (h : parsePortBody U st = .next st1) :
    (scanner.Scan U st.s).tok ≠ scanner.EOF ∧
      (st1.s = (scanner.Scan U st.s).rest ∨ st1.s = (scanner.Scan U st.s).rest.tail) := by
  unfold parsePortBody at h
  simp only at h
  split_ifs at h
  · split at h
    · simp at h
    · split_ifs at h
      split at h
      · simp at h
      · simp only [PortStep.next.injEq] at h
        rw [← h]
        exact ⟨tok_ne_EOF _ (by simp [*]), Or.inl rfl⟩
  all_goals
    simp only [PortStep.next.injEq] at h
    rw [← h]
    refine ⟨tok_ne_EOF _ (by simp [*]), ?_⟩
    first
      | exact Or.inl rfl
      | exact Or.inr rfl

theorem parsePortBody_next_length (U : UnicodeTables) (st st1 : PortLoop)
    (h : parsePortBody U st = .next st1) : st1.s.length < st.s.length := by
  obtain ⟨h1, h2⟩ := parsePortBody_next U st st1 h
  have h3 := (scanner.Scan_length U st.s).2 h1
  rcases h2 with h2 | h2
  · rw [h2]; exact h3
  · rw [h2, List.length_tail]; omega

/-- An iteration that leaves the function returns: the index of the port
written is below 2, so the assignment does not panic. -/
theorem parsePortBody_stop (U : UnicodeTables) (st : PortLoop)
    (out : Outcome PortResult PortError) (h : parsePortBody U st = .stop out) :
    ∃ r e, out = .ret r e := by
  unfold parsePortBody at h
  simp only at h
  split_ifs at h with h1 h2
  any_goals exact ⟨_, _, (PortStep.stop.inj h).symm⟩
  split at h
  · exact ⟨_, _, (PortStep.stop.inj h).symm⟩
  · split_ifs at h
    · exact ⟨_, _, (PortStep.stop.inj h).symm⟩
    · rename_i val _ _
      obtain ⟨p, hp⟩ := setPort_isSome st.addr.port st.curPort (htons (val % 2 ^ 16) % 2 ^ 16)
        (by omega)
      rw [hp] at h
      simp at h

/-- What an iteration that goes on has done: after a number, a free slot was
filled and the operator kept; after an operator token, the operator was set to
one other than `PF_OP_NONE` and `PF_OP_EQ`, and the rune after the token was
consumed only if it was `=`, `<` or `>`. -/
theorem parsePortBody_next_cases (U : UnicodeTables) (st st1 : PortLoop)
    (h : parsePortBody U st = .next st1) :
    ((scanner.Scan U st.s).tok = -3 ∧ st.curPort < 2 ∧ st1.curPort = st.curPort + 1 ∧
        st1.s = (scanner.Scan U st.s).rest ∧ st1.addr.port_op = st.addr.port_op ∧
        ∃ val, strconv.ParseUint (scanner.Scan U st.s).text 10 16 = .ok val) ∨
      ((scanner.Scan U st.s).tok ≠ -3 ∧ st1.curPort = st.curPort ∧
        st1.addr.port_op ≠ PF_OP_EQ ∧ st1.addr.port_op ≠ PF_OP_NONE ∧
        (st1.s = (scanner.Scan U st.s).rest ∨
          ∃ c, (c = '=' ∨ c = '<' ∨ c = '>') ∧ (scanner.Scan U st.s).rest = c :: st1.s)) := by
  have hpeek : ∀ (l : List Char) (c : Char), scanner.Peek l = rune c →
      l = c :: scanner.Next l := by
    intro l c hl
    cases l with
    | nil =>
      simp only [scanner.Peek, scanner.EOF, rune, Int.ofNat_eq_coe] at hl
      omega
    | cons x r =>
      simp only [scanner.Peek, rune, Int.ofNat_eq_coe, Nat.cast_inj] at hl
      have : x = c := Char.ext (UInt32.ext (by simpa [Char.toNat] using hl))
      rw [this]; rfl
  unfold parsePortBody at h
  simp only at h
  split_ifs at h with h1 h2
  · split at h
    · simp at h
    · rename_i val hval
      split_ifs at h
      split at h
      · simp at h
      · simp only [PortStep.next.injEq] at h
        rw [← h]
        exact Or.inl ⟨h1, by omega, rfl, rfl, rfl, val, hval⟩
  all_goals
    simp only [PortStep.next.injEq] at h
    rw [← h]
    refine Or.inr ⟨h1, rfl, by dsimp only; decide, by dsimp only; decide, ?_⟩
    first
      | exact Or.inl rfl
      | exact Or.inr ⟨'=', by simp, hpeek _ _ (by assumption)⟩
      | exact Or.inr ⟨'<', by simp, hpeek _ _ (by assumption)⟩
      | exact Or.inr ⟨'>', by simp, hpeek _ _ (by assumption)⟩

/-- What an iteration that leaves the function returns: an error, or `nil` at
the end of input, where a single operand without operator gets `PF_OP_EQ`. -/
theorem parsePortBody_stop_cases (U : UnicodeTables) (st : PortLoop)
    (out : Outcome PortResult PortError) (h : parsePortBody U st = .stop out) :
    (∃ r e, out = .ret r (some e)) ∨
      ((scanner.Scan U st.s).tok = scanner.EOF ∧
        out = .ret ⟨if st.curPort = 1 ∧ st.addr.port_op = PF_OP_NONE
          then { st.addr with port_op := PF_OP_EQ } else st.addr, st.curPort⟩ none) := by
  unfold parsePortBody at h
  simp only at h
  split_ifs at h with h1 h2
  any_goals exact Or.inl ⟨_, _, (PortStep.stop.inj h).symm⟩
  · split at h
    · exact Or.inl ⟨_, _, (PortStep.stop.inj h).symm⟩
    · split_ifs at h
      · exact Or.inl ⟨_, _, (PortStep.stop.inj h).symm⟩
      · rename_i val _ _
        obtain ⟨p, hp⟩ := setPort_isSome st.addr.port st.curPort
          (htons (val % 2 ^ 16) % 2 ^ 16) (by omega)
        rw [hp] at h
        simp at h
  all_goals
    refine Or.inr ⟨by assumption, ?_⟩
    rw [← PortStep.stop.inj h]
    simp [*]

/-- The fuel of the loop is never used up: with more fuel than runes left the
loop does not end for lack of it, and any two such amounts agree. -/
theorem parsePortLoop_irrelevant (U : UnicodeTables) (n m : Nat) (st : PortLoop)
    (hn : st.s.length < n) (hm : st.s.length < m) :
    parsePortLoop U n st = parsePortLoop U m st ∧
      ∃ r e, parsePortLoop U n st = .ret r e := by
  induction n generalizing m st with
  | zero => omega
  | succ n ih =>
    cases m with
    | zero => omega
    | succ m =>
      simp only [parsePortLoop]
      cases hb : parsePortBody U st with
      | next st1 =>
        have := parsePortBody_next_length U st st1 hb
        exact ih m st1 (by omega) (by omega)
      | stop out => exact ⟨rfl, parsePortBody_stop U st out hb⟩

/-- The equation of the loop of `parsePort`. -/
theorem parsePortFrom_eq (U : UnicodeTables) (st : PortLoop) :
    parsePortFrom U st =
      match parsePortBody U st with
      | .next st1 => parsePortFrom U st1
      | .stop out => out := by
  simp only [parsePortFrom, parsePortLoop]
  cases hb : parsePortBody U st with
  | next st1 =>
    have := parsePortBody_next_length U st st1 hb
    exact (parsePortLoop_irrelevant U st.s.length (st1.s.length + 1) st1 (by omega)
      (by omega)).1
  | stop out => rfl

/-- The loop of `parsePort` returns from every state: it neither panics nor
runs out of fuel. -/
theorem parsePortFrom_returns (U : UnicodeTables) (st : PortLoop) :
    ∃ r e, parsePortFrom U st = .ret r e :=
  (parsePortLoop_irrelevant U _ _ st (Nat.lt_succ_self _) (Nat.lt_succ_self _)).2

/-! ## Decimal numerals -/

theorem digitChar_toNat (d : Nat) (h : d < 10) : (Nat.digitChar d).toNat = 48 + d := by
  interval_cases d <;> rfl

theorem decimalValue_append (ds : List Char) (c : Char) :
    decimalValue (ds ++ [c]) = decimalValue ds * 10 + (c.toNat - 48) := by
  simp [decimalValue, List.foldl_append]

/-- The digits `Nat.toDigitsCore` puts in front of its accumulator. -/
theorem toDigitsCore_digits (fuel : Nat) :
    ∀ (n : Nat) (acc : List Char), n < fuel →
      ∃ ds, Nat.toDigitsCore 10 fuel n acc = ds ++ acc ∧ ds ≠ [] ∧
        (∀ c ∈ ds, scanner.isDecimal c = true) ∧ decimalValue ds = n := by
  induction fuel with
  | zero => intro n acc h; omega
  | succ fuel ih =>
    intro n acc hn
    have hd : (Nat.digitChar (n % 10)).toNat = 48 + n % 10 :=
      digitChar_toNat _ (Nat.mod_lt _ (by decide))
    have hdec : scanner.isDecimal (Nat.digitChar (n % 10)) = true := by
      have := Nat.mod_lt n (show 0 < 10 by decide)
      simp only [scanner.isDecimal, hd, Bool.and_eq_true, decide_eq_true_eq]
      omega
    simp only [Nat.toDigitsCore]
    split_ifs with h0
    · refine ⟨[Nat.digitChar (n % 10)], rfl, by simp, ?_, ?_⟩
      · intro c hc
        rw [List.mem_singleton] at hc
        rw [hc]; exact hdec
      · simp only [decimalValue, List.foldl_cons, List.foldl_nil, hd]
        omega
    · obtain ⟨ds, h1, _, h3, h4⟩ := ih (n / 10) (Nat.digitChar (n % 10) :: acc) (by omega)
      refine ⟨ds ++ [Nat.digitChar (n % 10)], by rw [h1]; simp, by simp, ?_, ?_⟩
      · intro c hc
        rw [List.mem_append, List.mem_singleton] at hc
        rcases hc with hc | hc
        · exact h3 c hc
        · rw [hc]; exact hdec
      · rw [decimalValue_append, h4, hd]
        omega

/-- The canonical decimal numeral of a number, `toString a`, is a non-empty
run of decimal digits whose value is the number. -/
theorem toString_digits (a : Nat) :
    ∃ ds, (toString a).toList = ds ∧ ds ≠ [] ∧
      (∀ c ∈ ds, scanner.isDecimal c = true) ∧ decimalValue ds = a := by
  obtain ⟨ds, h1, h2, h3, h4⟩ := toDigitsCore_digits (a + 1) a [] (Nat.lt_succ_self a)
  refine ⟨ds, ?_, h2, h3, h4⟩
  show Nat.toDigitsCore 10 (a + 1) a [] = ds
  rw [h1, List.append_nil]

/-! ## `ParseUint` on decimal digits -/

theorem parseUintLoop_digits (ds : List Char) (hds : ∀ c ∈ ds, scanner.isDecimal c = true) :
    ∀ n : Nat,
      ds.foldl (fun n c => n * 10 + (c.toNat - 48)) n ≤ 65535 →
      strconv.parseUintLoop 10 (2 ^ 16 - 1) ((2 ^ 64 - 1) / 10 + 1) ds n =
        .ok (ds.foldl (fun n c => n * 10 + (c.toNat - 48)) n) := by
  induction ds with
  | nil => intro n _; rfl
  | cons c r ih =>
    intro n hle
    have hc := hds c (List.mem_cons_self _ _)
    simp only [scanner.isDecimal, Bool.and_eq_true, decide_eq_true_eq] at hc
    have hmono : ∀ (l : List Char) (m : Nat),
        m ≤ l.foldl (fun n c => n * 10 + (c.toNat - 48)) m := by
      intro l
      induction l with
      | nil => intro m; exact Nat.le_refl _
      | cons x l ihl =>
        intro m
        simp only [List.foldl_cons]
        exact Nat.le_trans (by omega) (ihl _)
    simp only [List.foldl_cons] at hle ⊢
    have hb := hmono r (n * 10 + (c.toNat - 48))
    have hn : n * 10 + (c.toNat - 48) ≤ 65535 := Nat.le_trans hb hle
    unfold strconv.parseUintLoop
    have h1 : (48 ≤ c.toNat ∧ c.toNat ≤ 57 ∨
        97 ≤ scanner.lower c ∧ scanner.lower c ≤ 122) := Or.inl hc
    simp only [h1, if_true, hc, and_self]
    have h2 : ¬ (c.toNat - 48 ≥ 10) := by omega
    have h3 : ¬ (n ≥ (2 ^ 64 - 1) / 10 + 1) := by
      norm_num
      omega
    have h4 : (n * 10) % 2 ^ 64 = n * 10 := Nat.mod_eq_of_lt (by norm_num; omega)
    have h5 : (n * 10 + (c.toNat - 48)) % 2 ^ 64 = n * 10 + (c.toNat - 48) :=
      Nat.mod_eq_of_lt (by norm_num; omega)
    simp only [h2, h3, if_false, h4, h5]
    have h6 : ¬ (n * 10 + (c.toNat - 48) < n * 10 ∨ n * 10 + (c.toNat - 48) > 2 ^ 16 - 1) := by
      norm_num
      omega
    simp only [h6, if_false]
    exact ih (fun x hx => hds x (List.mem_cons_of_mem _ hx)) _ hle

/-- On a non-empty text of decimal digits whose value fits 16 bits,
`ParseUint(text, 10, 16)` returns the value. -/
theorem ParseUint_digits (ds : List Char) (hne : ds ≠ [])
    (hds : ∀ c ∈ ds, scanner.isDecimal c = true) (hle : decimalValue ds ≤ 65535) :
    strconv.ParseUint ds 10 16 = .ok (decimalValue ds) := by
  unfold strconv.ParseUint
  simp only [hne, if_false]
  norm_num
  exact parseUintLoop_digits ds hds 0 hle

/-! ## Scanning a decimal literal and an operator rune -/

namespace scanner

theorem isDecimal_bounds (c : Char) (h : isDecimal c = true) : 48 ≤ c.toNat ∧ c.toNat ≤ 57 := by
  simpa [isDecimal] using h

theorem lower_of_isDecimal (c : Char) (h : isDecimal c = true) : lower c = c.toNat := by
  obtain ⟨h1, h2⟩ := isDecimal_bounds c h
  unfold lower
  generalize c.toNat = n at h1 h2
  interval_cases n <;> rfl

theorem digits_run (base : Nat) (hb : base ≤ 10) (ds rest : List Char)
    (hds : ∀ c ∈ ds, isDecimal c = true) (hend : NumEnd rest) :
    digits base (ds ++ rest) = rest := by
  induction ds with
  | nil =>
    cases rest with
    | nil => rfl
    | cons c r =>
      obtain ⟨h1, h2, _⟩ := hend c rfl
      simp [digits, hb, h1, h2]
  | cons c r ih =>
    have hc := hds c (List.mem_cons_self _ _)
    simp only [List.cons_append, digits, hb, if_true, hc, Bool.true_or]
    exact ih (fun x hx => hds x (List.mem_cons_of_mem _ hx))

theorem scanExponent_end (rest : List Char) (hend : NumEnd rest) :
    scanExponent IntTok rest = (IntTok, rest) := by
  cases rest with
  | nil => rfl
  | cons c r =>
    obtain ⟨_, _, _, h4, h5, _⟩ := hend c rfl
    simp [scanExponent, h4, h5]

/-- A run of decimal digits followed by a terminator is scanned by
`scanNumber` as one `Int` token that ends where the digits end. -/
theorem scanNumber_digits (ds rest : List Char) (hne : ds ≠ [])
    (hds : ∀ c ∈ ds, isDecimal c = true) (hend : NumEnd rest) :
    scanNumber (ds ++ rest) false = (IntTok, rest) := by
  cases ds with
  | nil => exact absurd rfl hne
  | cons c r =>
    have hc := hds c (List.mem_cons_self _ _)
    have hr : ∀ x ∈ r, isDecimal x = true := fun x hx => hds x (List.mem_cons_of_mem _ hx)
    have hlead : digits (scanNumberLead (c :: r ++ rest)).1 (scanNumberLead (c :: r ++ rest)).2
        = rest := by
      by_cases h0 : c.toNat = 48
      · have hl : scanNumberLead (c :: r ++ rest) = (8, r ++ rest) := by
          simp only [List.cons_append, scanNumberLead, h0, if_true]
          cases hrr : r ++ rest with
          | nil => rfl
          | cons c2 r2 =>
            have hlow : lower c2 ≠ 120 ∧ lower c2 ≠ 111 ∧ lower c2 ≠ 98 := by
              cases r with
              | nil =>
                simp only [List.nil_append] at hrr
                obtain ⟨_, _, _, _, _, h6, h7, h8⟩ := hend c2 (by rw [hrr]; rfl)
                exact ⟨h6, h7, h8⟩
              | cons x r3 =>
                simp only [List.cons_append, List.cons.injEq] at hrr
                have hx := hr x (List.mem_cons_self _ _)
                rw [hrr.1] at hx
                have := isDecimal_bounds c2 hx
                rw [lower_of_isDecimal c2 hx]
                omega
            simp [hlow.1, hlow.2.1, hlow.2.2]
        rw [hl]
        exact digits_run 8 (by decide) r rest hr hend
      · have hl : scanNumberLead (c :: r ++ rest) = (10, c :: r ++ rest) := by
          simp [scanNumberLead, h0]
        rw [hl]
        exact digits_run 10 (by decide) (c :: r) rest hds hend
    unfold scanNumber
    simp only [Bool.false_eq_true, if_false, hlead]
    cases rest with
    | nil => rfl
    | cons x r2 =>
      obtain ⟨_, _, h3, _⟩ := hend x rfl
      simp only [h3, if_false]
      exact scanExponent_end _ hend

theorem isIdentRune_of_isDecimal (U : UnicodeTables) (c : Char) (h : isDecimal c = true) :
    isIdentRune U c 0 = false := by
  obtain ⟨h1, h2⟩ := isDecimal_bounds c h
  have h3 : c.toNat < 128 := by omega
  have h4 : ¬ c.toNat = 95 := by omega
  have h5 : ¬ (65 ≤ c.toNat ∧ c.toNat ≤ 90) := by omega
  have h6 : ¬ (97 ≤ c.toNat ∧ c.toNat ≤ 122) := by omega
  simp [isIdentRune, unicodeIsLetter, h3, h4, h5, h6]
  omega

theorem isWhitespace_of_isDecimal (c : Char) (h : isDecimal c = true) :
    isWhitespace c = false := by
  obtain ⟨h1, h2⟩ := isDecimal_bounds c h
  have h4 : ¬ c.toNat = 9 := by omega
  have h5 : ¬ c.toNat = 10 := by omega
  have h6 : ¬ c.toNat = 13 := by omega
  have h7 : ¬ c.toNat = 32 := by omega
  simp [isWhitespace, h4, h5, h6, h7]

/-- `Scan` on a run of decimal digits followed by a terminator: the token
`Int` with the digits as its text. -/
theorem Scan_digits (U : UnicodeTables) (ds rest : List Char) (hne : ds ≠ [])
    (hds : ∀ c ∈ ds, isDecimal c = true) (hend : NumEnd rest) :
    Scan U (ds ++ rest) = ⟨-3, ds, rest⟩ := by
  cases ds with
  | nil => exact absurd rfl hne
  | cons c r =>
    have hc := hds c (List.mem_cons_self _ _)
    have hn := scanNumber_digits (c :: r) rest hne hds hend
    rw [Scan_eq]
    rw [List.cons_append] at hn ⊢
    generalize hl : r ++ rest = l at hn ⊢
    simp only [skipWhitespace, isWhitespace_of_isDecimal c hc,
      Bool.false_eq_true, if_false, scanPass, isIdentRune_of_isDecimal U c hc, hc, if_true]
    rw [hn, ← hl]
    have h1 : r.length + rest.length + 1 - rest.length = (c :: r).length := by
      simp only [List.length_cons]; omega
    have h2 : List.take (c :: r).length (c :: r ++ rest) = c :: r := List.take_left' rfl
    simp only [IntTok, List.length_cons, List.length_append, Scanned.mk.injEq, true_and,
      and_true]
    rw [h1]
    exact h2

/-- `Scan` on one of the operator runes `:`, `!`, `<`, `>`, `=`: the rune is
the token. -/
theorem Scan_operator (U : UnicodeTables) (c : Char) (rest : List Char)
    (h : c = ':' ∨ c = '!' ∨ c = '<' ∨ c = '>' ∨ c = '=') :
    Scan U (c :: rest) = ⟨rune c, [c], rest⟩ := by
  rw [Scan_eq]
  rcases h with h | h | h | h | h <;> subst h <;>
    simp [skipWhitespace, isWhitespace, scanPass, isIdentRune, unicodeIsLetter, unicodeIsDigit,
      isDecimal]

theorem Scan_nil (U : UnicodeTables) : Scan U [] = ⟨-1, [], []⟩ := rfl

theorem NumEnd_nil : NumEnd [] := by
  intro c h
  simp at h

theorem NumEnd_operator (c : Char) (rest : List Char)
    (h : c = ':' ∨ c = '!' ∨ c = '<' ∨ c = '>' ∨ c = '=') : NumEnd (c :: rest) := by
  intro x hx
  simp only [List.head?_cons, Option.some.injEq] at hx
  subst hx
  rcases h with h | h | h | h | h <;> subst h <;> decide

end scanner

/-! ## The iterations of `parsePort` on the forms of the grammar -/

theorem htons_lt (x : Nat) : htons x < 2 ^ 16 := by
  unfold htons
  have h1 := Nat.mod_lt x (show 0 < 256 by decide)
  have h2 := Nat.mod_lt (x / 256) (show 0 < 256 by decide)
  norm_num
  omega

/-- The iteration that reads a number into a free slot. -/
theorem parsePortBody_number (U : UnicodeTables) (ds rest : List Char) (addr : pf_rule_addr)
    (curPort : Nat) (hne : ds ≠ []) (hds : ∀ c ∈ ds, scanner.isDecimal c = true)
    (hend : scanner.NumEnd rest) (hle : decimalValue ds ≤ 65535) (hcur : curPort < 2) :
    parsePortBody U ⟨ds ++ rest, addr, curPort⟩ =
      .next ⟨rest,
        { addr with port := if curPort = 0 then (htons (decimalValue ds), addr.port.2)
                            else (addr.port.1, htons (decimalValue ds)) },
        curPort + 1⟩ := by
  have h1 : ¬ curPort ≥ 2 := by omega
  have h2 : decimalValue ds % 2 ^ 16 = decimalValue ds := Nat.mod_eq_of_lt (by norm_num; omega)
  have h3 : htons (decimalValue ds) % 2 ^ 16 = htons (decimalValue ds) :=
    Nat.mod_eq_of_lt (htons_lt _)
  have h4 : curPort = 0 ∨ curPort = 1 := by omega
  unfold parsePortBody
  simp only [scanner.Scan_digits U ds rest hne hds hend, if_true, h1, if_false,
    ParseUint_digits ds hne hds hle, Nat.not_lt_zero, h2, h3]
  rcases h4 with h4 | h4 <;> subst h4 <;> simp [setPort]

/-- The iteration that reads a colon. -/
theorem parsePortBody_colon (U : UnicodeTables) (rest : List Char) (addr : pf_rule_addr)
    (curPort : Nat) :
    parsePortBody U ⟨':' :: rest, addr, curPort⟩ =
      .next ⟨rest, { addr with port_op := PF_OP_RRG }, curPort⟩ := by
  unfold parsePortBody
  simp only [scanner.Scan_operator U ':' rest (by simp)]
  simp [rune]

/-- The iteration that reads `!=` before any number. -/
theorem parsePortBody_ne (U : UnicodeTables) (rest : List Char) (addr : pf_rule_addr) :
    parsePortBody U ⟨'!' :: '=' :: rest, addr, 0⟩ =
      .next ⟨rest, { addr with port_op := PF_OP_NE }, 0⟩ := by
  unfold parsePortBody
  simp only [scanner.Scan_operator U '!' _ (by simp)]
  simp [rune, scanner.Peek, scanner.Next]

/-- The iterations that read `<>` and `<=`. -/
theorem parsePortBody_lt_op (U : UnicodeTables) (rest : List Char) (addr : pf_rule_addr)
    (curPort : Nat) :
    parsePortBody U ⟨'<' :: '>' :: rest, addr, curPort⟩ =
        .next ⟨rest, { addr with port_op := PF_OP_XRG }, curPort⟩ ∧
      parsePortBody U ⟨'<' :: '=' :: rest, addr, curPort⟩ =
        .next ⟨rest, { addr with port_op := PF_OP_LE }, curPort⟩ := by
  constructor
  · unfold parsePortBody
    simp only [scanner.Scan_operator U '<' _ (by simp)]
    simp [rune, scanner.Peek, scanner.Next]
  · unfold parsePortBody
    simp only [scanner.Scan_operator U '<' _ (by simp)]
    simp [rune, scanner.Peek, scanner.Next]

/-- The iterations that read `><` and `>=`. -/
theorem parsePortBody_gt_op (U : UnicodeTables) (rest : List Char) (addr : pf_rule_addr)
    (curPort : Nat) :
    parsePortBody U ⟨'>' :: '<' :: rest, addr, curPort⟩ =
        .next ⟨rest, { addr with port_op := PF_OP_IRG }, curPort⟩ ∧
      parsePortBody U ⟨'>' :: '=' :: rest, addr, curPort⟩ =
        .next ⟨rest, { addr with port_op := PF_OP_GE }, curPort⟩ := by
  constructor
  · unfold parsePortBody
    simp only [scanner.Scan_operator U '>' _ (by simp)]
    simp [rune, scanner.Peek, scanner.Next]
  · unfold parsePortBody
    simp only [scanner.Scan_operator U '>' _ (by simp)]
    simp [rune, scanner.Peek, scanner.Next]

/-- The iterations that read `<` and `>` in front of a digit, which is left
for the next token. -/
theorem parsePortBody_cmp_digit (U : UnicodeTables) (c : Char) (rest : List Char)
    (addr : pf_rule_addr) (curPort : Nat) (hc : scanner.isDecimal c = true) :
    parsePortBody U ⟨'<' :: c :: rest, addr, curPort⟩ =
        .next ⟨c :: rest, { addr with port_op := PF_OP_LT }, curPort⟩ ∧
      parsePortBody U ⟨'>' :: c :: rest, addr, curPort⟩ =
        .next ⟨c :: rest, { addr with port_op := PF_OP_GT }, curPort⟩ := by
  obtain ⟨h1, h2⟩ := scanner.isDecimal_bounds c hc
  have h3 : ¬ (c.toNat : Int) = 62 := by omega
  have h4 : ¬ (c.toNat : Int) = 61 := by omega
  have h5 : ¬ (c.toNat : Int) = 60 := by omega
  constructor
  · unfold parsePortBody
    simp only [scanner.Scan_operator U '<' _ (by simp)]
    simp [rune, scanner.Peek, h1, h2, h3, h4]
  · unfold parsePortBody
    simp only [scanner.Scan_operator U '>' _ (by simp)]
    simp [rune, scanner.Peek, h1, h2, h4, h5]

/-- The iteration at the end of input. -/
theorem parsePortBody_nil (U : UnicodeTables) (addr : pf_rule_addr) (curPort : Nat) :
    parsePortBody U ⟨[], addr, curPort⟩ =
      .stop (.ret ⟨if curPort = 1 ∧ addr.port_op = PF_OP_NONE
        then { addr with port_op := PF_OP_EQ } else addr, curPort⟩ none) := by
  unfold parsePortBody
  simp only [scanner.Scan_nil]
  have h1 : ¬ ((-1 : Int) = -3) := by decide
  have h2 : ¬ ((-1 : Int) = rune ':') := by decide
  have h3 : ¬ ((-1 : Int) = rune '!') := by decide
  have h4 : ¬ ((-1 : Int) = rune '<') := by decide
  have h5 : ¬ ((-1 : Int) = rune '>') := by decide
  simp only [h1, h2, h3, h4, h5, if_false, if_true]
  split_ifs <;> rfl

/-! ## The forms of the port grammar -/

theorem parsePortFrom_number (U : UnicodeTables) (ds rest : List Char) (addr : pf_rule_addr)
    (curPort : Nat) (hne : ds ≠ []) (hds : ∀ c ∈ ds, scanner.isDecimal c = true)
    (hend : scanner.NumEnd rest) (hle : decimalValue ds ≤ 65535) (hcur : curPort < 2) :
    parsePortFrom U ⟨ds ++ rest, addr, curPort⟩ =
      parsePortFrom U ⟨rest,
        { addr with port := if curPort = 0 then (htons (decimalValue ds), addr.port.2)
                            else (addr.port.1, htons (decimalValue ds)) },
        curPort + 1⟩ := by
  rw [parsePortFrom_eq, parsePortBody_number U ds rest addr curPort hne hds hend hle hcur]

theorem parsePortFrom_nil (U : UnicodeTables) (addr : pf_rule_addr) (curPort : Nat) :
    parsePortFrom U ⟨[], addr, curPort⟩ =
      .ret ⟨if curPort = 1 ∧ addr.port_op = PF_OP_NONE
        then { addr with port_op := PF_OP_EQ } else addr, curPort⟩ none := by
  rw [parsePortFrom_eq, parsePortBody_nil]

/-- The state in which `parsePort` enters its loop on a text that does not
start with a byte order mark. -/
theorem parsePortRun_start (U : UnicodeTables) (addr : pf_rule_addr) (port : String)
    (h : ∀ c r, port.toList = c :: r → c.toNat ≠ 0xFEFF) :
    parsePortRun U addr port =
      parsePortFrom U ⟨port.toList, { addr with port_op := PF_OP_NONE }, 0⟩ := by
  have hi : scanner.Init port = port.toList := by
    unfold scanner.Init
    cases hp : port.toList with
    | nil => rfl
    | cons c r => simp [h c r hp]
  simp only [parsePortRun, parsePortFrom, hi]

theorem parsePort_of_run (U : UnicodeTables) (addr : pf_rule_addr) (port : String)
    (r : PortResult) (e : Option PortError) (h : parsePortRun U addr port = .ret r e) :
    parsePort U addr port = .ret r.addr e := by
  simp only [parsePort, h]

theorem isDecimal_ne_bom (c : Char) (h : scanner.isDecimal c = true) : c.toNat ≠ 0xFEFF := by
  have := scanner.isDecimal_bounds c h
  omega

/-- The run of `parsePort` on two numerals joined by one of the range
operators, given the iteration that reads the operator. -/
theorem parsePortRun_range (U : UnicodeTables) (addr : pf_rule_addr) (a b : Nat)
    (ha : a ≤ 65535) (hb : b ≤ 65535) (op : String) (code : Nat)
    (hop : ∃ c r, op.toList = c :: r ∧ (c = ':' ∨ c = '!' ∨ c = '<' ∨ c = '>' ∨ c = '='))
    (hstep : ∀ (rest : List Char) (ad : pf_rule_addr) (cur : Nat),
      parsePortBody U ⟨op.toList ++ rest, ad, cur⟩ =
        .next ⟨rest, { ad with port_op := code }, cur⟩) :
    parsePortRun U addr (toString a ++ op ++ toString b) =
      .ret ⟨{ addr with port_op := code, port := (htons a, htons b) }, 2⟩ none := by
  obtain ⟨da, ha1, ha2, ha3, ha4⟩ := toString_digits a
  obtain ⟨db, hb1, hb2, hb3, hb4⟩ := toString_digits b
  obtain ⟨c, r, hc, hcop⟩ := hop
  have hl : (toString a ++ op ++ toString b).toList = da ++ (op.toList ++ (db ++ [])) := by
    simp [String.data_append, ← ha1, ← hb1]
  have hstart : ∀ x y, (toString a ++ op ++ toString b).toList = x :: y → x.toNat ≠ 0xFEFF := by
    intro x y hxy
    rw [hl] at hxy
    cases da with
    | nil => exact absurd rfl ha2
    | cons d ds =>
      simp only [List.cons_append, List.cons.injEq] at hxy
      rw [← hxy.1]
      exact isDecimal_ne_bom d (ha3 d (List.mem_cons_self _ _))
  rw [parsePortRun_start U addr _ hstart, hl]
  rw [parsePortFrom_number U da _ _ 0 ha2 ha3
    (by rw [hc]; exact scanner.NumEnd_operator c _ hcop) (by omega) (by decide)]
  rw [parsePortFrom_eq, hstep]
  simp only
  rw [parsePortFrom_number U db [] _ 1 hb2 hb3 scanner.NumEnd_nil (by omega) (by decide)]
  rw [parsePortFrom_nil]
  simp [ha4, hb4]

/-- The run of `parsePort` on a comparison operator followed by a numeral,
given the iteration that reads the operator in front of a digit. -/
theorem parsePortRun_comparison (U : UnicodeTables) (addr : pf_rule_addr) (a : Nat)
    (ha : a ≤ 65535) (op : String) (code : Nat) (hcode : code ≠ PF_OP_NONE)
    (hop : ∃ c r, op.toList = c :: r ∧ c.toNat ≠ 0xFEFF)
    (hstep : ∀ (d : Char) (rest : List Char) (ad : pf_rule_addr), scanner.isDecimal d = true →
      parsePortBody U ⟨op.toList ++ d :: rest, ad, 0⟩ =
        .next ⟨d :: rest, { ad with port_op := code }, 0⟩) :
    parsePortRun U addr (op ++ toString a) =
      .ret ⟨{ addr with port_op := code, port := (htons a, addr.port.2) }, 1⟩ none := by
  obtain ⟨da, ha1, ha2, ha3, ha4⟩ := toString_digits a
  obtain ⟨c, r, hc, hcop⟩ := hop
  have hl : (op ++ toString a).toList = op.toList ++ da := by
    simp [String.data_append, ← ha1]
  have hstart : ∀ x y, (op ++ toString a).toList = x :: y → x.toNat ≠ 0xFEFF := by
    intro x y hxy
    rw [hl, hc] at hxy
    simp only [List.cons_append, List.cons.injEq] at hxy
    rw [← hxy.1]
    exact hcop
  rw [parsePortRun_start U addr _ hstart, hl]
  cases da with
  | nil => exact absurd rfl ha2
  | cons d ds =>
    rw [parsePortFrom_eq, hstep d ds _ (ha3 d (List.mem_cons_self _ _))]
    simp only
    have hn := parsePortFrom_number U (d :: ds) [] { addr with port_op := code } 0 ha2 ha3
      scanner.NumEnd_nil (by omega) (by decide)
    rw [List.append_nil] at hn
    rw [hn, parsePortFrom_nil]
    simp [ha4, hcode]

/-- Claim C1.  For all port values `a`, `b` up to 65535 written as canonical
decimal numerals, `parsePort` returns `nil` on the three range forms and
stores the operands in input order, in network byte order, in the two port
slots: `a:b` sets `PF_OP_RRG`, `a><b` sets `PF_OP_IRG` and `a<>b` sets
`PF_OP_XRG`; nothing else of the record changes. -/
theorem parsePort_range_forms (U : UnicodeTables) (addr : pf_rule_addr) (a b : Nat)
    (ha : a ≤ 65535) (hb : b ≤ 65535) :
    parsePort U addr (toString a ++ ":" ++ toString b) =
        .ret { addr with port_op := PF_OP_RRG, port := (htons a, htons b) } none ∧
      parsePort U addr (toString a ++ "><" ++ toString b) =
        .ret { addr with port_op := PF_OP_IRG, port := (htons a, htons b) } none ∧
      parsePort U addr (toString a ++ "<>" ++ toString b) =
        .ret { addr with port_op := PF_OP_XRG, port := (htons a, htons b) } none := by
  refine ⟨?_, ?_, ?_⟩
  · exact parsePort_of_run U addr _ _ _
      (parsePortRun_range U addr a b ha hb ":" PF_OP_RRG ⟨':', [], rfl, by simp⟩
        (fun rest ad cur => parsePortBody_colon U rest ad cur))
  · exact parsePort_of_run U addr _ _ _
      (parsePortRun_range U addr a b ha hb "><" PF_OP_IRG ⟨'>', ['<'], rfl, by simp⟩
        (fun rest ad cur => (parsePortBody_gt_op U rest ad cur).1))
  · exact parsePort_of_run U addr _ _ _
      (parsePortRun_range U addr a b ha hb "<>" PF_OP_XRG ⟨'<', ['>'], rfl, by simp⟩
        (fun rest ad cur => (parsePortBody_lt_op U rest ad cur).1))

/-- The range forms at the ports 1 and 1024 on the sample record. -/
theorem parsePort_range_forms_witness :
    1 ≤ 65535 ∧ 1024 ≤ 65535 ∧
      parsePort UnicodeTables.ascii sampleAddr "1:1024" =
        .ret { sampleAddr with port_op := PF_OP_RRG, port := (htons 1, htons 1024) } none ∧
      parsePort UnicodeTables.ascii sampleAddr "1><1024" =
        .ret { sampleAddr with port_op := PF_OP_IRG, port := (htons 1, htons 1024) } none ∧
      parsePort UnicodeTables.ascii sampleAddr "1<>1024" =
        .ret { sampleAddr with port_op := PF_OP_XRG, port := (htons 1, htons 1024) } none :=
  ⟨by decide, by decide,
    parsePort_range_forms UnicodeTables.ascii sampleAddr 1 1024 (by decide) (by decide)⟩

/-- Claim C2.  For every port value `a` up to 65535 written as a canonical
decimal numeral, `parsePort` returns `nil` on each comparison form, having read
exactly one operand, stored in the first port slot: `!=a` sets `PF_OP_NE`,
`<a` sets `PF_OP_LT`, `<=a` sets `PF_OP_LE`, `>a` sets `PF_OP_GT` and `>=a`
sets `PF_OP_GE`; the end of input leaves that operator in place. -/
theorem parsePort_comparison_forms (U : UnicodeTables) (addr : pf_rule_addr) (a : Nat)
    (ha : a ≤ 65535) :
    parsePortRun U addr ("!=" ++ toString a) =
        .ret ⟨{ addr with port_op := PF_OP_NE, port := (htons a, addr.port.2) }, 1⟩ none ∧
      parsePortRun U addr ("<" ++ toString a) =
        .ret ⟨{ addr with port_op := PF_OP_LT, port := (htons a, addr.port.2) }, 1⟩ none ∧
      parsePortRun U addr ("<=" ++ toString a) =
        .ret ⟨{ addr with port_op := PF_OP_LE, port := (htons a, addr.port.2) }, 1⟩ none ∧
      parsePortRun U addr (">" ++ toString a) =
        .ret ⟨{ addr with port_op := PF_OP_GT, port := (htons a, addr.port.2) }, 1⟩ none ∧
      parsePortRun U addr (">=" ++ toString a) =
        .ret ⟨{ addr with port_op := PF_OP_GE, port := (htons a, addr.port.2) }, 1⟩ none := by
  refine ⟨?_, ?_, ?_, ?_, ?_⟩
  · exact parsePortRun_comparison U addr a ha "!=" PF_OP_NE (by decide)
      ⟨'!', ['='], rfl, by decide⟩ (fun d rest ad _ => parsePortBody_ne U (d :: rest) ad)
  · exact parsePortRun_comparison U addr a ha "<" PF_OP_LT (by decide)
      ⟨'<', [], rfl, by decide⟩
      (fun d rest ad hd => (parsePortBody_cmp_digit U d rest ad 0 hd).1)
  · exact parsePortRun_comparison U addr a ha "<=" PF_OP_LE (by decide)
      ⟨'<', ['='], rfl, by decide⟩
      (fun d rest ad _ => (parsePortBody_lt_op U (d :: rest) ad 0).2)
  · exact parsePortRun_comparison U addr a ha ">" PF_OP_GT (by decide)
      ⟨'>', [], rfl, by decide⟩
      (fun d rest ad hd => (parsePortBody_cmp_digit U d rest ad 0 hd).2)
  · exact parsePortRun_comparison U addr a ha ">=" PF_OP_GE (by decide)
      ⟨'>', ['='], rfl, by decide⟩
      (fun d rest ad _ => (parsePortBody_gt_op U (d :: rest) ad 0).2)

/-- The comparison forms at the port 22 on the sample record. -/
theorem parsePort_comparison_forms_witness :
    22 ≤ 65535 ∧
      parsePortRun UnicodeTables.ascii sampleAddr "!=22" =
        .ret ⟨{ sampleAddr with port_op := PF_OP_NE, port := (htons 22, 0) }, 1⟩ none ∧
      parsePortRun UnicodeTables.ascii sampleAddr "<22" =
        .ret ⟨{ sampleAddr with port_op := PF_OP_LT, port := (htons 22, 0) }, 1⟩ none ∧
      parsePortRun UnicodeTables.ascii sampleAddr "<=22" =
        .ret ⟨{ sampleAddr with port_op := PF_OP_LE, port := (htons 22, 0) }, 1⟩ none ∧
      parsePortRun UnicodeTables.ascii sampleAddr ">22" =
        .ret ⟨{ sampleAddr with port_op := PF_OP_GT, port := (htons 22, 0) }, 1⟩ none ∧
      parsePortRun UnicodeTables.ascii sampleAddr ">=22" =
        .ret ⟨{ sampleAddr with port_op := PF_OP_GE, port := (htons 22, 0) }, 1⟩ none :=
  ⟨by decide, parsePort_comparison_forms UnicodeTables.ascii sampleAddr 22 (by decide)⟩

/-- Claim C3.  The defaulting at the end of input: for every port value `a` up
to 65535 written as a canonical decimal numeral with no operator, `parsePort`
returns `nil` with the operator `PF_OP_EQ` and the single operand `a` in the
first slot; on the empty text it returns `nil` with the operator
`PF_OP_NONE` and no operand read, whatever operator the record held before. -/
theorem parsePort_end_of_input (U : UnicodeTables) (addr : pf_rule_addr) (a : Nat)
    (ha : a ≤ 65535) :
    parsePortRun U addr (toString a) =
        .ret ⟨{ addr with port_op := PF_OP_EQ, port := (htons a, addr.port.2) }, 1⟩ none ∧
      parsePortRun U addr "" = .ret ⟨{ addr with port_op := PF_OP_NONE }, 0⟩ none := by
  constructor
  · obtain ⟨da, ha1, ha2, ha3, ha4⟩ := toString_digits a
    have hstart : ∀ x y, (toString a).toList = x :: y → x.toNat ≠ 0xFEFF := by
      intro x y hxy
      rw [ha1] at hxy
      exact isDecimal_ne_bom x (ha3 x (by rw [hxy]; exact List.mem_cons_self _ _))
    rw [parsePortRun_start U addr _ hstart, ha1]
    have hn := parsePortFrom_number U da [] { addr with port_op := PF_OP_NONE } 0 ha2 ha3
      scanner.NumEnd_nil (by omega) (by decide)
    rw [List.append_nil] at hn
    rw [hn, parsePortFrom_nil]
    simp [ha4]
  · have hstart : ∀ x y, ("" : String).toList = x :: y → x.toNat ≠ 0xFEFF := by
      intro x y hxy
      simp at hxy
    rw [parsePortRun_start U addr _ hstart]
    exact parsePortFrom_nil U _ 0

/-- The defaulting at the port 80 and on the empty text, on the sample
record, whose operator was `PF_OP_GE`. -/
theorem parsePort_end_of_input_witness :
    80 ≤ 65535 ∧
      parsePortRun UnicodeTables.ascii sampleAddr "80" =
        .ret ⟨{ sampleAddr with port_op := PF_OP_EQ, port := (htons 80, 0) }, 1⟩ none ∧
      parsePortRun UnicodeTables.ascii sampleAddr "" =
        .ret ⟨{ sampleAddr with port_op := PF_OP_NONE }, 0⟩ none :=
  ⟨by decide, parsePort_end_of_input UnicodeTables.ascii sampleAddr 80 (by decide)⟩

/-! ## Properties of every run of `parsePort` -/

theorem tokensFuel_irrelevant (U : UnicodeTables) (n m : Nat) (s : List Char)
    (hn : s.length ≤ n) (hm : s.length ≤ m) :
    scanner.tokensFuel U n s = scanner.tokensFuel U m s := by
  induction n generalizing m s with
  | zero =>
    have hs : s = [] := List.length_eq_zero.mp (by omega)
    subst hs
    cases m with
    | zero => rfl
    | succ m => simp [scanner.tokensFuel, scanner.Scan_nil, scanner.EOF]
  | succ n ih =>
    cases m with
    | zero =>
      have hs : s = [] := List.length_eq_zero.mp (by omega)
      subst hs
      simp [scanner.tokensFuel, scanner.Scan_nil, scanner.EOF]
    | succ m =>
      simp only [scanner.tokensFuel]
      split_ifs with h
      · rfl
      · have := (scanner.Scan_length U s).2 h
        rw [ih m _ (by omega) (by omega)]

/-- The equation of the token stream: empty at the end of input, the next
token followed by the stream of what is left otherwise. -/
theorem tokens_eq (U : UnicodeTables) (s : List Char) :
    scanner.tokens U s =
      if (scanner.Scan U s).tok = scanner.EOF then []
      else scanner.Scan U s :: scanner.tokens U (scanner.Scan U s).rest := by
  by_cases h : (scanner.Scan U s).tok = scanner.EOF
  · simp only [h, if_true]
    unfold scanner.tokens
    cases hs : s.length with
    | zero => rfl
    | succ k => simp [scanner.tokensFuel, h]
  · simp only [h, if_false]
    have hlt := (scanner.Scan_length U s).2 h
    unfold scanner.tokens
    cases hs : s.length with
    | zero => omega
    | succ k =>
      simp only [scanner.tokensFuel, h, if_false]
      rw [tokensFuel_irrelevant U k _ _ (by omega) (Nat.le_refl _)]

/-- Induction along the loop of `parsePort`: a property of the loop state that
every continuing iteration keeps, and under which every leaving iteration
meets `Q`, gives `Q` of the outcome. -/
theorem parsePortFrom_induct (U : UnicodeTables) (P : PortLoop → Prop)
    (Q : Outcome PortResult PortError → Prop)
    (hstop : ∀ st out, P st → parsePortBody U st = .stop out → Q out)
    (hnext : ∀ st st1, P st → parsePortBody U st = .next st1 → P st1) :
    ∀ st, P st → Q (parsePortFrom U st) := by
  intro st
  generalize hn : st.s.length = n
  induction n using Nat.strong_induction_on generalizing st with
  | _ n ih =>
    intro hP
    rw [parsePortFrom_eq]
    cases hb : parsePortBody U st with
    | next st1 =>
      have hlt := parsePortBody_next_length U st st1 hb
      exact ih st1.s.length (by omega) st1 rfl (hnext st st1 hP hb)
    | stop out => exact hstop st out hP hb

theorem parsePortRun_eq_from (U : UnicodeTables) (addr : pf_rule_addr) (port : String) :
    parsePortRun U addr port =
      parsePortFrom U ⟨scanner.Init port, { addr with port_op := PF_OP_NONE }, 0⟩ := rfl

/-- Every call of `parsePort` returns: it neither panics nor lacks fuel. -/
theorem parsePort_returns (U : UnicodeTables) (addr : pf_rule_addr) (port : String) :
    ∃ a e, parsePort U addr port = .ret a e := by
  obtain ⟨r, e, h⟩ := parsePortFrom_returns U
    ⟨scanner.Init port, { addr with port_op := PF_OP_NONE }, 0⟩
  exact ⟨r.addr, e, parsePort_of_run U addr port r e h⟩

theorem parsePort_isError_of_run (U : UnicodeTables) (addr : pf_rule_addr) (port : String)
    (h : (parsePortRun U addr port).isError = true) :
    (parsePort U addr port).isError = true := by
  unfold parsePort
  cases hr : parsePortRun U addr port with
  | ret r e =>
    cases e with
    | none => rw [hr] at h; simp [Outcome.isError] at h
    | some e => rfl
  | panic => rw [hr] at h; simp [Outcome.isError] at h
  | outOfFuel => rw [hr] at h; simp [Outcome.isError] at h

/-- The token stream along a continuing iteration: the token read, then
possibly the rune consumed with `s.Next()` (an `=`, `<` or `>`, a token of its
own), then the stream of the next state. -/
theorem tokens_next (U : UnicodeTables) (st st1 : PortLoop)
    (h : parsePortBody U st = .next st1) :
    scanner.tokens U st.s = scanner.Scan U st.s :: scanner.tokens U st1.s ∨
      ∃ c, (c = '=' ∨ c = '<' ∨ c = '>') ∧ (scanner.Scan U st.s).tok ≠ -3 ∧
        scanner.tokens U st.s =
          scanner.Scan U st.s :: ⟨rune c, [c], st1.s⟩ :: scanner.tokens U st1.s := by
  have hne := (parsePortBody_next U st st1 h).1
  have h0 : scanner.tokens U st.s =
      scanner.Scan U st.s :: scanner.tokens U (scanner.Scan U st.s).rest := by
    rw [tokens_eq U st.s]; simp only [hne, if_false]
  rcases parsePortBody_next_cases U st st1 h with ⟨_, _, _, h4, _⟩ | ⟨h1, _, _, _, h5⟩
  · left; rw [h0, h4]
  · rcases h5 with h5 | ⟨c, hc, h5⟩
    · left; rw [h0, h5]
    · right
      refine ⟨c, hc, h1, ?_⟩
      have hop : c = ':' ∨ c = '!' ∨ c = '<' ∨ c = '>' ∨ c = '=' := by
        rcases hc with hc | hc | hc <;> simp [hc]
      have hs := scanner.Scan_operator U c st1.s hop
      have hne2 : (scanner.Scan U (c :: st1.s)).tok ≠ scanner.EOF := by
        rw [hs]
        rcases hc with hc | hc | hc <;> subst hc <;> dsimp only <;> decide
      rw [h0, h5, tokens_eq U (c :: st1.s)]
      simp only [hne2, if_false]
      rw [hs]

theorem parseUintLoop_overflow (ds : List Char) (hds : ∀ c ∈ ds, scanner.isDecimal c = true) :
    ∀ n : Nat, n ≤ 65535 →
      65535 < ds.foldl (fun n c => n * 10 + (c.toNat - 48)) n →
      ∃ e, strconv.parseUintLoop 10 (2 ^ 16 - 1) ((2 ^ 64 - 1) / 10 + 1) ds n = .error e := by
  induction ds with
  | nil => intro n h1 h2; simp only [List.foldl_nil] at h2; omega
  | cons c r ih =>
    intro n hn hgt
    have hc := hds c (List.mem_cons_self _ _)
    simp only [scanner.isDecimal, Bool.and_eq_true, decide_eq_true_eq] at hc
    simp only [List.foldl_cons] at hgt
    unfold strconv.parseUintLoop
    have h1 : (48 ≤ c.toNat ∧ c.toNat ≤ 57 ∨
        97 ≤ scanner.lower c ∧ scanner.lower c ≤ 122) := Or.inl hc
    simp only [h1, if_true, hc, and_self]
    have h2 : ¬ (c.toNat - 48 ≥ 10) := by omega
    have h3 : ¬ (n ≥ (2 ^ 64 - 1) / 10 + 1) := by
      norm_num
      omega
    have h4 : (n * 10) % 2 ^ 64 = n * 10 := Nat.mod_eq_of_lt (by norm_num; omega)
    have h5 : (n * 10 + (c.toNat - 48)) % 2 ^ 64 = n * 10 + (c.toNat - 48) :=
      Nat.mod_eq_of_lt (by norm_num; omega)
    simp only [h2, h3, if_false, h4, h5]
    by_cases h6 : n * 10 + (c.toNat - 48) ≤ 65535
    · have h7 : ¬ (n * 10 + (c.toNat - 48) < n * 10 ∨
          n * 10 + (c.toNat - 48) > 2 ^ 16 - 1) := by
        norm_num
        omega
      simp only [h7, if_false]
      exact ih (fun x hx => hds x (List.mem_cons_of_mem _ hx)) _ h6 hgt
    · have h7 : (n * 10 + (c.toNat - 48) < n * 10 ∨
          n * 10 + (c.toNat - 48) > 2 ^ 16 - 1) := by
        right
        norm_num
        omega
      simp only [h7, if_true]
      exact ⟨_, rfl⟩

/-- On a text of decimal digits whose value exceeds 65535,
`ParseUint(text, 10, 16)` returns an error. -/
theorem ParseUint_overflow (ds : List Char) (hds : ∀ c ∈ ds, scanner.isDecimal c = true)
    (hgt : 65535 < decimalValue ds) : ∃ e, strconv.ParseUint ds 10 16 = .error e := by
  unfold strconv.ParseUint
  by_cases hnil : ds = []
  · exact ⟨.ErrSyn, by simp [hnil]⟩
  · simp only [hnil, if_false]
    norm_num
    exact parseUintLoop_overflow ds hds 0 (by omega) hgt

/-- Claim C7.  For every port text whose token stream holds an integer token
of decimal digits with a value above 65535, `parsePort` returns an error. -/
theorem parsePort_rejects_large_operand (U : UnicodeTables) (addr : pf_rule_addr)
    (port : String)
    (h : ∃ t ∈ scanner.tokens U (scanner.Init port), t.tok = -3 ∧
      (∀ c ∈ t.text, scanner.isDecimal c = true) ∧ 65535 < decimalValue t.text) :
    (parsePort U addr port).isError = true := by
  apply parsePort_isError_of_run
  rw [parsePortRun_eq_from]
  refine parsePortFrom_induct U
    (fun st => ∃ t ∈ scanner.tokens U st.s, t.tok = -3 ∧
      (∀ c ∈ t.text, scanner.isDecimal c = true) ∧ 65535 < decimalValue t.text)
    (fun out => out.isError = true) ?_ ?_ _ h
  · intro st out hP hb
    rcases parsePortBody_stop_cases U st out hb with ⟨r, e, ho⟩ | ⟨heof, _⟩
    · rw [ho]; rfl
    · obtain ⟨t, ht, _⟩ := hP
      rw [tokens_eq, if_pos heof] at ht
      simp at ht
  · intro st st1 hP hb
    obtain ⟨t, ht, ht1, ht2, ht3⟩ := hP
    have hcur : t = scanner.Scan U st.s → False := by
      intro heq
      rcases parsePortBody_next_cases U st st1 hb with ⟨_, _, _, _, _, val, hval⟩ | ⟨h1, _⟩
      · obtain ⟨e, he⟩ := ParseUint_overflow t.text ht2 ht3
        rw [heq, hval] at he
        simp at he
      · exact h1 (heq ▸ ht1)
    rcases tokens_next U st st1 hb with hs | ⟨c, hc, _, hs⟩
    · rw [hs, List.mem_cons] at ht
      rcases ht with ht | ht
      · exact absurd ht hcur
      · exact ⟨t, ht, ht1, ht2, ht3⟩
    · rw [hs, List.mem_cons, List.mem_cons] at ht
      rcases ht with ht | ht | ht
      · exact absurd ht hcur
      · rw [ht] at ht1
        simp only at ht1
        rcases hc with hc | hc | hc <;> subst hc <;> exact absurd ht1 (by decide)
      · exact ⟨t, ht, ht1, ht2, ht3⟩

/-- The text `1:70000` has the integer token `70000` and is refused. -/
theorem parsePort_rejects_large_operand_witness :
    (∃ t ∈ scanner.tokens UnicodeTables.ascii (scanner.Init "1:70000"), t.tok = -3 ∧
        (∀ c ∈ t.text, scanner.isDecimal c = true) ∧ 65535 < decimalValue t.text) ∧
      (parsePort UnicodeTables.ascii sampleAddr "1:70000").isError = true :=
  ⟨⟨⟨-3, ['7', '0', '0', '0', '0'], []⟩, by decide, by decide, by decide, by decide⟩,
    parsePort_rejects_large_operand UnicodeTables.ascii sampleAddr "1:70000"
      ⟨⟨-3, ['7', '0', '0', '0', '0'], []⟩, by decide, by decide, by decide, by decide⟩⟩

/-- Claim C8.  For every port text whose token stream holds three or more
integer tokens, `parsePort` returns an error; and on every text `parsePort`
returns without the index out of range panic, that is, it never writes a port
at an index other than 0 or 1. -/
theorem parsePort_third_number (U : UnicodeTables) (addr : pf_rule_addr) (port : String) :
    (3 ≤ intTokens (scanner.tokens U (scanner.Init port)) →
        (parsePort U addr port).isError = true) ∧
      ∃ a e, parsePort U addr port = .ret a e := by
  refine ⟨fun h => ?_, parsePort_returns U addr port⟩
  apply parsePort_isError_of_run
  rw [parsePortRun_eq_from]
  refine parsePortFrom_induct U
    (fun st => st.curPort ≤ 2 ∧ 3 ≤ st.curPort + intTokens (scanner.tokens U st.s))
    (fun out => out.isError = true) ?_ ?_ _ ⟨by dsimp only; decide, by simpa using h⟩
  · intro st out hP hb
    rcases parsePortBody_stop_cases U st out hb with ⟨r, e, ho⟩ | ⟨heof, _⟩
    · rw [ho]; rfl
    · obtain ⟨h1, h2⟩ := hP
      rw [tokens_eq, if_pos heof] at h2
      simp only [intTokens, List.countP_nil] at h2
      omega
  · intro st st1 hP hb
    obtain ⟨h1, h2⟩ := hP
    have hcount : intTokens (scanner.tokens U st.s) =
        (if (scanner.Scan U st.s).tok = -3 then 1 else 0) +
          intTokens (scanner.tokens U st1.s) := by
      rcases tokens_next U st st1 hb with hs | ⟨c, hc, _, hs⟩
      · rw [hs]
        simp only [intTokens, List.countP_cons, decide_eq_true_eq]
        omega
      · have hc3 : ¬ rune c = -3 := by
          rcases hc with hc | hc | hc <;> subst hc <;> decide
        rw [hs]
        simp only [intTokens, List.countP_cons, decide_eq_true_eq, hc3, if_false]
        omega
    rcases parsePortBody_next_cases U st st1 hb with ⟨h3, h4, h5, _⟩ | ⟨h3, h4, _⟩
    · rw [hcount, if_pos h3] at h2
      exact ⟨by omega, by omega⟩
    · rw [hcount, if_neg h3] at h2
      exact ⟨by omega, by omega⟩

/-- The text `1:2:3` has three integer tokens and is refused. -/
theorem parsePort_third_number_witness :
    3 ≤ intTokens (scanner.tokens UnicodeTables.ascii (scanner.Init "1:2:3")) ∧
      (parsePort UnicodeTables.ascii sampleAddr "1:2:3").isError = true :=
  ⟨by decide,
    (parsePort_third_number UnicodeTables.ascii sampleAddr "1:2:3").1 (by decide)⟩

/-- Claim C9, as stated, fails: `:` alone is accepted with the range operator
`PF_OP_RRG` and no operand, `1:` with one operand, and the two numbers `1 2`
with `PF_OP_NONE` and two operands. -/
theorem parsePort_operand_count_counterexample :
    parsePortRun UnicodeTables.ascii sampleAddr ":" =
        .ret ⟨{ sampleAddr with port_op := PF_OP_RRG }, 0⟩ none ∧
      parsePortRun UnicodeTables.ascii sampleAddr "1:" =
        .ret ⟨{ sampleAddr with port_op := PF_OP_RRG, port := (htons 1, 0) }, 1⟩ none ∧
      parsePortRun UnicodeTables.ascii sampleAddr "1 2" =
        .ret ⟨{ sampleAddr with port_op := PF_OP_NONE, port := (htons 1, htons 2) }, 2⟩
          none := by
  decide

/-- Claim C9, amended.  After every call of `parsePort` that returns `nil`, the
number of operands read is at most 2; it is exactly 1 when the resulting
operator is `PF_OP_EQ`, and 0 or 2 when it is `PF_OP_NONE`. -/
theorem parsePort_operand_count (U : UnicodeTables) (addr : pf_rule_addr) (port : String)
    (r : PortResult) (h : parsePortRun U addr port = .ret r none) :
    r.curPort ≤ 2 ∧ (r.addr.port_op = PF_OP_EQ → r.curPort = 1) ∧
      (r.addr.port_op = PF_OP_NONE → r.curPort = 0 ∨ r.curPort = 2) := by
  rw [parsePortRun_eq_from] at h
  refine parsePortFrom_induct U
    (fun st => st.curPort ≤ 2 ∧ st.addr.port_op ≠ PF_OP_EQ)
    (fun out => ∀ r, out = .ret r none →
      r.curPort ≤ 2 ∧ (r.addr.port_op = PF_OP_EQ → r.curPort = 1) ∧
        (r.addr.port_op = PF_OP_NONE → r.curPort = 0 ∨ r.curPort = 2))
    ?_ ?_ _ ⟨by dsimp only; decide, by dsimp only; decide⟩ r h
  · intro st out hP hb r hr
    obtain ⟨h1, h2⟩ := hP
    rcases parsePortBody_stop_cases U st out hb with ⟨r1, e, ho⟩ | ⟨_, ho⟩
    · rw [ho] at hr; simp at hr
    · rw [ho] at hr
      simp only [Outcome.ret.injEq, and_true] at hr
      rw [← hr]
      by_cases hc : st.curPort = 1 ∧ st.addr.port_op = PF_OP_NONE
      · simp only [hc, and_self, if_true]
        exact ⟨by omega, fun _ => trivial, fun h => absurd h (by decide)⟩
      · simp only [hc, if_false]
        refine ⟨h1, fun h => absurd h h2, fun h => ?_⟩
        have : st.curPort ≠ 1 := fun h1 => hc ⟨h1, h⟩
        omega
  · intro st st1 hP hb
    obtain ⟨h1, h2⟩ := hP
    rcases parsePortBody_next_cases U st st1 hb with ⟨_, h4, h5, _, h6, _⟩ | ⟨_, h4, h5, _⟩
    · exact ⟨by omega, by rw [h6]; exact h2⟩
    · exact ⟨by omega, h5⟩

/-- The amended count on the text `80`, which yields `PF_OP_EQ` and one
operand. -/
theorem parsePort_operand_count_witness :
    parsePortRun UnicodeTables.ascii sampleAddr "80" =
        .ret ⟨{ sampleAddr with port_op := PF_OP_EQ, port := (htons 80, 0) }, 1⟩ none ∧
      (1 ≤ 2 ∧ (PF_OP_EQ = PF_OP_EQ → 1 = 1) ∧ (PF_OP_EQ = PF_OP_NONE → 1 = 0 ∨ 1 = 2)) :=
  ⟨by decide,
    parsePort_operand_count UnicodeTables.ascii sampleAddr "80"
      ⟨{ sampleAddr with port_op := PF_OP_EQ, port := (htons 80, 0) }, 1⟩ (by decide)⟩

/-! ## The endpoint builders and the address family -/

theorem parseAddress_returns (addr : pf_rule_addr) (address : String) (negative : Bool) :
    ∃ a e, parseAddress addr address negative = .ret a e := by
  unfold parseAddress
  simp only
  cases net.ParseCIDR address with
  | none => split_ifs <;> exact ⟨_, _, rfl⟩
  | some n => split_ifs <;> exact ⟨_, _, rfl⟩

/-- Claim C4.  Whenever `ParseSource(src, port, neg)` returns `nil`, the
address family of the rule is `AddressFamilyInet6` if `src` contains a colon
and `AddressFamilyInet` otherwise, whatever it was before the call. -/
theorem ParseSource_family (U : UnicodeTables) (r r1 : Rule) (src port : String) (neg : Bool)
    (h : r.ParseSource U src port neg = .ret r1 none) :
    r1.af = if ContainsRune src ':' then AddressFamily.AddressFamilyInet6
      else AddressFamily.AddressFamilyInet := by
  unfold Rule.ParseSource at h
  split at h
  · simp at h
  · simp at h
  · simp at h
  · split at h
    · simp at h
    · simp at h
    · simp at h
    · split_ifs at h with hc
      · simp only [Outcome.ret.injEq, and_true] at h
        rw [← h]
        simp [Rule.SetAddressFamily, hc]
      · simp only [Outcome.ret.injEq, and_true] at h
        rw [← h]
        simp [Rule.SetAddressFamily, hc]

/-- The source `2001:db8::1` with the port `80` on the sample rule, whose
family was `AddressFamilyInet`: the call returns `nil` and the family is
`AddressFamilyInet6`. -/
theorem ParseSource_family_witness :
    sampleRule.ParseSource UnicodeTables.ascii "2001:db8::1" "80" false =
        .ret { sampleRule with
          src := { sampleAddr with
            v := [0x20, 0x01, 0x0d, 0xb8, 0, 0, 0, 0, 0, 0, 0, 0, 0, 0, 0, 1] ++
              List.replicate 16 0xff,
            port := (htons 80, 0), port_op := PF_OP_EQ },
          af := AddressFamily.AddressFamilyInet6 } none ∧
      AddressFamily.AddressFamilyInet6 =
        (if ContainsRune "2001:db8::1" ':' then AddressFamily.AddressFamilyInet6
          else AddressFamily.AddressFamilyInet) :=
  ⟨by decide,
    ParseSource_family UnicodeTables.ascii sampleRule _ "2001:db8::1" "80" false
      (show sampleRule.ParseSource UnicodeTables.ascii "2001:db8::1" "80" false =
        .ret { sampleRule with
          src := { sampleAddr with
            v := [0x20, 0x01, 0x0d, 0xb8, 0, 0, 0, 0, 0, 0, 0, 0, 0, 0, 0, 1] ++
              List.replicate 16 0xff,
            port := (htons 80, 0), port_op := PF_OP_EQ },
          af := AddressFamily.AddressFamilyInet6 } none by decide)⟩

/-- Claim C5.  For every rule and every `(dst, port, neg)`, the call
`ParseDestination` returns, with `nil` or with an error, and leaves the
address family of the rule as it was, also when `dst` contains a colon. -/
theorem ParseDestination_family (U : UnicodeTables) (r : Rule) (dst port : String)
    (neg : Bool) :
    ∃ r1 e, r.ParseDestination U dst port neg = .ret r1 e ∧ r1.af = r.af := by
  unfold Rule.ParseDestination
  obtain ⟨a, e, hp⟩ := parsePort_returns U r.dst port
  rw [hp]
  cases e with
  | some err => exact ⟨_, _, rfl, rfl⟩
  | none =>
    obtain ⟨a1, e1, ha⟩ := parseAddress_returns a dst neg
    simp only [ha]
    exact ⟨_, _, rfl, rfl⟩

/-- Claim C6 fails on the code: the text `not-an-ip` has no slash and is not
an address (`net.ParseIP` returns the nil slice), yet `parseAddress` returns
`nil`, having written the all-ones mask and no address byte, and so does
`ParseSource` with the valid port `80`. -/
theorem parseAddress_accepts_invalid_literal :
    net.ParseIP "not-an-ip" = [] ∧
      parseAddress sampleAddr "not-an-ip" false =
        .ret { sampleAddr with
          v := List.replicate 16 0 ++ [0xff, 0xff, 0xff, 0xff] ++ List.replicate 12 0 } none ∧
      (sampleRule.ParseSource UnicodeTables.ascii "not-an-ip" "80" false).isOk = true ∧
      (sampleRule.ParseDestination UnicodeTables.ascii "not-an-ip" "80" false).isOk = true := by
  decide

/-! ## The mask of a bare address literal -/

theorem copyInto_length (dst : List Nat) (lo hi : Nat) (src : List Nat)
    (h : lo + min (hi - lo) src.length ≤ dst.length) :
    (copyInto dst lo hi src).length = dst.length := by
  simp only [copyInto, List.length_append, List.length_take, List.length_drop]
  omega

/-- Reading back the bytes `dst[lo:hi]` after a copy that fills them. -/
theorem copyInto_read (dst : List Nat) (lo hi : Nat) (src : List Nat) (hlo : lo ≤ dst.length)
    (hsrc : src.length = hi - lo) :
    ((copyInto dst lo hi src).drop lo).take (hi - lo) = src := by
  have h1 : (dst.take lo).length = lo := by simp [List.length_take, hlo]
  have h2 : min (hi - lo) src.length = src.length := by omega
  simp only [copyInto, h2, List.take_length, List.append_assoc]
  rw [List.drop_left' h1, ← hsrc]
  exact List.take_left' rfl

/-- The text `parseIPv4Fields` accepts holds digits and dots only. -/
theorem parseIPv4Loop_chars (s : List Char) :
    ∀ (val digLen : Nat) (fields : List Nat) (first prevDot : Bool) (q : List Nat),
      net.parseIPv4Loop s val digLen fields first prevDot = some q →
      ∀ c ∈ s, (48 ≤ c.toNat ∧ c.toNat ≤ 57) ∨ c.toNat = 46 := by
  induction s with
  | nil => intro _ _ _ _ _ _ _ c hc; simp at hc
  | cons x r ih =>
    intro val digLen fields first prevDot q h c hc
    unfold net.parseIPv4Loop at h
    by_cases hd : 48 ≤ x.toNat ∧ x.toNat ≤ 57
    · simp only [hd, and_self, if_true] at h
      split_ifs at h
      rcases List.mem_cons.mp hc with hc | hc
      · rw [hc]; exact Or.inl hd
      · exact ih _ _ _ _ _ q h c hc
    · simp only [hd, if_false] at h
      by_cases hdot : x.toNat = 46
      · simp only [hdot, if_true] at h
        split_ifs at h
        rcases List.mem_cons.mp hc with hc | hc
        · rw [hc]; exact Or.inr hdot
        · exact ih _ _ _ _ _ q h c hc
      · simp [hdot] at h

theorem parseIPv6Finish_is_v6 (g : net.V6Groups) (zone : List Char) (a : net.Addr)
    (h : net.parseIPv6Finish g zone = some a) : ∃ b z, a = .v6 b z := by
  unfold net.parseIPv6Finish at h
  split_ifs at h
  · split at h
    · simp at h
    · exact ⟨_, _, (Option.some.inj h).symm⟩
  · exact ⟨_, _, (Option.some.inj h).symm⟩

/-- The function `parseIPv6` returns 16-byte addresses only. -/
theorem parseIPv6_is_v6 (t : List Char) (a : net.Addr) (h : net.parseIPv6 t = some a) :
    ∃ b z, a = .v6 b z := by
  unfold net.parseIPv6 at h
  simp only at h
  split_ifs at h
  · exact ⟨_, _, (Option.some.inj h).symm⟩
  · obtain ⟨g, _, hg⟩ := Option.bind_eq_some.mp h
    exact parseIPv6Finish_is_v6 g _ a hg
  · obtain ⟨g, _, hg⟩ := Option.bind_eq_some.mp h
    exact parseIPv6Finish_is_v6 g _ a hg

/-- A text that `ParseAddr` reads as an IPv4 address holds no colon. -/
theorem ParseAddr_v4_no_colon (s : String) (b : List Nat)
    (h : net.ParseAddr s.toList = some (.v4 b)) : ContainsRune s ':' = false := by
  unfold net.ParseAddr at h
  split at h
  · rename_i c hfind
    split_ifs at h with h1 h2
    · cases hq : net.parseIPv4Fields s.toList with
      | none => rw [hq] at h; simp at h
      | some q =>
        have hchars := parseIPv4Loop_chars s.toList 0 0 [] true false q hq
        simp only [ContainsRune, decide_eq_false_iff_not]
        intro hmem
        rcases hchars ':' hmem with h3 | h3
        · exact absurd h3 (by decide)
        · exact absurd h3 (by decide)
    · obtain ⟨b1, z, hb⟩ := parseIPv6_is_v6 _ _ h
      simp at hb
  · simp at h

/-- A text that `ParseAddr` reads as an IPv6 address holds a colon. -/
theorem ParseAddr_v6_colon (s : String) (b : List Nat) (z : List Char)
    (h : net.ParseAddr s.toList = some (.v6 b z)) : ContainsRune s ':' = true := by
  unfold net.ParseAddr at h
  split at h
  · rename_i c hfind
    split_ifs at h with h1 h2
    · cases hq : net.parseIPv4Fields s.toList with
      | none => rw [hq] at h; simp at h
      | some q => rw [hq] at h; simp at h
    · have := List.mem_of_find?_eq_some hfind
      rw [h2] at this
      simp only [ContainsRune, decide_eq_true_eq]
      exact this
  · simp at h

/-- Claim C10.  For every valid IPv4 literal without a slash, `parseAddress`
returns `nil` and the four bytes of the mask area, `v[16:20]`, are `ff ff ff
ff`; for every valid IPv6 literal without a slash, it returns `nil` and the
sixteen bytes of the mask area, `v[16:32]`, are all `ff`.  The union `v` of
the record has its 32 bytes. -/
theorem parseAddress_literal_mask (addr : pf_rule_addr) (address : String) (negative : Bool)
    (hv : addr.v.length = 32) (hslash : ContainsRune address '/' = false) :
    ((∃ b, net.ParseAddr address.toList = some (.v4 b)) →
        ∃ a, parseAddress addr address negative = .ret a none ∧
          (a.v.drop 16).take 4 = [0xff, 0xff, 0xff, 0xff]) ∧
      ((∃ b, net.ParseAddr address.toList = some (.v6 b [])) →
        ∃ a, parseAddress addr address negative = .ret a none ∧
          (a.v.drop 16).take 16 = List.replicate 16 0xff) := by
  have hneg : (if negative = true then { addr with neg := 1 } else addr).v = addr.v := by
    split_ifs <;> rfl
  constructor
  · rintro ⟨b, hb⟩
    have hcolon := ParseAddr_v4_no_colon address b hb
    unfold parseAddress
    simp only [hslash, hcolon, Bool.false_eq_true, if_false]
    refine ⟨_, rfl, ?_⟩
    simp only [hneg]
    have hlen : (copyInto addr.v 0 4 (net.To4 (net.ParseIP address))).length = 32 := by
      rw [copyInto_length _ _ _ _ (by omega), hv]
    exact copyInto_read _ 16 20 (net.CIDRMask 32 32) (by omega) (by decide)
  · rintro ⟨b, hb⟩
    have hcolon := ParseAddr_v6_colon address b [] hb
    unfold parseAddress
    simp only [hslash, hcolon, Bool.false_eq_true, if_false, if_true]
    refine ⟨_, rfl, ?_⟩
    simp only [hneg]
    have hlen : (copyInto addr.v 0 16 (net.ParseIP address)).length = 32 := by
      rw [copyInto_length _ _ _ _ (by omega), hv]
    exact copyInto_read _ 16 32 (net.CIDRMask 128 128) (by omega) (by decide)

/-- The literals `192.168.1.5` and `2001:db8::1` on the sample record. -/
theorem parseAddress_literal_mask_witness :
    (sampleAddr.v.length = 32 ∧ ContainsRune "192.168.1.5" '/' = false ∧
        net.ParseAddr "192.168.1.5".toList = some (.v4 [192, 168, 1, 5]) ∧
        ∃ a, parseAddress sampleAddr "192.168.1.5" false = .ret a none ∧
          (a.v.drop 16).take 4 = [0xff, 0xff, 0xff, 0xff]) ∧
      (ContainsRune "2001:db8::1" '/' = false ∧
        net.ParseAddr "2001:db8::1".toList =
          some (.v6 [0x20, 0x01, 0x0d, 0xb8, 0, 0, 0, 0, 0, 0, 0, 0, 0, 0, 0, 1] []) ∧
        ∃ a, parseAddress sampleAddr "2001:db8::1" true = .ret a none ∧
          (a.v.drop 16).take 16 = List.replicate 16 0xff) :=
  ⟨⟨by decide, by decide, by decide,
      (parseAddress_literal_mask sampleAddr "192.168.1.5" false (by decide) (by decide)).1
        ⟨[192, 168, 1, 5], by decide⟩⟩,
    ⟨by decide, by decide,
      (parseAddress_literal_mask sampleAddr "2001:db8::1" true (by decide) (by decide)).2
        ⟨[0x20, 0x01, 0x0d, 0xb8, 0, 0, 0, 0, 0, 0, 0, 0, 0, 0, 0, 1], by decide⟩⟩⟩

/-- The errors of `parseAddress`: it returns one exactly when the text holds
a slash and `net.ParseCIDR` refuses it. -/
theorem parseAddress_error_iff (addr : pf_rule_addr) (address : String) (negative : Bool) :
    (parseAddress addr address negative).isError = true ↔
      (ContainsRune address '/' = true ∧ net.ParseCIDR address = none) := by
  unfold parseAddress
  simp only
  by_cases h1 : ContainsRune address '/' = true
  · simp only [h1, if_true, true_and]
    cases net.ParseCIDR address with
    | none => simp [Outcome.isError]
    | some n => split_ifs <;> simp [Outcome.isError]
  · have h2 : ContainsRune address '/' = false := by simpa using h1
    simp only [h2, Bool.false_eq_true, if_false, false_and, iff_false]
    split_ifs <;> simp [Outcome.isError]
/-! ## What `parsePort` leaves alone -/

/-- An iteration of `parsePort` that goes on touches neither the bytes `v` nor
the flag `neg` of the record. -/
theorem parsePortBody_next_frame (U : UnicodeTables) (st st1 : PortLoop)
    (h : parsePortBody U st = .next st1) :
    st1.addr.v = st.addr.v ∧ st1.addr.neg = st.addr.neg := by
  unfold parsePortBody at h
  simp only at h
  split_ifs at h
  · split at h
    · simp at h
    · split_ifs at h
      split at h
      · simp at h
      · simp only [PortStep.next.injEq] at h
        rw [← h]
        exact ⟨rfl, rfl⟩
  all_goals
    simp only [PortStep.next.injEq] at h
    rw [← h]
    exact ⟨rfl, rfl⟩

/-- An iteration of `parsePort` that returns touches neither the bytes `v` nor
the flag `neg` of the record. -/
theorem parsePortBody_stop_frame (U : UnicodeTables) (st : PortLoop) (r : PortResult)
    (e : Option PortError) (h : parsePortBody U st = .stop (.ret r e)) :
    r.addr.v = st.addr.v ∧ r.addr.neg = st.addr.neg := by
  rcases parsePortBody_stop_cases U st _ h with ⟨r1, e1, ho⟩ | ⟨_, ho⟩
  · unfold parsePortBody at h
    simp only at h
    split_ifs at h
    any_goals
      simp only [PortStep.stop.injEq, Outcome.ret.injEq] at h
      rw [← h.1]
      exact ⟨rfl, rfl⟩
    split at h
    · simp only [PortStep.stop.injEq, Outcome.ret.injEq] at h
      rw [← h.1]
      exact ⟨rfl, rfl⟩
    · split_ifs at h
      · simp only [PortStep.stop.injEq, Outcome.ret.injEq] at h
        rw [← h.1]
        exact ⟨rfl, rfl⟩
      · split at h <;> simp at h
  · simp only [Outcome.ret.injEq] at ho
    rw [ho.1]
    split_ifs <;> exact ⟨rfl, rfl⟩

/-- Every return of `parsePort`, with `nil` or with an error, leaves the bytes
`v` (address and mask) and the flag `neg` of the record as they were. -/
theorem parsePort_frame (U : UnicodeTables) (addr : pf_rule_addr) (port : String)
    (a : pf_rule_addr) (e : Option PortError) (h : parsePort U addr port = .ret a e) :
    a.v = addr.v ∧ a.neg = addr.neg := by
  have key : ∀ r e, parsePortRun U addr port = .ret r e →
      r.addr.v = addr.v ∧ r.addr.neg = addr.neg := by
    rw [parsePortRun_eq_from]
    exact parsePortFrom_induct U
      (fun st => st.addr.v = addr.v ∧ st.addr.neg = addr.neg)
      (fun out => ∀ r e, out = .ret r e → r.addr.v = addr.v ∧ r.addr.neg = addr.neg)
      (fun st out hP hb r e ho => by
        subst ho
        obtain ⟨h1, h2⟩ := parsePortBody_stop_frame U st r e hb
        exact ⟨h1.trans hP.1, h2.trans hP.2⟩)
      (fun st st1 hP hb => by
        obtain ⟨h1, h2⟩ := parsePortBody_next_frame U st st1 hb
        exact ⟨h1.trans hP.1, h2.trans hP.2⟩)
      _ ⟨rfl, rfl⟩
  unfold parsePort at h
  cases hr : parsePortRun U addr port with
  | ret r e1 =>
    rw [hr] at h
    simp only [Outcome.ret.injEq] at h
    rw [← h.1]
    exact key r e1 hr
  | panic => rw [hr] at h; simp at h
  | outOfFuel => rw [hr] at h; simp at h

/-! ## The negation flag -/

/-- Claim C12, as stated, fails: on a record whose flag `neg` is 1, a call of
`parseAddress` with `negative` false returns `nil` on a valid literal and leaves
the flag at 1. -/
theorem parseAddress_neg_counterexample :
    parseAddress { sampleAddr with neg := 1 } "192.168.1.5" false =
      .ret { sampleAddr with
        neg := 1,
        v := [192, 168, 1, 5] ++ List.replicate 12 0 ++ [0xff, 0xff, 0xff, 0xff] ++
          List.replicate 12 0 } none := by
  decide

/-- Claim C12, amended.  For every prior state of the record and every address
text, `parseAddress` returns, and the flag `neg` afterwards is 1 if `negative`
is true and keeps its prior value if `negative` is false (so it is 0 on a
record whose flag was 0). -/
theorem parseAddress_neg (addr : pf_rule_addr) (address : String) (negative : Bool) :
    ∃ a e, parseAddress addr address negative = .ret a e ∧
      a.neg = if negative then 1 else addr.neg := by
  unfold parseAddress
  simp only
  cases net.ParseCIDR address with
  | none => cases negative <;> split_ifs <;> exact ⟨_, _, rfl, rfl⟩
  | some n => cases negative <;> split_ifs <;> exact ⟨_, _, rfl, rfl⟩

/-! ## Failure of an endpoint builder -/

/-- An error of `parseAddress` leaves the bytes `v` and the ports of the
record as they were, and the whole record when `negative` is false. -/
theorem parseAddress_error_frame (addr a : pf_rule_addr) (address : String) (negative : Bool)
    (e : GoError) (h : parseAddress addr address negative = .ret a (some e)) :
    a.v = addr.v ∧ a.port = addr.port ∧ a.port_op = addr.port_op ∧
      (negative = false → a = addr) := by
  have hi : (parseAddress addr address negative).isError = true := by rw [h]; rfl
  obtain ⟨h1, h2⟩ := (parseAddress_error_iff addr address negative).mp hi
  unfold parseAddress at h
  simp only [h1, h2, if_true, Outcome.ret.injEq] at h
  rw [← h.1]
  cases negative <;> simp

/-- Claim C19.  When `parsePort` fails on the port text, `ParseSource` and
`ParseDestination` return that port error whatever the address text is, valid
or not, and whatever `neg` is: the address parser is not run, so the address
bytes, the mask bytes and the negation flag of that side, the other side and
the address family of the rule are as before the call. -/
theorem port_error_wins (U : UnicodeTables) (r : Rule) (address port : String) (neg : Bool) :
    ((parsePort U r.src port).isError = true →
        ∃ r1 e, r.ParseSource U address port neg = .ret r1 (some (.port e)) ∧
          parsePort U r.src port = .ret r1.src (some e) ∧
          r1.src.v = r.src.v ∧ r1.src.neg = r.src.neg ∧ r1.af = r.af ∧ r1.dst = r.dst) ∧
      ((parsePort U r.dst port).isError = true →
        ∃ r1 e, r.ParseDestination U address port neg = .ret r1 (some (.port e)) ∧
          parsePort U r.dst port = .ret r1.dst (some e) ∧
          r1.dst.v = r.dst.v ∧ r1.dst.neg = r.dst.neg ∧ r1.af = r.af ∧ r1.src = r.src) := by
  constructor
  · intro h
    cases hp : parsePort U r.src port with
    | ret a e =>
      cases e with
      | none => rw [hp] at h; simp [Outcome.isError] at h
      | some e =>
        obtain ⟨h1, h2⟩ := parsePort_frame U r.src port a _ hp
        exact ⟨{ r with src := a }, e, by simp only [Rule.ParseSource, hp], rfl, h1, h2, rfl, rfl⟩
    | panic => rw [hp] at h; simp [Outcome.isError] at h
    | outOfFuel => rw [hp] at h; simp [Outcome.isError] at h
  · intro h
    cases hp : parsePort U r.dst port with
    | ret a e =>
      cases e with
      | none => rw [hp] at h; simp [Outcome.isError] at h
      | some e =>
        obtain ⟨h1, h2⟩ := parsePort_frame U r.dst port a _ hp
        exact ⟨{ r with dst := a }, e, by simp only [Rule.ParseDestination, hp], rfl, h1, h2,
          rfl, rfl⟩
    | panic => rw [hp] at h; simp [Outcome.isError] at h
    | outOfFuel => rw [hp] at h; simp [Outcome.isError] at h

/-- The port text `1:2:3` with the invalid address `not/valid` and `neg` true
on the sample rule. -/
theorem port_error_wins_witness :
    ((parsePort UnicodeTables.ascii sampleRule.src "1:2:3").isError = true ∧
        ∃ r1 e, sampleRule.ParseSource UnicodeTables.ascii "not/valid" "1:2:3" true =
            .ret r1 (some (.port e)) ∧
          parsePort UnicodeTables.ascii sampleRule.src "1:2:3" = .ret r1.src (some e) ∧
          r1.src.v = sampleRule.src.v ∧ r1.src.neg = sampleRule.src.neg ∧
          r1.af = sampleRule.af ∧ r1.dst = sampleRule.dst) ∧
      ((parsePort UnicodeTables.ascii sampleRule.dst "1:2:3").isError = true ∧
        ∃ r1 e, sampleRule.ParseDestination UnicodeTables.ascii "not/valid" "1:2:3" true =
            .ret r1 (some (.port e)) ∧
          parsePort UnicodeTables.ascii sampleRule.dst "1:2:3" = .ret r1.dst (some e) ∧
          r1.dst.v = sampleRule.dst.v ∧ r1.dst.neg = sampleRule.dst.neg ∧
          r1.af = sampleRule.af ∧ r1.src = sampleRule.src) :=
  ⟨⟨by decide,
      (port_error_wins UnicodeTables.ascii sampleRule "not/valid" "1:2:3" true).1 (by decide)⟩,
    ⟨by decide,
      (port_error_wins UnicodeTables.ascii sampleRule "not/valid" "1:2:3" true).2 (by decide)⟩⟩

/-- Claim C14, as stated, fails: `ParseSource` with the port text `1:2:3`
returns the error of the third number after the operator and both ports of the
source endpoint were overwritten, and `ParseDestination` with the valid port
`80` and the invalid network `1.2.3.4/99` returns the error of
`net.ParseCIDR` after the operator, the port and the negation flag of the
destination endpoint were overwritten. -/
theorem endpoint_error_counterexample :
    sampleRule.ParseSource UnicodeTables.ascii "192.168.1.5" "1:2:3" false =
        .ret { sampleRule with
          src := { sampleAddr with port_op := PF_OP_RRG, port := (htons 1, htons 2) } }
          (some (.port (.thirdNumber ['3']))) ∧
      sampleRule.ParseDestination UnicodeTables.ascii "1.2.3.4/99" "80" true =
        .ret { sampleRule with
          dst := { sampleAddr with port_op := PF_OP_EQ, port := (htons 80, 0), neg := 1 } }
          (some (.cidr "1.2.3.4/99")) := by
  decide

/-- Claim C14, amended.  Whenever `ParseSource` or `ParseDestination` returns
an error, the address bytes and the mask bytes of that side, the whole
endpoint of the other side and the address family of the rule are as before
the call, and so is the negation flag of that side when `neg` is false. -/
theorem endpoint_error_frame (U : UnicodeTables) (r r1 : Rule) (address port : String)
    (neg : Bool) (e : GoError) :
    (r.ParseSource U address port neg = .ret r1 (some e) →
        r1.src.v = r.src.v ∧ r1.dst = r.dst ∧ r1.af = r.af ∧
          (neg = false → r1.src.neg = r.src.neg)) ∧
      (r.ParseDestination U address port neg = .ret r1 (some e) →
        r1.dst.v = r.dst.v ∧ r1.src = r.src ∧ r1.af = r.af ∧
          (neg = false → r1.dst.neg = r.dst.neg)) := by
  constructor
  · intro h
    unfold Rule.ParseSource at h
    cases hp : parsePort U r.src port with
    | panic => rw [hp] at h; simp at h
    | outOfFuel => rw [hp] at h; simp at h
    | ret a e1 =>
      obtain ⟨h1, h2⟩ := parsePort_frame U r.src port a _ hp
      rw [hp] at h
      cases e1 with
      | some err =>
        simp only [Outcome.ret.injEq] at h
        rw [← h.1]
        exact ⟨h1, rfl, rfl, fun _ => h2⟩
      | none =>
        simp only at h
        cases ha : parseAddress a address neg with
        | panic => rw [ha] at h; simp at h
        | outOfFuel => rw [ha] at h; simp at h
        | ret a1 e2 =>
          rw [ha] at h
          cases e2 with
          | none => simp only at h; split_ifs at h <;> simp at h
          | some err =>
            obtain ⟨h3, _, _, h4⟩ := parseAddress_error_frame a a1 address neg err ha
            simp only [Outcome.ret.injEq] at h
            rw [← h.1]
            exact ⟨h3.trans h1, rfl, rfl, fun hn => by rw [h4 hn]; exact h2⟩
  · intro h
    unfold Rule.ParseDestination at h
    cases hp : parsePort U r.dst port with
    | panic => rw [hp] at h; simp at h
    | outOfFuel => rw [hp] at h; simp at h
    | ret a e1 =>
      obtain ⟨h1, h2⟩ := parsePort_frame U r.dst port a _ hp
      rw [hp] at h
      cases e1 with
      | some err =>
        simp only [Outcome.ret.injEq] at h
        rw [← h.1]
        exact ⟨h1, rfl, rfl, fun _ => h2⟩
      | none =>
        simp only at h
        cases ha : parseAddress a address neg with
        | panic => rw [ha] at h; simp at h
        | outOfFuel => rw [ha] at h; simp at h
        | ret a1 e2 =>
          rw [ha] at h
          cases e2 with
          | none => simp at h
          | some err =>
            obtain ⟨h3, _, _, h4⟩ := parseAddress_error_frame a a1 address neg err ha
            simp only [Outcome.ret.injEq] at h
            rw [← h.1]
            exact ⟨h3.trans h1, rfl, rfl, fun hn => by rw [h4 hn]; exact h2⟩

/-- The amended frame on the failing calls `ParseSource("192.168.1.5", "1:2:3",
false)` and `ParseDestination("1.2.3.4/99", "80", false)` on the sample rule. -/
theorem endpoint_error_frame_witness :
    (sampleRule.ParseSource UnicodeTables.ascii "192.168.1.5" "1:2:3" false =
        .ret { sampleRule with
          src := { sampleAddr with port_op := PF_OP_RRG, port := (htons 1, htons 2) } }
          (some (.port (.thirdNumber ['3']))) ∧
      sampleAddr.v = sampleRule.src.v ∧ sampleRule.dst = sampleRule.dst ∧
      sampleRule.af = sampleRule.af ∧ (false = false → sampleAddr.neg = sampleRule.src.neg)) ∧
    (sampleRule.ParseDestination UnicodeTables.ascii "1.2.3.4/99" "80" false =
        .ret { sampleRule with
          dst := { sampleAddr with port_op := PF_OP_EQ, port := (htons 80, 0) } }
          (some (.cidr "1.2.3.4/99")) ∧
      sampleAddr.v = sampleRule.dst.v ∧ sampleRule.src = sampleRule.src ∧
      sampleRule.af = sampleRule.af ∧ (false = false → sampleAddr.neg = sampleRule.dst.neg)) :=
  ⟨⟨by decide,
      (endpoint_error_frame UnicodeTables.ascii sampleRule
        { sampleRule with
          src := { sampleAddr with port_op := PF_OP_RRG, port := (htons 1, htons 2) } }
        "192.168.1.5" "1:2:3" false (.port (.thirdNumber ['3']))).1 (by decide)⟩,
    ⟨by decide,
      (endpoint_error_frame UnicodeTables.ascii sampleRule
        { sampleRule with
          dst := { sampleAddr with port_op := PF_OP_EQ, port := (htons 80, 0) } }
        "1.2.3.4/99" "80" false (.cidr "1.2.3.4/99")).2 (by decide)⟩⟩

/-! ## Network byte order -/

theorem parseUintLoop_le (maxVal cutoff : Nat) (ds : List Char) :
    ∀ n a : Nat, n ≤ maxVal → strconv.parseUintLoop 10 maxVal cutoff ds n = .ok a →
      a ≤ maxVal := by
  induction ds with
  | nil =>
    intro n a hn h
    simp only [strconv.parseUintLoop, Except.ok.injEq] at h
    omega
  | cons c r ih =>
    intro n a hn h
    unfold strconv.parseUintLoop at h
    dsimp only at h
    split_ifs at h
    all_goals
      rename_i hx
      exact ih _ a (Nat.le_of_not_gt (not_or.mp hx).2) h

/-- A value `ParseUint(text, 10, 16)` returns fits 16 bits. -/
theorem ParseUint_le (text : List Char) (a : Nat)
    (h : strconv.ParseUint text 10 16 = .ok a) : a ≤ 65535 := by
  unfold strconv.ParseUint at h
  split_ifs at h
  have := parseUintLoop_le _ _ text 0 a (Nat.zero_le _) h
  norm_num at this
  exact this

theorem storedInNetworkOrder_htons (text : List Char) (a : Nat)
    (h : strconv.ParseUint text 10 16 = .ok a) : StoredInNetworkOrder text (htons a) := by
  have hle := ParseUint_le text a h
  have hm : a / 256 % 256 = a / 256 := Nat.mod_eq_of_lt (by omega)
  have hs : htons a = 256 * (a % 256) + a / 256 := by unfold htons; omega
  have h1 : (256 * (a % 256) + a / 256) % 256 = a / 256 := by
    rw [Nat.mul_add_mod]; exact hm
  have h2 : (256 * (a % 256) + a / 256) / 256 = a % 256 := by
    rw [Nat.mul_add_div (by decide), Nat.div_eq_of_lt (by omega)]; rfl
  refine ⟨a, h, hle, rfl, hs, ?_, ?_⟩
  · rw [hs]
    unfold memoryBytes
    rw [h1, h2, Nat.mod_mod]
  · rw [hs]
    unfold htons
    rw [h1, h2, Nat.mod_mod]
    omega

/-- The port written by an iteration that goes on: after a number of value
`val`, the slot `curPort` holds `htons(val)` and the other slot is kept; after
an operator both slots are kept. -/
theorem parsePortBody_next_port (U : UnicodeTables) (st st1 : PortLoop)
    (h : parsePortBody U st = .next st1) :
    ((scanner.Scan U st.s).tok = -3 ∧ st.curPort < 2 ∧
        ∃ val, strconv.ParseUint (scanner.Scan U st.s).text 10 16 = .ok val ∧
          portSlots st1.addr.port (st.curPort + 1) =
            portSlots st.addr.port st.curPort ++ [htons val]) ∨
      ((scanner.Scan U st.s).tok ≠ -3 ∧ st1.addr.port = st.addr.port) := by
  unfold parsePortBody at h
  simp only at h
  split_ifs at h with h1 h2
  · split at h
    · simp at h
    · rename_i val hval
      split_ifs at h
      have hle := ParseUint_le _ val hval
      have h2 : val % 2 ^ 16 = val := Nat.mod_eq_of_lt (by norm_num; omega)
      have h3 : htons val % 2 ^ 16 = htons val := Nat.mod_eq_of_lt (htons_lt _)
      rw [h2, h3] at h
      have hc : st.curPort = 0 ∨ st.curPort = 1 := by omega
      rcases hc with hc | hc
      · rw [hc] at h
        simp only [setPort, PortStep.next.injEq] at h
        rw [← h]
        exact Or.inl ⟨h1, by omega, val, hval, by simp [portSlots, hc]⟩
      · rw [hc] at h
        simp only [setPort, PortStep.next.injEq] at h
        rw [← h]
        exact Or.inl ⟨h1, by omega, val, hval, by simp [portSlots, hc]⟩
  all_goals
    simp only [PortStep.next.injEq] at h
    rw [← h]
    exact Or.inr ⟨h1, rfl⟩

/-- The texts of the integer tokens along a continuing iteration. -/
theorem intTexts_next (U : UnicodeTables) (st st1 : PortLoop)
    (h : parsePortBody U st = .next st1) :
    intTexts (scanner.tokens U st.s) =
      (if (scanner.Scan U st.s).tok = -3 then [(scanner.Scan U st.s).text] else []) ++
        intTexts (scanner.tokens U st1.s) := by
  rcases tokens_next U st st1 h with hs | ⟨c, hc, hne, hs⟩
  · rw [hs]
    by_cases h3 : (scanner.Scan U st.s).tok = -3
    · simp [intTexts, List.filter_cons, h3]
    · simp [intTexts, List.filter_cons, h3]
  · have hc3 : ¬ rune c = -3 := by
      rcases hc with hc | hc | hc <;> subst hc <;> decide
    rw [hs]
    simp [intTexts, List.filter_cons, hne, hc3]

/-- Claim C13.  After every call of `parsePort` that returns `nil`, the slots
written and the integer tokens of the text correspond one to one, in order, and
each operand is stored in network byte order on a little-endian host: the
token parses to a value `a` up to 65535, the slot holds `htons(a)`, which is
`256 * (a mod 256) + a div 256`, the bytes of the slot in memory are
`a div 256` and then `a mod 256`, and the same swap applied to the slot gives
`a` back. -/
theorem parsePort_network_order (U : UnicodeTables) (addr : pf_rule_addr) (port : String)
    (r : PortResult) (h : parsePortRun U addr port = .ret r none) :
    List.Forall₂ StoredInNetworkOrder
      (intTexts (scanner.tokens U (scanner.Init port))) (portSlots r.addr.port r.curPort) := by
  rw [parsePortRun_eq_from] at h
  refine parsePortFrom_induct U
    (fun st => st.curPort ≤ 2 ∧ ∃ done,
      intTexts (scanner.tokens U (scanner.Init port)) =
        done ++ intTexts (scanner.tokens U st.s) ∧
      List.Forall₂ StoredInNetworkOrder done (portSlots st.addr.port st.curPort))
    (fun out => ∀ r, out = .ret r none →
      List.Forall₂ StoredInNetworkOrder
        (intTexts (scanner.tokens U (scanner.Init port))) (portSlots r.addr.port r.curPort))
    ?_ ?_ _ ⟨Nat.zero_le _, [], (List.nil_append _).symm, by simp [portSlots]⟩ r h
  · intro st out hP hb r hr
    obtain ⟨_, done, h1, h2⟩ := hP
    rcases parsePortBody_stop_cases U st out hb with ⟨r1, e, ho⟩ | ⟨heof, ho⟩
    · rw [ho] at hr; simp at hr
    · rw [ho] at hr
      simp only [Outcome.ret.injEq, and_true] at hr
      have hnil : intTexts [] = [] := rfl
      rw [tokens_eq U st.s, if_pos heof, hnil, List.append_nil] at h1
      rw [h1, ← hr]
      have hp : (if st.curPort = 1 ∧ st.addr.port_op = PF_OP_NONE
          then { st.addr with port_op := PF_OP_EQ } else st.addr).port = st.addr.port := by
        split_ifs <;> rfl
      simp only [hp]
      exact h2
  · intro st st1 hP hb
    obtain ⟨hle, done, h1, h2⟩ := hP
    have ht := intTexts_next U st st1 hb
    rcases parsePortBody_next_cases U st st1 hb with ⟨h3, h4, h5, _⟩ | ⟨h3, h5, _⟩
    · rcases parsePortBody_next_port U st st1 hb with ⟨_, _, val, hval, hp⟩ | ⟨h6, _⟩
      · rw [if_pos h3] at ht
        refine ⟨by omega, done ++ [(scanner.Scan U st.s).text], ?_, ?_⟩
        · rw [h1, ht, List.append_assoc]
        · rw [h5, hp]
          exact List.rel_append h2
            (List.Forall₂.cons (storedInNetworkOrder_htons _ val hval) List.Forall₂.nil)
      · exact absurd h3 h6
    · rcases parsePortBody_next_port U st st1 hb with ⟨h6, _⟩ | ⟨_, hp⟩
      · exact absurd h6 h3
      · rw [if_neg h3, List.nil_append] at ht
        refine ⟨by omega, done, ?_, ?_⟩
        · rw [h1, ht]
        · rw [h5, hp]; exact h2

/-- The text `1:1024` on the sample record: two operands, stored as
`htons(1)` and `htons(1024)`. -/
theorem parsePort_network_order_witness :
    parsePortRun UnicodeTables.ascii sampleAddr "1:1024" =
        .ret ⟨{ sampleAddr with port_op := PF_OP_RRG, port := (256, 4) }, 2⟩ none ∧
      List.Forall₂ StoredInNetworkOrder
        (intTexts (scanner.tokens UnicodeTables.ascii (scanner.Init "1:1024")))
        (portSlots (256, 4) 2) :=
  ⟨by decide,
    parsePort_network_order UnicodeTables.ascii sampleAddr "1:1024"
      ⟨{ sampleAddr with port_op := PF_OP_RRG, port := (256, 4) }, 2⟩ (by decide)⟩

/-! ## The tokens of the port grammar -/

theorem portAdvance_length (tok : Int) (s : List Char) :
    (portAdvance tok s).length ≤ s.length := by
  unfold portAdvance scanner.Next
  split_ifs <;> simp [List.length_tail]

theorem portTokensFuel_irrelevant (U : UnicodeTables) (n m : Nat) (s : List Char)
    (hn : s.length ≤ n) (hm : s.length ≤ m) :
    portTokensFuel U n s = portTokensFuel U m s := by
  induction n generalizing m s with
  | zero =>
    have hs : s = [] := List.length_eq_zero.mp (by omega)
    subst hs
    cases m with
    | zero => rfl
    | succ m => simp [portTokensFuel, scanner.Scan_nil, scanner.EOF]
  | succ n ih =>
    cases m with
    | zero =>
      have hs : s = [] := List.length_eq_zero.mp (by omega)
      subst hs
      simp [portTokensFuel, scanner.Scan_nil, scanner.EOF]
    | succ m =>
      simp only [portTokensFuel]
      split_ifs with h
      · rfl
      · have h1 := (scanner.Scan_length U s).2 h
        have h2 := portAdvance_length (scanner.Scan U s).tok (scanner.Scan U s).rest
        rw [ih m _ (by omega) (by omega)]

/-- The equation of the token stream of the port grammar. -/
theorem portTokens_eq (U : UnicodeTables) (s : List Char) :
    portTokens U s =
      if (scanner.Scan U s).tok = scanner.EOF then []
      else
        ⟨(scanner.Scan U s).tok, scanner.Peek (scanner.Scan U s).rest⟩ ::
          portTokens U (portAdvance (scanner.Scan U s).tok (scanner.Scan U s).rest) := by
  by_cases h : (scanner.Scan U s).tok = scanner.EOF
  · simp only [h, if_true]
    unfold portTokens
    cases hs : s.length with
    | zero => rfl
    | succ k => simp [portTokensFuel, h]
  · simp only [h, if_false]
    have h1 := (scanner.Scan_length U s).2 h
    have h2 := portAdvance_length (scanner.Scan U s).tok (scanner.Scan U s).rest
    unfold portTokens
    cases hs : s.length with
    | zero => omega
    | succ k =>
      simp only [portTokensFuel, h, if_false]
      rw [portTokensFuel_irrelevant U k _ _ (by omega) (Nat.le_refl _)]

/-- The runes of the operators and the token `Int` are pairwise distinct. -/
theorem rune_distinct :
    ¬ ((-3 : Int) = rune '!') ∧ ¬ ((-3 : Int) = rune '<') ∧ ¬ ((-3 : Int) = rune '>') ∧
      ¬ (rune ':' = rune '!') ∧ ¬ (rune ':' = rune '<') ∧ ¬ (rune ':' = rune '>') ∧
      ¬ (rune '!' = rune '<') ∧ ¬ (rune '!' = rune '>') ∧ ¬ (rune '<' = rune '!') ∧
      ¬ (rune '<' = rune '>') ∧ ¬ (rune '>' = rune '!') ∧ ¬ (rune '>' = rune '<') ∧
      ¬ (rune '=' = rune '>') ∧ ¬ (rune '=' = rune '<') := by
  decide

/-- The token an iteration that goes on has read: a number, a colon, a `!`
before any number and in front of `=`, or a `<` or `>` in front of the rune
that completes the operator or of a digit; the scanner is left where the token
of the port grammar ends. -/
theorem parsePortBody_next_token (U : UnicodeTables) (st st1 : PortLoop)
    (h : parsePortBody U st = .next st1) :
    st1.s = portAdvance (scanner.Scan U st.s).tok (scanner.Scan U st.s).rest ∧
      ((scanner.Scan U st.s).tok = -3 ∨ (scanner.Scan U st.s).tok = rune ':' ∨
        ((scanner.Scan U st.s).tok = rune '!' ∧ st.curPort = 0 ∧
          scanner.Peek (scanner.Scan U st.s).rest = rune '=') ∨
        ((scanner.Scan U st.s).tok = rune '<' ∧
          (scanner.Peek (scanner.Scan U st.s).rest = rune '>' ∨
            scanner.Peek (scanner.Scan U st.s).rest = rune '=' ∨
            (scanner.Peek (scanner.Scan U st.s).rest ≥ rune '0' ∧
              scanner.Peek (scanner.Scan U st.s).rest ≤ rune '9'))) ∨
        ((scanner.Scan U st.s).tok = rune '>' ∧
          (scanner.Peek (scanner.Scan U st.s).rest = rune '<' ∨
            scanner.Peek (scanner.Scan U st.s).rest = rune '=' ∨
            (scanner.Peek (scanner.Scan U st.s).rest ≥ rune '0' ∧
              scanner.Peek (scanner.Scan U st.s).rest ≤ rune '9')))) := by
  unfold parsePortBody at h
  simp only at h
  split_ifs at h with h1
  · split at h
    · simp at h
    · split_ifs at h
      split at h
      · simp at h
      · simp only [PortStep.next.injEq] at h
        rw [← h]
        exact ⟨by simp [portAdvance, h1, rune_distinct], Or.inl h1⟩
  all_goals
    simp only [PortStep.next.injEq] at h
    rw [← h]
    refine ⟨by simp [portAdvance, rune_distinct, *], ?_⟩
    first
      | (simp [*]; done)
      | (have hz : st.curPort = 0 := Decidable.not_not.mp (by assumption)
         simp [*])

/-- The token stream of the port grammar along a continuing iteration: the
token read, then the stream of the next state. -/
theorem portTokens_next (U : UnicodeTables) (st st1 : PortLoop)
    (h : parsePortBody U st = .next st1) :
    portTokens U st.s =
      ⟨(scanner.Scan U st.s).tok, scanner.Peek (scanner.Scan U st.s).rest⟩ ::
        portTokens U st1.s := by
  have hne := (parsePortBody_next U st st1 h).1
  rw [portTokens_eq U st.s, if_neg hne, (parsePortBody_next_token U st st1 h).1]

/-- A run of `parsePort` returns an error as soon as the token stream holds a
token that no continuing iteration can have read. -/
theorem parsePort_isError_of_token (U : UnicodeTables) (addr : pf_rule_addr) (port : String)
    (bad : PortToken → Prop)
    (hbad : ∀ st st1, parsePortBody U st = .next st1 →
      ¬ bad ⟨(scanner.Scan U st.s).tok, scanner.Peek (scanner.Scan U st.s).rest⟩)
    (h : ∃ t ∈ portTokens U (scanner.Init port), bad t) :
    (parsePort U addr port).isError = true := by
  apply parsePort_isError_of_run
  rw [parsePortRun_eq_from]
  refine parsePortFrom_induct U (fun st => ∃ t ∈ portTokens U st.s, bad t)
    (fun out => out.isError = true) ?_ ?_ _ h
  · intro st out hP hb
    rcases parsePortBody_stop_cases U st out hb with ⟨r, e, ho⟩ | ⟨heof, _⟩
    · rw [ho]; rfl
    · obtain ⟨t, ht, _⟩ := hP
      rw [portTokens_eq, if_pos heof] at ht
      simp at ht
  · intro st st1 hP hb
    obtain ⟨t, ht, hb1⟩ := hP
    rw [portTokens_next U st st1 hb, List.mem_cons] at ht
    rcases ht with ht | ht
    · rw [ht] at hb1
      exact absurd hb1 (hbad st st1 hb)
    · exact ⟨t, ht, hb1⟩

/-- Claim C15.  For every port text in which a `!` token is not immediately
followed by the rune `=` (another rune, white space or the end of input
follows), `parsePort` returns an error. -/
theorem parsePort_bang_requires_eq (U : UnicodeTables) (addr : pf_rule_addr) (port : String)
    (h : ∃ t ∈ portTokens U (scanner.Init port), t.tok = rune '!' ∧ t.peek ≠ rune '=') :
    (parsePort U addr port).isError = true := by
  refine parsePort_isError_of_token U addr port
    (fun t => t.tok = rune '!' ∧ t.peek ≠ rune '=') ?_ h
  intro st st1 hb hbad
  obtain ⟨h1, h2⟩ := hbad
  simp only at h1 h2
  rcases (parsePortBody_next_token U st st1 hb).2 with h3 | h3 | h3 | h3 | h3
  · rw [h3] at h1; exact absurd h1 rune_distinct.1
  · rw [h3] at h1; exact absurd h1 rune_distinct.2.2.2.1
  · exact h2 h3.2.2
  · rw [h3.1] at h1; exact absurd h1 rune_distinct.2.2.2.2.2.2.2.2.1
  · rw [h3.1] at h1; exact absurd h1 rune_distinct.2.2.2.2.2.2.2.2.2.2.1

/-- The texts `!22`, `! =22` and `!` each have a `!` token that no `=` follows
at once, and are refused. -/
theorem parsePort_bang_requires_eq_witness :
    ((∃ t ∈ portTokens UnicodeTables.ascii (scanner.Init "!22"),
        t.tok = rune '!' ∧ t.peek ≠ rune '=') ∧
      (parsePort UnicodeTables.ascii sampleAddr "!22").isError = true) ∧
    ((∃ t ∈ portTokens UnicodeTables.ascii (scanner.Init "! =22"),
        t.tok = rune '!' ∧ t.peek ≠ rune '=') ∧
      (parsePort UnicodeTables.ascii sampleAddr "! =22").isError = true) ∧
    ((∃ t ∈ portTokens UnicodeTables.ascii (scanner.Init "!"),
        t.tok = rune '!' ∧ t.peek ≠ rune '=') ∧
      (parsePort UnicodeTables.ascii sampleAddr "!").isError = true) :=
  ⟨⟨⟨⟨rune '!', rune '2'⟩, by decide, by decide, by decide⟩,
      parsePort_bang_requires_eq UnicodeTables.ascii sampleAddr "!22"
        ⟨⟨rune '!', rune '2'⟩, by decide, by decide, by decide⟩⟩,
    ⟨⟨⟨rune '!', rune ' '⟩, by decide, by decide, by decide⟩,
      parsePort_bang_requires_eq UnicodeTables.ascii sampleAddr "! =22"
        ⟨⟨rune '!', rune ' '⟩, by decide, by decide, by decide⟩⟩,
    ⟨⟨⟨rune '!', -1⟩, by decide, by decide, by decide⟩,
      parsePort_bang_requires_eq UnicodeTables.ascii sampleAddr "!"
        ⟨⟨rune '!', -1⟩, by decide, by decide, by decide⟩⟩⟩

/-- Claim C17.  For every port text in which a `<` token is immediately
followed by anything other than `>`, `=` or a decimal digit, or a `>` token by
anything other than `<`, `=` or a decimal digit (the end of input and white
space included), `parsePort` returns an error.  A `<` or `>` that completes
the operator `><` or `<>` is part of that operator and no token of its own. -/
theorem parsePort_comparison_requires_operand (U : UnicodeTables) (addr : pf_rule_addr)
    (port : String)
    (h : ∃ t ∈ portTokens U (scanner.Init port),
      (t.tok = rune '<' ∧ t.peek ≠ rune '>' ∧ t.peek ≠ rune '=' ∧
          ¬ (t.peek ≥ rune '0' ∧ t.peek ≤ rune '9')) ∨
        (t.tok = rune '>' ∧ t.peek ≠ rune '<' ∧ t.peek ≠ rune '=' ∧
          ¬ (t.peek ≥ rune '0' ∧ t.peek ≤ rune '9'))) :
    (parsePort U addr port).isError = true := by
  refine parsePort_isError_of_token U addr port
    (fun t => (t.tok = rune '<' ∧ t.peek ≠ rune '>' ∧ t.peek ≠ rune '=' ∧
          ¬ (t.peek ≥ rune '0' ∧ t.peek ≤ rune '9')) ∨
        (t.tok = rune '>' ∧ t.peek ≠ rune '<' ∧ t.peek ≠ rune '=' ∧
          ¬ (t.peek ≥ rune '0' ∧ t.peek ≤ rune '9'))) ?_ h
  intro st st1 hb hbad
  simp only at hbad
  have hd := rune_distinct
  rcases (parsePortBody_next_token U st st1 hb).2 with h3 | h3 | h3 | h3 | h3
  · rcases hbad with ⟨h1, _⟩ | ⟨h1, _⟩
    · rw [h3] at h1; exact absurd h1 hd.2.1
    · rw [h3] at h1; exact absurd h1 hd.2.2.1
  · rcases hbad with ⟨h1, _⟩ | ⟨h1, _⟩
    · rw [h3] at h1; exact absurd h1 hd.2.2.2.2.1
    · rw [h3] at h1; exact absurd h1 hd.2.2.2.2.2.1
  · rcases hbad with ⟨h1, _⟩ | ⟨h1, _⟩
    · rw [h3.1] at h1; exact absurd h1 hd.2.2.2.2.2.2.1
    · rw [h3.1] at h1; exact absurd h1 hd.2.2.2.2.2.2.2.1
  · rcases hbad with ⟨_, h4, h5, h6⟩ | ⟨h1, _⟩
    · rcases h3.2 with h7 | h7 | h7
      · exact h4 h7
      · exact h5 h7
      · exact h6 h7
    · rw [h3.1] at h1; exact absurd h1 hd.2.2.2.2.2.2.2.2.2.1
  · rcases hbad with ⟨h1, _⟩ | ⟨_, h4, h5, h6⟩
    · rw [h3.1] at h1; exact absurd h1 hd.2.2.2.2.2.2.2.2.2.2.2.1
    · rcases h3.2 with h7 | h7 | h7
      · exact h4 h7
      · exact h5 h7
      · exact h6 h7

/-- The texts `<`, `< 5` and `>a` are refused. -/
theorem parsePort_comparison_requires_operand_witness :
    ((∃ t ∈ portTokens UnicodeTables.ascii (scanner.Init "<"),
        (t.tok = rune '<' ∧ t.peek ≠ rune '>' ∧ t.peek ≠ rune '=' ∧
            ¬ (t.peek ≥ rune '0' ∧ t.peek ≤ rune '9')) ∨
          (t.tok = rune '>' ∧ t.peek ≠ rune '<' ∧ t.peek ≠ rune '=' ∧
            ¬ (t.peek ≥ rune '0' ∧ t.peek ≤ rune '9'))) ∧
      (parsePort UnicodeTables.ascii sampleAddr "<").isError = true) ∧
    ((∃ t ∈ portTokens UnicodeTables.ascii (scanner.Init "< 5"),
        (t.tok = rune '<' ∧ t.peek ≠ rune '>' ∧ t.peek ≠ rune '=' ∧
            ¬ (t.peek ≥ rune '0' ∧ t.peek ≤ rune '9')) ∨
          (t.tok = rune '>' ∧ t.peek ≠ rune '<' ∧ t.peek ≠ rune '=' ∧
            ¬ (t.peek ≥ rune '0' ∧ t.peek ≤ rune '9'))) ∧
      (parsePort UnicodeTables.ascii sampleAddr "< 5").isError = true) ∧
    ((∃ t ∈ portTokens UnicodeTables.ascii (scanner.Init ">a"),
        (t.tok = rune '<' ∧ t.peek ≠ rune '>' ∧ t.peek ≠ rune '=' ∧
            ¬ (t.peek ≥ rune '0' ∧ t.peek ≤ rune '9')) ∨
          (t.tok = rune '>' ∧ t.peek ≠ rune '<' ∧ t.peek ≠ rune '=' ∧
            ¬ (t.peek ≥ rune '0' ∧ t.peek ≤ rune '9'))) ∧
      (parsePort UnicodeTables.ascii sampleAddr ">a").isError = true) :=
  ⟨⟨⟨⟨rune '<', -1⟩, by decide, by decide⟩,
      parsePort_comparison_requires_operand UnicodeTables.ascii sampleAddr "<"
        ⟨⟨rune '<', -1⟩, by decide, by decide⟩⟩,
    ⟨⟨⟨rune '<', rune ' '⟩, by decide, by decide⟩,
      parsePort_comparison_requires_operand UnicodeTables.ascii sampleAddr "< 5"
        ⟨⟨rune '<', rune ' '⟩, by decide, by decide⟩⟩,
    ⟨⟨⟨rune '>', rune 'a'⟩, by decide, by decide⟩,
      parsePort_comparison_requires_operand UnicodeTables.ascii sampleAddr ">a"
        ⟨⟨rune '>', rune 'a'⟩, by decide, by decide⟩⟩⟩

/-- Claim C16, as stated, fails: in `:!=5` the `!` token is preceded by the
token `:`, and `parsePort` returns `nil` with `PF_OP_NE` and the operand 5;
likewise after the operator `<=` in `<=!=5`. -/
theorem parsePort_bang_after_operator_counterexample :
    portTokens UnicodeTables.ascii (scanner.Init ":!=5") =
        [⟨rune ':', rune '!'⟩, ⟨rune '!', rune '='⟩, ⟨-3, -1⟩] ∧
      parsePortRun UnicodeTables.ascii sampleAddr ":!=5" =
        .ret ⟨{ sampleAddr with port_op := PF_OP_NE, port := (htons 5, 0) }, 1⟩ none ∧
      portTokens UnicodeTables.ascii (scanner.Init "<=!=5") =
        [⟨rune '<', rune '='⟩, ⟨rune '!', rune '='⟩, ⟨-3, -1⟩] ∧
      parsePortRun UnicodeTables.ascii sampleAddr "<=!=5" =
        .ret ⟨{ sampleAddr with port_op := PF_OP_NE, port := (htons 5, 0) }, 1⟩ none := by
  decide

/-- Claim C16, amended.  For every port text in which a `!` token is preceded
by a number token, `parsePort` returns an error. -/
theorem parsePort_bang_after_number (U : UnicodeTables) (addr : pf_rule_addr) (port : String)
    (h : ∃ pre t post, portTokens U (scanner.Init port) = pre ++ t :: post ∧
      t.tok = rune '!' ∧ ∃ i ∈ pre, i.tok = -3) :
    (parsePort U addr port).isError = true := by
  apply parsePort_isError_of_run
  rw [parsePortRun_eq_from]
  refine parsePortFrom_induct U
    (fun st => (st.curPort ≠ 0 ∧ ∃ t ∈ portTokens U st.s, t.tok = rune '!') ∨
      ∃ pre t post, portTokens U st.s = pre ++ t :: post ∧
        t.tok = rune '!' ∧ ∃ i ∈ pre, i.tok = -3)
    (fun out => out.isError = true) ?_ ?_ _ (Or.inr h)
  · intro st out hP hb
    rcases parsePortBody_stop_cases U st out hb with ⟨r, e, ho⟩ | ⟨heof, _⟩
    · rw [ho]; rfl
    · rw [portTokens_eq, if_pos heof] at hP
      rcases hP with ⟨_, t, ht, _⟩ | ⟨pre, t, post, hl, _⟩
      · simp at ht
      · simp at hl
  · intro st st1 hP hb
    have hnext := portTokens_next U st st1 hb
    have htok := (parsePortBody_next_token U st st1 hb).2
    have hcur : st.curPort ≤ st1.curPort := by
      rcases parsePortBody_next_cases U st st1 hb with ⟨_, _, h5, _⟩ | ⟨_, h5, _⟩ <;> omega
    have hd := rune_distinct
    rcases hP with ⟨hc, t, ht, hb1⟩ | ⟨pre, t, post, hl, hb1, i, hi, hi3⟩
    · left
      rw [hnext, List.mem_cons] at ht
      rcases ht with ht | ht
      · rw [ht] at hb1
        simp only at hb1
        rcases htok with h3 | h3 | h3 | h3 | h3
        · rw [h3] at hb1; exact absurd hb1 hd.1
        · rw [h3] at hb1; exact absurd hb1 hd.2.2.2.1
        · exact absurd h3.2.1 hc
        · rw [h3.1] at hb1; exact absurd hb1 hd.2.2.2.2.2.2.2.2.1
        · rw [h3.1] at hb1; exact absurd hb1 hd.2.2.2.2.2.2.2.2.2.2.1
      · exact ⟨by omega, t, ht, hb1⟩
    · rw [hnext] at hl
      cases pre with
      | nil => simp at hi
      | cons p pre1 =>
        simp only [List.cons_append, List.cons.injEq] at hl
        rcases List.mem_cons.mp hi with hi | hi
        · left
          have h3 : (scanner.Scan U st.s).tok = -3 := by
            rw [hi, ← hl.1] at hi3; exact hi3
          have h1 : st1.curPort = st.curPort + 1 := by
            rcases parsePortBody_next_cases U st st1 hb with ⟨_, _, h5, _⟩ | ⟨h6, _⟩
            · exact h5
            · exact absurd h3 h6
          exact ⟨by omega, t, by rw [hl.2]; simp, hb1⟩
        · right
          exact ⟨pre1, t, post, hl.2, hb1, i, hi, hi3⟩

/-- The text `5!=6` has a `!` token after a number and is refused. -/
theorem parsePort_bang_after_number_witness :
    (∃ pre t post, portTokens UnicodeTables.ascii (scanner.Init "5!=6") = pre ++ t :: post ∧
        t.tok = rune '!' ∧ ∃ i ∈ pre, i.tok = -3) ∧
      (parsePort UnicodeTables.ascii sampleAddr "5!=6").isError = true :=
  ⟨⟨[⟨-3, rune '!'⟩], ⟨rune '!', rune '='⟩, [⟨-3, -1⟩], by decide, by decide,
      ⟨-3, rune '!'⟩, by decide, by decide⟩,
    parsePort_bang_after_number UnicodeTables.ascii sampleAddr "5!=6"
      ⟨[⟨-3, rune '!'⟩], ⟨rune '!', rune '='⟩, [⟨-3, -1⟩], by decide, by decide,
        ⟨-3, rune '!'⟩, by decide, by decide⟩⟩

/-- Claim C18, as stated, fails: white space, comments and a byte order mark
at the start are skipped by the scanner, so the texts ` 80`, with a leading
space, `1 : 1024`, `80` followed by a line comment or by a general comment
holding letters, and `80` after a byte order mark are accepted. -/
theorem parsePort_other_character_counterexample :
    parsePortRun UnicodeTables.ascii sampleAddr " 80" =
        .ret ⟨{ sampleAddr with port_op := PF_OP_EQ, port := (htons 80, 0) }, 1⟩ none ∧
      parsePortRun UnicodeTables.ascii sampleAddr "1 : 1024" =
        .ret ⟨{ sampleAddr with port_op := PF_OP_RRG, port := (htons 1, htons 1024) }, 2⟩
          none ∧
      parsePortRun UnicodeTables.ascii sampleAddr "80//x" =
        .ret ⟨{ sampleAddr with port_op := PF_OP_EQ, port := (htons 80, 0) }, 1⟩ none ∧
      parsePortRun UnicodeTables.ascii sampleAddr "80/*x y*/" =
        .ret ⟨{ sampleAddr with port_op := PF_OP_EQ, port := (htons 80, 0) }, 1⟩ none ∧
      parsePortRun UnicodeTables.ascii sampleAddr (String.mk [Char.ofNat 0xFEFF, '8', '0']) =
        .ret ⟨{ sampleAddr with port_op := PF_OP_EQ, port := (htons 80, 0) }, 1⟩ none := by
  decide

/-- The tokens of the port grammar: for every port text whose token stream,
white space and comments skipped, holds a token other than an integer, `:`,
`!`, `<` and `>` (an identifier, a float, a string or character literal, an
`=` that completes no operator, or any other rune), `parsePort` returns an
error. -/
theorem parsePort_other_token (U : UnicodeTables) (addr : pf_rule_addr) (port : String)
    (h : ∃ t ∈ portTokens U (scanner.Init port),
      t.tok ≠ -3 ∧ t.tok ≠ rune ':' ∧ t.tok ≠ rune '!' ∧ t.tok ≠ rune '<' ∧
        t.tok ≠ rune '>') :
    (parsePort U addr port).isError = true := by
  refine parsePort_isError_of_token U addr port
    (fun t => t.tok ≠ -3 ∧ t.tok ≠ rune ':' ∧ t.tok ≠ rune '!' ∧ t.tok ≠ rune '<' ∧
        t.tok ≠ rune '>') ?_ h
  intro st st1 hb hbad
  obtain ⟨h1, h2, h3, h4, h5⟩ := hbad
  simp only at h1 h2 h3 h4 h5
  rcases (parsePortBody_next_token U st st1 hb).2 with h6 | h6 | h6 | h6 | h6
  · exact h1 h6
  · exact h2 h6
  · exact h3 h6.1
  · exact h4 h6.1
  · exact h5 h6.1

/-- The texts `80a`, `8-9` and `=5` each hold another token and are
refused. -/
theorem parsePort_other_token_witness :
    ((∃ t ∈ portTokens UnicodeTables.ascii (scanner.Init "80a"),
        t.tok ≠ -3 ∧ t.tok ≠ rune ':' ∧ t.tok ≠ rune '!' ∧ t.tok ≠ rune '<' ∧
          t.tok ≠ rune '>') ∧
      (parsePort UnicodeTables.ascii sampleAddr "80a").isError = true) ∧
    ((∃ t ∈ portTokens UnicodeTables.ascii (scanner.Init "8-9"),
        t.tok ≠ -3 ∧ t.tok ≠ rune ':' ∧ t.tok ≠ rune '!' ∧ t.tok ≠ rune '<' ∧
          t.tok ≠ rune '>') ∧
      (parsePort UnicodeTables.ascii sampleAddr "8-9").isError = true) ∧
    ((∃ t ∈ portTokens UnicodeTables.ascii (scanner.Init "=5"),
        t.tok ≠ -3 ∧ t.tok ≠ rune ':' ∧ t.tok ≠ rune '!' ∧ t.tok ≠ rune '<' ∧
          t.tok ≠ rune '>') ∧
      (parsePort UnicodeTables.ascii sampleAddr "=5").isError = true) :=
  ⟨⟨⟨⟨scanner.Ident, -1⟩, by decide, by decide⟩,
      parsePort_other_token UnicodeTables.ascii sampleAddr "80a"
        ⟨⟨scanner.Ident, -1⟩, by decide, by decide⟩⟩,
    ⟨⟨⟨rune '-', rune '9'⟩, by decide, by decide⟩,
      parsePort_other_token UnicodeTables.ascii sampleAddr "8-9"
        ⟨⟨rune '-', rune '9'⟩, by decide, by decide⟩⟩,
    ⟨⟨⟨rune '=', rune '5'⟩, by decide, by decide⟩,
      parsePort_other_token UnicodeTables.ascii sampleAddr "=5"
        ⟨⟨rune '=', rune '5'⟩, by decide, by decide⟩⟩⟩

/-! ## The runes of the tokens -/

/-- Distinct runes have distinct `rune` values. -/
theorem rune_inj (a b : Char) (h : rune a = rune b) : a = b := by
  simp only [rune, Int.ofNat_eq_coe, Nat.cast_inj] at h
  exact Char.ext (UInt32.ext (by simpa [Char.toNat] using h))

theorem rune_nonneg (c : Char) : 0 ≤ rune c := by
  simp [rune]

theorem char_of_toNat (a b : Char) (h : a.toNat = b.toNat) : a = b :=
  Char.ext (UInt32.ext (by simpa [Char.toNat] using h))

namespace scanner

theorem scanExponent_tok (tok : Int) (s : List Char) :
    (scanExponent tok s).1 = tok ∨ (scanExponent tok s).1 = FloatTok := by
  unfold scanExponent
  split
  · exact Or.inl rfl
  · split_ifs
    · split
      · exact Or.inr rfl
      · split_ifs <;> exact Or.inr rfl
    · exact Or.inl rfl

/-- The token of `scanNumber` is `Int` or `Float`. -/
theorem scanNumber_tok (s : List Char) (seenDot : Bool) :
    (scanNumber s seenDot).1 = IntTok ∨ (scanNumber s seenDot).1 = FloatTok := by
  unfold scanNumber
  split_ifs
  · rcases scanExponent_tok FloatTok (digits 10 s) with h | h <;> exact Or.inr h
  · simp only
    split
    · exact scanExponent_tok IntTok []
    · split_ifs
      · rename_i ch r _ _
        rcases scanExponent_tok FloatTok (digits (scanNumberLead s).1 r) with h | h <;>
          exact Or.inr h
      · exact scanExponent_tok IntTok _

theorem scanNumber_tok_neg (s : List Char) (seenDot : Bool) : (scanNumber s seenDot).1 < 0 := by
  rcases scanNumber_tok s seenDot with h | h <;> rw [h] <;> decide

/-- A pass that returns a rune as the token has consumed that rune and nothing
else. -/
theorem scanPass_rune (U : UnicodeTables) (s rest : List Char) (c : Char)
    (h : scanPass U s = .token (rune c) rest) : s = c :: rest := by
  have hc := rune_nonneg c
  cases s with
  | nil =>
    simp only [scanPass, Pass.token.injEq, EOF] at h
    omega
  | cons ch r =>
    simp only [scanPass] at h
    split_ifs at h with h1 h2 h3 h4 h5 h6 h7
    · simp only [Pass.token.injEq, Ident] at h; omega
    · simp only [Pass.token.injEq] at h
      have := scanNumber_tok_neg (ch :: r) false
      omega
    · simp only [Pass.token.injEq, StringTok] at h; omega
    · simp only [Pass.token.injEq, CharTok] at h; omega
    · split at h
      · simp only [Pass.token.injEq] at h
        rw [rune_inj _ _ h.1, h.2]
      · rename_i c2 r2
        split_ifs at h
        · simp only [Pass.token.injEq] at h
          have := scanNumber_tok_neg (c2 :: r2) true
          omega
        · simp only [Pass.token.injEq] at h
          rw [rune_inj _ _ h.1, h.2]
    · split at h
      · simp only [Pass.token.injEq] at h
        rw [rune_inj _ _ h.1, h.2]
      · split_ifs at h
        simp only [Pass.token.injEq] at h
        rw [rune_inj _ _ h.1, h.2]
    · simp only [Pass.token.injEq, RawStringTok] at h; omega
    · simp only [Pass.token.injEq] at h
      rw [rune_inj _ _ h.1, h.2]

/-- A token that is a rune has that rune as its text. -/
theorem Scan_rune_text (U : UnicodeTables) (c : Char) :
    ∀ s : List Char, (Scan U s).tok = rune c → (Scan U s).text = [c] := by
  intro s
  generalize hn : s.length = n
  induction n using Nat.strong_induction_on generalizing s with
  | _ n ih =>
    intro h
    have hw := skipWhitespace_length s
    rw [Scan_eq] at h ⊢
    cases hp : scanPass U (skipWhitespace s) with
    | token tok rest =>
      rw [hp] at h
      simp only at h ⊢
      rw [h] at hp
      rw [scanPass_rune U _ rest c hp]
      simp
    | redo rest =>
      rw [hp] at h
      simp only at h ⊢
      have h1 := scanPass_redo_length U _ rest hp
      exact ih rest.length (by omega) rest rfl h

theorem scanIdentifier_suffix (U : UnicodeTables) (s : List Char) :
    scanIdentifier U s <:+ s := by
  induction s with
  | nil => exact List.suffix_refl _
  | cons ch r ih =>
    unfold scanIdentifier
    split
    · exact ih.trans (List.suffix_cons _ _)
    · exact List.suffix_refl _

theorem digits_suffix (base : Nat) (s : List Char) : digits base s <:+ s := by
  induction s with
  | nil => exact List.suffix_refl _
  | cons ch r ih =>
    unfold digits
    split_ifs
    · exact ih.trans (List.suffix_cons _ _)
    · exact List.suffix_refl _
    · exact ih.trans (List.suffix_cons _ _)
    · exact List.suffix_refl _

theorem scanNumberLead_suffix (s : List Char) : (scanNumberLead s).2 <:+ s := by
  unfold scanNumberLead
  split
  · exact List.suffix_refl _
  · split_ifs
    · split
      · exact List.nil_suffix
      · split_ifs
        · exact (List.suffix_cons _ _).trans (List.suffix_cons _ _)
        · exact (List.suffix_cons _ _).trans (List.suffix_cons _ _)
        · exact (List.suffix_cons _ _).trans (List.suffix_cons _ _)
        · exact List.suffix_cons _ _
    · exact List.suffix_refl _

theorem scanExponent_suffix (tok : Int) (s : List Char) : (scanExponent tok s).2 <:+ s := by
  unfold scanExponent
  split
  · exact List.suffix_refl _
  · split_ifs
    · split
      · exact List.nil_suffix
      · rename_i c r2
        split_ifs
        · exact (digits_suffix 10 r2).trans
            ((List.suffix_cons _ _).trans (List.suffix_cons _ _))
        · exact (digits_suffix 10 (c :: r2)).trans (List.suffix_cons _ _)
    · exact List.suffix_refl _

theorem scanNumber_suffix (s : List Char) (seenDot : Bool) : (scanNumber s seenDot).2 <:+ s := by
  unfold scanNumber
  have h1 := scanNumberLead_suffix s
  have h2 := digits_suffix (scanNumberLead s).1 (scanNumberLead s).2
  split_ifs
  · exact (scanExponent_suffix _ _).trans (digits_suffix _ _)
  · simp only
    split
    · exact List.nil_suffix
    · rename_i ch r heq
      rw [heq] at h2
      split_ifs
      · exact (scanExponent_suffix _ _).trans ((digits_suffix _ _).trans
          ((List.suffix_cons _ _).trans (h2.trans h1)))
      · exact (scanExponent_suffix _ _).trans (h2.trans h1)

theorem scanDigits_suffix (base n : Nat) (s : List Char) : scanDigits base n s <:+ s := by
  induction n generalizing s with
  | zero => exact List.suffix_refl _
  | succ n ih =>
    cases s with
    | nil => exact List.suffix_refl _
    | cons ch r =>
      unfold scanDigits
      split_ifs
      · exact (ih r).trans (List.suffix_cons _ _)
      · exact List.suffix_refl _

theorem scanEscape_suffix (quote : Char) (s : List Char) : scanEscape quote s <:+ s := by
  unfold scanEscape
  have ht := List.tail_suffix s
  split
  · exact List.nil_suffix
  · rename_i c r2 heq
    rw [heq] at ht
    split_ifs
    · exact (List.suffix_cons _ _).trans ht
    · exact (scanDigits_suffix _ _ _).trans ht
    · exact (scanDigits_suffix _ _ _).trans ((List.suffix_cons _ _).trans ht)
    · exact (scanDigits_suffix _ _ _).trans ((List.suffix_cons _ _).trans ht)
    · exact (scanDigits_suffix _ _ _).trans ((List.suffix_cons _ _).trans ht)
    · exact ht

theorem scanStringLoop_suffix (quote : Char) (n : Nat) (s : List Char) :
    scanStringLoop quote n s <:+ s := by
  induction n generalizing s with
  | zero => exact List.suffix_refl _
  | succ n ih =>
    cases s with
    | nil => exact List.suffix_refl _
    | cons ch r =>
      unfold scanStringLoop
      split_ifs
      · exact List.suffix_refl _
      · exact List.suffix_refl _
      · exact (ih _).trans (scanEscape_suffix quote (ch :: r))
      · exact (ih r).trans (List.suffix_cons _ _)

theorem scanRawStringLoop_suffix (s : List Char) : scanRawStringLoop s <:+ s := by
  induction s with
  | nil => exact List.suffix_refl _
  | cons ch r ih =>
    unfold scanRawStringLoop
    split_ifs
    · exact List.suffix_refl _
    · exact ih.trans (List.suffix_cons _ _)

theorem scanLineComment_suffix (s : List Char) : scanLineComment s <:+ s := by
  induction s with
  | nil => exact List.suffix_refl _
  | cons ch r ih =>
    unfold scanLineComment
    split_ifs
    · exact List.suffix_refl _
    · exact ih.trans (List.suffix_cons _ _)

theorem scanGeneralComment_suffix (s : List Char) : scanGeneralComment s <:+ s := by
  induction s with
  | nil => exact List.suffix_refl _
  | cons ch r ih =>
    unfold scanGeneralComment
    split
    · exact List.nil_suffix
    · split_ifs
      · exact (List.suffix_cons _ _).trans (List.suffix_cons _ _)
      · exact ih.trans (List.suffix_cons _ _)

theorem scanComment_suffix (s : List Char) : scanComment s <:+ s := by
  unfold scanComment
  split
  · exact List.suffix_refl _
  · split_ifs
    · exact (scanLineComment_suffix _).trans (List.suffix_cons _ _)
    · exact (scanGeneralComment_suffix _).trans (List.suffix_cons _ _)

theorem skipWhitespace_suffix (s : List Char) : skipWhitespace s <:+ s := by
  induction s with
  | nil => exact List.suffix_refl _
  | cons ch r ih =>
    unfold skipWhitespace
    split_ifs
    · exact ih.trans (List.suffix_cons _ _)
    · exact List.suffix_refl _

/-- The unread input after a pass is the end of the input the pass started
with. -/
theorem scanPass_token_suffix (U : UnicodeTables) (s : List Char) (tok : Int)
    (rest : List Char) (h : scanPass U s = .token tok rest) : rest <:+ s := by
  cases s with
  | nil =>
    simp only [scanPass, Pass.token.injEq] at h
    rw [← h.2]
  | cons ch r =>
    suffices hs : rest <:+ r from hs.trans (List.suffix_cons _ _)
    simp only [scanPass] at h
    split_ifs at h with h1 h2 h3 h4 h5 h6 h7
    · simp only [Pass.token.injEq] at h
      rw [← h.2]; exact scanIdentifier_suffix U r
    · simp only [Pass.token.injEq] at h
      rw [← h.2]
      have hl := scanNumber_consumes ch r h2
      rcases List.suffix_cons_iff.mp (scanNumber_suffix (ch :: r) false) with he | he
      · rw [he] at hl
        simp only [List.length_cons] at hl
        omega
      · exact he
    · simp only [Pass.token.injEq] at h
      rw [← h.2]
      exact (List.tail_suffix _).trans (scanStringLoop_suffix ch _ _)
    · simp only [Pass.token.injEq] at h
      rw [← h.2]
      exact (List.tail_suffix _).trans (scanStringLoop_suffix ch _ _)
    · split at h
      · simp only [Pass.token.injEq] at h
        rw [← h.2]
      · rename_i c r2
        split_ifs at h
        · simp only [Pass.token.injEq] at h
          rw [← h.2]; exact scanNumber_suffix _ _
        · simp only [Pass.token.injEq] at h
          rw [← h.2]
    · split at h
      · simp only [Pass.token.injEq] at h
        rw [← h.2]
      · rename_i c r2
        split_ifs at h
        simp only [Pass.token.injEq] at h
        rw [← h.2]
    · simp only [Pass.token.injEq] at h
      rw [← h.2]
      exact (List.tail_suffix _).trans (scanRawStringLoop_suffix r)
    · simp only [Pass.token.injEq] at h
      rw [← h.2]

/-- A pass jumps back to `redo` only from a comment opener, `//` or `/*`, and
leaves the end of its input unread. -/
theorem scanPass_redo_opener (U : UnicodeTables) (s rest : List Char)
    (h : scanPass U s = .redo rest) :
    rest <:+ s ∧ (['/', '/'] <+: s ∨ ['/', '*'] <+: s) := by
  cases s with
  | nil => simp [scanPass] at h
  | cons ch r =>
    cases r with
    | nil =>
      simp only [scanPass] at h
      split_ifs at h
    | cons c r2 =>
      simp only [scanPass] at h
      split_ifs at h
      simp only [Pass.redo.injEq] at h
      rw [← h]
      refine ⟨(scanComment_suffix _).trans (List.suffix_cons _ _), ?_⟩
      have h6 : ch.toNat = 47 := by assumption
      have h7 : c.toNat = 47 ∨ c.toNat = 42 := by assumption
      have hch : ch = '/' := char_of_toNat _ _ h6
      rcases h7 with h7 | h7
      · left
        rw [hch, char_of_toNat c '/' h7]
        exact ⟨r2, rfl⟩
      · right
        rw [hch, char_of_toNat c '*' h7]
        exact ⟨r2, rfl⟩

/-- The token of a pass over a non-empty input is not `EOF`. -/
theorem scanPass_cons_ne_EOF (U : UnicodeTables) (ch : Char) (r : List Char) (tok : Int)
    (rest : List Char) (h : scanPass U (ch :: r) = .token tok rest) : tok ≠ EOF := by
  have hr : ∀ x : Char, rune x ≠ EOF := fun x => by
    have := rune_nonneg x
    simp only [EOF]; omega
  have hn : ∀ s d, (scanNumber s d).1 ≠ EOF := fun s d => by
    rcases scanNumber_tok s d with h | h <;> rw [h] <;> decide
  simp only [scanPass] at h
  split_ifs at h with h1 h2 h3 h4 h5 h6 h7
  · simp only [Pass.token.injEq] at h; rw [← h.1]; decide
  · simp only [Pass.token.injEq] at h; rw [← h.1]; exact hn _ _
  · simp only [Pass.token.injEq] at h; rw [← h.1]; decide
  · simp only [Pass.token.injEq] at h; rw [← h.1]; decide
  · split at h
    · simp only [Pass.token.injEq] at h; rw [← h.1]; exact hr _
    · split_ifs at h
      · simp only [Pass.token.injEq] at h; rw [← h.1]; exact hn _ _
      · simp only [Pass.token.injEq] at h; rw [← h.1]; exact hr _
  · split at h
    · simp only [Pass.token.injEq] at h; rw [← h.1]; exact hr _
    · split_ifs at h
      simp only [Pass.token.injEq] at h; rw [← h.1]; exact hr _
  · simp only [Pass.token.injEq] at h; rw [← h.1]; decide
  · simp only [Pass.token.injEq] at h; rw [← h.1]; exact hr _

theorem take_of_suffix (l rest : List Char) (h : rest <:+ l) :
    l.take (l.length - rest.length) ++ rest = l := by
  obtain ⟨pre, rfl⟩ := h
  simp

/-- The text of a token and the unread input after it are the end of the
input: what `Scan` drops in front of the token is white space and comments. -/
theorem Scan_suffix (U : UnicodeTables) :
    ∀ s : List Char, (Scan U s).text ++ (Scan U s).rest <:+ s := by
  intro s
  generalize hn : s.length = n
  induction n using Nat.strong_induction_on generalizing s with
  | _ n ih =>
    have hw := skipWhitespace_length s
    rw [Scan_eq]
    cases hp : scanPass U (skipWhitespace s) with
    | token tok rest =>
      simp only
      rw [take_of_suffix _ _ (scanPass_token_suffix U _ tok rest hp)]
      exact skipWhitespace_suffix s
    | redo rest =>
      simp only
      have h1 := scanPass_redo_length U _ rest hp
      exact (ih rest.length (by omega) rest rfl).trans
        ((scanPass_redo_opener U _ rest hp).1.trans (skipWhitespace_suffix s))

/-- The text of every token of the stream is a piece of the input. -/
theorem tokens_text_infix (U : UnicodeTables) :
    ∀ s : List Char, ∀ t ∈ tokens U s, t.text <:+: s := by
  intro s
  generalize hn : s.length = n
  induction n using Nat.strong_induction_on generalizing s with
  | _ n ih =>
    intro t ht
    rw [tokens_eq] at ht
    split_ifs at ht with h
    · simp at ht
    · have hs := Scan_suffix U s
      rcases List.mem_cons.mp ht with ht | ht
      · rw [ht]
        exact (List.prefix_append _ _).isInfix.trans hs.isInfix
      · have hlt := (Scan_length U s).2 h
        exact (ih _ (by omega) _ rfl t ht).trans
          ((List.suffix_append _ _).trans hs).isInfix

theorem skipWhitespace_mem (c : Char) (hc : isWhitespace c = false) :
    ∀ s : List Char, c ∈ s → c ∈ skipWhitespace s := by
  intro s
  induction s with
  | nil => intro h; exact h
  | cons ch r ih =>
    intro h
    unfold skipWhitespace
    split_ifs with hw
    · rcases List.mem_cons.mp h with h | h
      · rw [h, hw] at hc; simp at hc
      · exact ih h
    · exact h

/-- In a text without a comment opener, every rune that is not white space
lies in the text of a token. -/
theorem tokens_cover (U : UnicodeTables) (c : Char) (hc : isWhitespace c = false) :
    ∀ s : List Char, ¬ ['/', '/'] <:+: s → ¬ ['/', '*'] <:+: s → c ∈ s →
      ∃ t ∈ tokens U s, c ∈ t.text := by
  intro s
  generalize hn : s.length = n
  induction n using Nat.strong_induction_on generalizing s with
  | _ n ih =>
    intro h1 h2 hmem
    have hw := skipWhitespace_suffix s
    have hmem1 := skipWhitespace_mem c hc s hmem
    have hS := Scan_eq U s
    cases hp : scanPass U (skipWhitespace s) with
    | redo rest =>
      rcases (scanPass_redo_opener U _ rest hp).2 with h | h
      · exact absurd (h.isInfix.trans hw.isInfix) h1
      · exact absurd (h.isInfix.trans hw.isInfix) h2
    | token tok rest =>
      rw [hp] at hS
      simp only at hS
      have hsuf := scanPass_token_suffix U _ tok rest hp
      have hne : (Scan U s).tok ≠ EOF := by
        rw [hS]
        cases hs1 : skipWhitespace s with
        | nil => rw [hs1] at hmem1; simp at hmem1
        | cons ch r =>
          rw [hs1] at hp
          exact scanPass_cons_ne_EOF U ch r tok rest hp
      have hlt := (Scan_length U s).2 hne
      rw [tokens_eq, if_neg hne]
      rw [← take_of_suffix _ _ hsuf, List.mem_append] at hmem1
      rcases hmem1 with hm | hm
      · exact ⟨Scan U s, List.mem_cons_self _ _, by rw [hS]; exact hm⟩
      · have hr : (Scan U s).rest = rest := by rw [hS]
        rw [hr] at hlt ⊢
        have hrs : rest <:+ s := hsuf.trans hw
        obtain ⟨t, ht, htc⟩ := ih rest.length (by omega) rest rfl
          (fun h => h1 (h.trans hrs.isInfix)) (fun h => h2 (h.trans hrs.isInfix)) hm
        exact ⟨t, List.mem_cons_of_mem _ ht, htc⟩

end scanner

theorem parseUintLoop_ok_digits (maxVal cutoff : Nat) (s : List Char) :
    ∀ n val, strconv.parseUintLoop 10 maxVal cutoff s n = .ok val →
      ∀ c ∈ s, scanner.isDecimal c = true := by
  induction s with
  | nil => intro n val _ c hc; simp at hc
  | cons x r ih =>
    intro n val h c hc
    unfold strconv.parseUintLoop at h
    by_cases h1 : 48 ≤ x.toNat ∧ x.toNat ≤ 57
    · simp only [h1, and_self, true_or, if_true] at h
      rcases List.mem_cons.mp hc with hc | hc
      · subst hc
        simpa [scanner.isDecimal] using h1
      · split_ifs at h
        exact ih _ _ h c hc
    · exfalso
      simp only [h1, false_or, if_false] at h
      split_ifs at h
      omega

/-- A text that `ParseUint(text, 10, 16)` accepts is made of decimal digits. -/
theorem ParseUint_ok_digits (s : List Char) (val : Nat)
    (h : strconv.ParseUint s 10 16 = .ok val) : ∀ c ∈ s, scanner.isDecimal c = true := by
  unfold strconv.ParseUint at h
  split_ifs at h
  exact parseUintLoop_ok_digits _ _ s 0 val h

/-- Claim C18, amended.  For every port text that holds a rune other than a
decimal digit, `:`, `!`, `=`, `<` and `>` in the text of one of its tokens, that
is, anywhere but in the white space and the comments the scanner skips in front
of a token and in a byte order mark at the start of the text, `parsePort`
returns an error; the letters and the underscore of the integer tokens `0x50`,
`0b1` and `1_0` are such runes.  In particular `parsePort` returns an error for
every port text without a comment opener, `//` or `/*`, that holds, after the
byte order mark if it starts with one, a rune other than a decimal digit, `:`,
`!`, `=`, `<`, `>`, tab, newline, carriage return and space. -/
theorem parsePort_other_character (U : UnicodeTables) (addr : pf_rule_addr) (port : String) :
    ((∃ t ∈ scanner.tokens U (scanner.Init port), ∃ c ∈ t.text,
        scanner.isDecimal c = false ∧ c ≠ ':' ∧ c ≠ '!' ∧ c ≠ '=' ∧ c ≠ '<' ∧ c ≠ '>') →
      (parsePort U addr port).isError = true) ∧
    (¬ ['/', '/'] <:+: scanner.Init port → ¬ ['/', '*'] <:+: scanner.Init port →
      (∃ c ∈ scanner.Init port, scanner.isWhitespace c = false ∧
        scanner.isDecimal c = false ∧ c ≠ ':' ∧ c ≠ '!' ∧ c ≠ '=' ∧ c ≠ '<' ∧ c ≠ '>') →
      (parsePort U addr port).isError = true) := by
  have key : (∃ t ∈ scanner.tokens U (scanner.Init port), ∃ c ∈ t.text,
      scanner.isDecimal c = false ∧ c ≠ ':' ∧ c ≠ '!' ∧ c ≠ '=' ∧ c ≠ '<' ∧ c ≠ '>') →
      (parsePort U addr port).isError = true := by
    intro h
    apply parsePort_isError_of_run
    rw [parsePortRun_eq_from]
    refine parsePortFrom_induct U
      (fun st => ∃ t ∈ scanner.tokens U st.s, ∃ c ∈ t.text,
        scanner.isDecimal c = false ∧ c ≠ ':' ∧ c ≠ '!' ∧ c ≠ '=' ∧ c ≠ '<' ∧ c ≠ '>')
      (fun out => out.isError = true) ?_ ?_ _ h
    · intro st out hP hb
      rcases parsePortBody_stop_cases U st out hb with ⟨r, e, ho⟩ | ⟨heof, _⟩
      · rw [ho]; rfl
      · obtain ⟨t, ht, _⟩ := hP
        rw [tokens_eq, if_pos heof] at ht
        simp at ht
    · intro st st1 hP hb
      obtain ⟨t, ht, c, hc, hd, h1, h2, h3, h4, h5⟩ := hP
      have hcur : t = scanner.Scan U st.s → False := by
        intro heq
        rw [heq] at hc
        have hop : ∀ x : Char, (scanner.Scan U st.s).tok = rune x → c = x := by
          intro x hx
          rw [scanner.Scan_rune_text U x st.s hx] at hc
          simpa using hc
        rcases (parsePortBody_next_token U st st1 hb).2 with h6 | h6 | h6 | h6 | h6
        · rcases parsePortBody_next_cases U st st1 hb with ⟨_, _, _, _, _, val, hval⟩ | ⟨h7, _⟩
          · rw [ParseUint_ok_digits _ val hval c hc] at hd
            simp at hd
          · exact h7 h6
        · exact h1 (hop _ h6)
        · exact h2 (hop _ h6.1)
        · exact h4 (hop _ h6.1)
        · exact h5 (hop _ h6.1)
      rcases tokens_next U st st1 hb with hs | ⟨x, hx, _, hs⟩
      · rw [hs, List.mem_cons] at ht
        rcases ht with ht | ht
        · exact absurd ht hcur
        · exact ⟨t, ht, c, hc, hd, h1, h2, h3, h4, h5⟩
      · rw [hs, List.mem_cons, List.mem_cons] at ht
        rcases ht with ht | ht | ht
        · exact absurd ht hcur
        · rw [ht] at hc
          simp only [List.mem_singleton] at hc
          rcases hx with hx | hx | hx
          · exact absurd (hc.trans hx) h3
          · exact absurd (hc.trans hx) h4
          · exact absurd (hc.trans hx) h5
        · exact ⟨t, ht, c, hc, hd, h1, h2, h3, h4, h5⟩
  refine ⟨key, fun h1 h2 h => ?_⟩
  obtain ⟨c, hc, hw, hbad⟩ := h
  obtain ⟨t, ht, htc⟩ := scanner.tokens_cover U c hw _ h1 h2 hc
  exact key ⟨t, ht, c, htc, hbad⟩

/-- The integer tokens of `0x50` and `0b1` hold a letter, the token `/` of
`8 / 2` is no comment opener and the identifier of `80 a//9` stands in front of
a comment; the texts `1_0`, `80a` and `8-9` have no comment opener and hold an
underscore, a letter and a minus sign.  All are refused. -/
theorem parsePort_other_character_witness :
    ((∃ t ∈ scanner.tokens UnicodeTables.ascii (scanner.Init "0x50"), ∃ c ∈ t.text,
        scanner.isDecimal c = false ∧ c ≠ ':' ∧ c ≠ '!' ∧ c ≠ '=' ∧ c ≠ '<' ∧ c ≠ '>') ∧
      (parsePort UnicodeTables.ascii sampleAddr "0x50").isError = true) ∧
    ((∃ t ∈ scanner.tokens UnicodeTables.ascii (scanner.Init "0b1"), ∃ c ∈ t.text,
        scanner.isDecimal c = false ∧ c ≠ ':' ∧ c ≠ '!' ∧ c ≠ '=' ∧ c ≠ '<' ∧ c ≠ '>') ∧
      (parsePort UnicodeTables.ascii sampleAddr "0b1").isError = true) ∧
    ((∃ t ∈ scanner.tokens UnicodeTables.ascii (scanner.Init "8 / 2"), ∃ c ∈ t.text,
        scanner.isDecimal c = false ∧ c ≠ ':' ∧ c ≠ '!' ∧ c ≠ '=' ∧ c ≠ '<' ∧ c ≠ '>') ∧
      (parsePort UnicodeTables.ascii sampleAddr "8 / 2").isError = true) ∧
    ((∃ t ∈ scanner.tokens UnicodeTables.ascii (scanner.Init "80 a//9"), ∃ c ∈ t.text,
        scanner.isDecimal c = false ∧ c ≠ ':' ∧ c ≠ '!' ∧ c ≠ '=' ∧ c ≠ '<' ∧ c ≠ '>') ∧
      (parsePort UnicodeTables.ascii sampleAddr "80 a//9").isError = true) ∧
    ((¬ ['/', '/'] <:+: scanner.Init "1_0" ∧ ¬ ['/', '*'] <:+: scanner.Init "1_0" ∧
        ∃ c ∈ scanner.Init "1_0", scanner.isWhitespace c = false ∧
          scanner.isDecimal c = false ∧ c ≠ ':' ∧ c ≠ '!' ∧ c ≠ '=' ∧ c ≠ '<' ∧ c ≠ '>') ∧
      (parsePort UnicodeTables.ascii sampleAddr "1_0").isError = true) ∧
    ((¬ ['/', '/'] <:+: scanner.Init "80a" ∧ ¬ ['/', '*'] <:+: scanner.Init "80a" ∧
        ∃ c ∈ scanner.Init "80a", scanner.isWhitespace c = false ∧
          scanner.isDecimal c = false ∧ c ≠ ':' ∧ c ≠ '!' ∧ c ≠ '=' ∧ c ≠ '<' ∧ c ≠ '>') ∧
      (parsePort UnicodeTables.ascii sampleAddr "80a").isError = true) ∧
    ((¬ ['/', '/'] <:+: scanner.Init "8-9" ∧ ¬ ['/', '*'] <:+: scanner.Init "8-9" ∧
        ∃ c ∈ scanner.Init "8-9", scanner.isWhitespace c = false ∧
          scanner.isDecimal c = false ∧ c ≠ ':' ∧ c ≠ '!' ∧ c ≠ '=' ∧ c ≠ '<' ∧ c ≠ '>') ∧
      (parsePort UnicodeTables.ascii sampleAddr "8-9").isError = true) :=
  ⟨⟨⟨⟨-3, ['0', 'x', '5', '0'], []⟩, by decide, 'x', by decide, by decide⟩,
      (parsePort_other_character UnicodeTables.ascii sampleAddr "0x50").1
        ⟨⟨-3, ['0', 'x', '5', '0'], []⟩, by decide, 'x', by decide, by decide⟩⟩,
    ⟨⟨⟨-3, ['0', 'b', '1'], []⟩, by decide, 'b', by decide, by decide⟩,
      (parsePort_other_character UnicodeTables.ascii sampleAddr "0b1").1
        ⟨⟨-3, ['0', 'b', '1'], []⟩, by decide, 'b', by decide, by decide⟩⟩,
    ⟨⟨⟨rune '/', ['/'], [' ', '2']⟩, by decide, '/', by decide, by decide⟩,
      (parsePort_other_character UnicodeTables.ascii sampleAddr "8 / 2").1
        ⟨⟨rune '/', ['/'], [' ', '2']⟩, by decide, '/', by decide, by decide⟩⟩,
    ⟨⟨⟨scanner.Ident, ['a'], ['/', '/', '9']⟩, by decide, 'a', by decide, by decide⟩,
      (parsePort_other_character UnicodeTables.ascii sampleAddr "80 a//9").1
        ⟨⟨scanner.Ident, ['a'], ['/', '/', '9']⟩, by decide, 'a', by decide, by decide⟩⟩,
    ⟨⟨by decide, by decide, '_', by decide, by decide⟩,
      (parsePort_other_character UnicodeTables.ascii sampleAddr "1_0").2 (by decide) (by decide)
        ⟨'_', by decide, by decide⟩⟩,
    ⟨⟨by decide, by decide, 'a', by decide, by decide⟩,
      (parsePort_other_character UnicodeTables.ascii sampleAddr "80a").2 (by decide) (by decide)
        ⟨'a', by decide, by decide⟩⟩,
    ⟨⟨by decide, by decide, '-', by decide, by decide⟩,
      (parsePort_other_character UnicodeTables.ascii sampleAddr "8-9").2 (by decide) (by decide)
        ⟨'-', by decide, by decide⟩⟩⟩


/-! ## CIDR networks -/

theorem cidrMaskLoop_length (l n : Nat) : (net.cidrMaskLoop l n).length = l := by
  induction l generalizing n with
  | zero => rfl
  | succ l ih =>
    unfold net.cidrMaskLoop
    split_ifs <;> simp [ih]

theorem byteBits_partial (n : Nat) (h : n < 8) :
    byteBits (0xff - 0xff / 2 ^ n) = List.replicate n true ++ List.replicate (8 - n) false := by
  interval_cases n <;> decide

/-- The bits of the mask `net.CIDRMask` builds: `n` ones, then zeros. -/
theorem maskBits_cidrMaskLoop (l : Nat) :
    ∀ n, n ≤ 8 * l →
      maskBits (net.cidrMaskLoop l n) =
        List.replicate n true ++ List.replicate (8 * l - n) false := by
  induction l with
  | zero =>
    intro n hn
    have : n = 0 := by omega
    subst this
    rfl
  | succ l ih =>
    intro n hn
    unfold net.cidrMaskLoop
    split_ifs with h8
    · obtain ⟨m, rfl⟩ : ∃ m, n = 8 + m := ⟨n - 8, by omega⟩
      have h1 : 8 + m - 8 = m := by omega
      have h2 : 8 * (l + 1) - (8 + m) = 8 * l - m := by omega
      rw [maskBits, h1, ih m (by omega), h2, List.replicate_add, List.append_assoc]
      rfl
    · have h2 : 8 * (l + 1) - n = (8 - n) + 8 * l := by omega
      rw [maskBits, ih 0 (by omega), byteBits_partial n (by omega), h2, List.replicate_add]
      simp

theorem takeWhile_ones (p q : Nat) :
    ((List.replicate p true ++ List.replicate q false).takeWhile id).length = p := by
  induction p with
  | zero =>
    cases q with
    | zero => rfl
    | succ q => simp [List.replicate_succ, List.takeWhile]
  | succ p ih =>
    simp only [List.replicate_succ, List.cons_append, List.takeWhile_cons, id, if_true,
      List.length_cons]
    rw [ih]

/-- The mask `net.CIDRMask(p, bits)` has `bits / 8` bytes, `p` leading one-bits
followed by zero-bits, so its prefix length is `p`. -/
theorem CIDRMask_bits (p bits : Nat) (hb : bits = 32 ∨ bits = 128) (hp : p ≤ bits) :
    (net.CIDRMask p bits).length = bits / 8 ∧
      maskBits (net.CIDRMask p bits) =
        List.replicate p true ++ List.replicate (bits - p) false ∧
      prefixLength (net.CIDRMask p bits) = p := by
  have h1 : ¬ (bits ≠ 32 ∧ bits ≠ 128) := by omega
  have h2 : ¬ (p > bits) := by omega
  have h3 : 8 * (bits / 8) = bits := by omega
  have hm := maskBits_cidrMaskLoop (bits / 8) p (by omega)
  rw [h3] at hm
  unfold prefixLength net.CIDRMask
  simp only [h1, h2, if_false]
  exact ⟨cidrMaskLoop_length _ _, hm, by rw [hm]; exact takeWhile_ones _ _⟩

/-- The four octets `parseIPv4Fields` returns. -/
theorem parseIPv4Loop_length (s : List Char) :
    ∀ (val digLen : Nat) (fields : List Nat) (first prevDot : Bool) (q : List Nat),
      fields.length ≤ 3 →
      net.parseIPv4Loop s val digLen fields first prevDot = some q → q.length = 4 := by
  induction s with
  | nil =>
    intro val digLen fields first prevDot q hf h
    unfold net.parseIPv4Loop at h
    split_ifs at h with h1
    simp only [Option.some.injEq] at h
    rw [← h, List.length_append, List.length_singleton]
    omega
  | cons x r ih =>
    intro val digLen fields first prevDot q hf h
    unfold net.parseIPv4Loop at h
    by_cases hd : 48 ≤ x.toNat ∧ x.toNat ≤ 57
    · simp only [hd, and_self, if_true] at h
      split_ifs at h
      exact ih _ _ _ _ _ q hf h
    · simp only [hd, if_false] at h
      by_cases hdot : x.toNat = 46
      · simp only [hdot, if_true] at h
        split_ifs at h with h1 h2
        exact ih _ _ _ _ _ q (by rw [List.length_append, List.length_singleton]; omega) h
      · simp [hdot] at h

theorem parseIPv4Fields_length (s : List Char) (q : List Nat)
    (h : net.parseIPv4Fields s = some q) : q.length = 4 :=
  parseIPv4Loop_length s 0 0 [] true false q (by simp) h

/-- The group loop of `parseIPv6` never stores more than sixteen bytes. -/
theorem parseIPv6Loop_length (n : Nat) :
    ∀ (s : List Char) (ip : List Nat) (ellipsis : Option Nat) (g : net.V6Groups),
      ip.length % 2 = 0 → ip.length ≤ 16 →
      net.parseIPv6Loop n s ip ellipsis = some g → g.ip.length ≤ 16 := by
  induction n with
  | zero =>
    intro s ip ellipsis g _ hle h
    simp only [net.parseIPv6Loop, Option.some.injEq] at h
    rw [← h]; exact hle
  | succ n ih =>
    intro s ip ellipsis g hev hle h
    unfold net.parseIPv6Loop at h
    repeat' split at h
    all_goals
      first
        | (simp at h; done)
        | exact ih _ _ _ g (by simp; omega) (by simp; omega) h
        | (have hq := parseIPv4Fields_length _ _ (by assumption);
           simp only [Option.some.injEq] at h;
           rw [← h];
           simp only [List.length_append, hq];
           omega)
        | (simp only [Option.some.injEq] at h;
           rw [← h];
           simp only [List.length_append, List.length_cons, List.length_nil];
           omega)

/-- The address `parseIPv6` returns has sixteen bytes. -/
theorem parseIPv6_length (t : List Char) (b : List Nat) (z : List Char)
    (h : net.parseIPv6 t = some (.v6 b z)) : b.length = 16 := by
  have hfin : ∀ g zone, g.ip.length ≤ 16 → net.parseIPv6Finish g zone = some (.v6 b z) →
      b.length = 16 := by
    intro g zone hg hf
    unfold net.parseIPv6Finish at hf
    split_ifs at hf with h1 h2 h3
    · split at hf
      · simp at hf
      · simp only [Option.some.injEq, net.Addr.v6.injEq] at hf
        rw [← hf.1]
        simp only [List.length_append, List.length_take, List.length_replicate,
          List.length_drop]
        omega
    · simp only [Option.some.injEq, net.Addr.v6.injEq] at hf
      rw [← hf.1]
      omega
  unfold net.parseIPv6 at h
  simp only at h
  split_ifs at h
  · simp only [Option.some.injEq, net.Addr.v6.injEq] at h
    rw [← h.1]; simp
  · obtain ⟨g, hg, hf⟩ := Option.bind_eq_some.mp h
    exact hfin g _ (parseIPv6Loop_length 9 _ [] _ g (by simp) (by simp) hg) hf
  · obtain ⟨g, hg, hf⟩ := Option.bind_eq_some.mp h
    exact hfin g _ (parseIPv6Loop_length 9 _ [] _ g (by simp) (by simp) hg) hf

/-- The bytes of an address `ParseAddr` returns: four for IPv4, sixteen for
IPv6. -/
theorem ParseAddr_length (s : List Char) :
    (∀ b, net.ParseAddr s = some (.v4 b) → b.length = 4) ∧
      (∀ b z, net.ParseAddr s = some (.v6 b z) → b.length = 16) := by
  unfold net.ParseAddr
  constructor
  · intro b h
    split at h
    · split_ifs at h
      · cases hq : net.parseIPv4Fields s with
        | none => rw [hq] at h; simp at h
        | some q =>
          rw [hq] at h
          simp only [Option.map_some', Option.some.injEq, net.Addr.v4.injEq] at h
          rw [← h]
          exact parseIPv4Fields_length s q hq
      · obtain ⟨b1, z, hb⟩ := parseIPv6_is_v6 _ _ h
        simp at hb
    · simp at h
  · intro b z h
    split at h
    · split_ifs at h
      · cases hq : net.parseIPv4Fields s with
        | none => rw [hq] at h; simp at h
        | some q => rw [hq] at h; simp at h
      · exact parseIPv6_length s b z h
    · simp at h

theorem decimalFold_le (l : List Char) :
    ∀ m : Nat, m ≤ l.foldl (fun n c => n * 10 + (c.toNat - 48)) m := by
  induction l with
  | nil => intro m; exact Nat.le_refl _
  | cons x l ih =>
    intro m
    simp only [List.foldl_cons]
    exact Nat.le_trans (by omega) (ih _)

/-- Go `dtoi` on a text of decimal digits of value below 0xFFFFFF. -/
theorem dtoiLoop_digits (ds : List Char) (hds : ∀ c ∈ ds, scanner.isDecimal c = true) :
    ∀ n i : Nat, ds.foldl (fun n c => n * 10 + (c.toNat - 48)) n < 0xFFFFFF →
      net.dtoiLoop ds n i =
        (ds.foldl (fun n c => n * 10 + (c.toNat - 48)) n, i + ds.length,
          decide (i + ds.length ≠ 0)) := by
  induction ds with
  | nil => intro n i _; rfl
  | cons c r ih =>
    intro n i hlt
    have hc := scanner.isDecimal_bounds c (hds c (List.mem_cons_self _ _))
    simp only [List.foldl_cons] at hlt ⊢
    have hb := decimalFold_le r (n * 10 + (c.toNat - 48))
    have h1 : ¬ (n * 10 + (c.toNat - 48) ≥ 0xFFFFFF) := by omega
    unfold net.dtoiLoop
    simp only [hc, and_self, if_true, h1, if_false]
    rw [ih (fun x hx => hds x (List.mem_cons_of_mem _ hx)) _ _ hlt]
    simp only [List.length_cons]
    have h2 : i + 1 + r.length = i + (r.length + 1) := by omega
    rw [h2]

theorem takeWhile_dropWhile_append (q : Char → Bool) (l r : List Char) (x : Char)
    (hl : ∀ c ∈ l, q c = true) (hx : q x = false) :
    (l ++ x :: r).takeWhile q = l ∧ (l ++ x :: r).dropWhile q = x :: r := by
  induction l with
  | nil => simp [List.takeWhile, List.dropWhile, hx]
  | cons c l ih =>
    have hc := hl c (List.mem_cons_self _ _)
    have := ih (fun y hy => hl y (List.mem_cons_of_mem _ hy))
    simp [List.takeWhile, List.dropWhile, hc, this]

/-- The text `ip/p` as runes: the address, the slash, the digits of `p`. -/
theorem cidr_text (ip : String) (p : Nat) :
    ∃ dp, (ip ++ "/" ++ toString p).toList = ip.toList ++ '/' :: dp ∧ dp ≠ [] ∧
      (∀ c ∈ dp, scanner.isDecimal c = true) ∧ decimalValue dp = p := by
  obtain ⟨dp, h1, h2, h3, h4⟩ := toString_digits p
  refine ⟨dp, ?_, h2, h3, h4⟩
  simp [String.data_append, ← h1]

/-- Go `net.ParseCIDR` on the text `ip/p` of a valid address without zone and
a prefix length within its width: the mask is `CIDRMask(p, bits)` and the
network is the address under that mask. -/
theorem ParseCIDR_text (ip : String) (p : Nat) (a : net.Addr) (hslash : '/' ∉ ip.toList)
    (ha : net.ParseAddr ip.toList = some a) (hz : a.Zone = []) (hp : p ≤ a.BitLen) :
    net.ParseCIDR (ip ++ "/" ++ toString p) =
      some ⟨net.Mask a.As16 (net.CIDRMask p a.BitLen), net.CIDRMask p a.BitLen⟩ := by
  obtain ⟨dp, h1, h2, h3, h4⟩ := cidr_text ip p
  have hbit : a.BitLen ≤ 128 := by cases a <;> simp [net.Addr.BitLen]
  have hq := takeWhile_dropWhile_append (fun c => decide (c ≠ '/')) ip.toList dp '/'
    (fun c hc => by
      simp only [ne_eq, decide_not, Bool.not_eq_true', decide_eq_false_iff_not]
      intro h; rw [h] at hc; exact hslash hc)
    (by simp)
  have hd := dtoiLoop_digits dp h3 0 0 (by
    have : decimalValue dp = p := h4
    unfold decimalValue at this
    rw [this]; omega)
  have hv : dp.foldl (fun n c => n * 10 + (c.toNat - 48)) 0 = p := h4
  have hlen : dp.length ≠ 0 := fun h => h2 (List.length_eq_zero.mp h)
  unfold net.ParseCIDR
  simp only [h1, hq.1, hq.2, List.tail_cons, ha, hz, hd, hv]
  simp [hlen, hp]

theorem Mask_v4 (b m : List Nat) (hb : b.length = 4) (hm : m.length = 4) :
    net.Mask (net.v4InV6Prefix ++ b) m = List.zipWith (fun x y => x &&& y) b m := by
  have h1 : (net.v4InV6Prefix ++ b).length = 16 := by simp [net.v4InV6Prefix, hb]
  have h2 : (net.v4InV6Prefix ++ b).take 12 = net.v4InV6Prefix := List.take_left' rfl
  have h3 : (net.v4InV6Prefix ++ b).drop 12 = b := List.drop_left' rfl
  unfold net.Mask
  simp [hm, h1, h2, h3, hb]

theorem Mask_v6 (b m : List Nat) (hb : b.length = 16) (hm : m.length = 16) :
    net.Mask b m = List.zipWith (fun x y => x &&& y) b m := by
  unfold net.Mask
  simp [hm, hb]

theorem zipWith_land_idem (b m : List Nat) :
    List.zipWith (fun x y => x &&& y) (List.zipWith (fun x y => x &&& y) b m) m =
      List.zipWith (fun x y => x &&& y) b m := by
  induction b generalizing m with
  | nil => simp
  | cons x b ih =>
    cases m with
    | nil => simp
    | cons y m =>
      simp only [List.zipWith_cons_cons, List.cons.injEq]
      exact ⟨by rw [Nat.land_assoc, Nat.and_self], ih m⟩

theorem copyInto_take_before (dst : List Nat) (lo hi k : Nat) (src : List Nat) (hk : k ≤ lo)
    (hlo : lo ≤ dst.length) : (copyInto dst lo hi src).take k = dst.take k := by
  have h1 : k ≤ (dst.take lo).length := by simp [List.length_take]; omega
  simp only [copyInto, List.append_assoc]
  rw [List.take_append_of_le_length h1, List.take_take, Nat.min_eq_left hk]

/-- The record `parseAddress` leaves on the text `ip/p` of a valid IPv4
address: the network address in `v[0:4]` and the mask in `v[16:20]`. -/
theorem parseAddress_cidr_v4 (addr : pf_rule_addr) (ip : String) (p : Nat) (negative : Bool)
    (b : List Nat) (hv : addr.v.length = 32) (hslash : '/' ∉ ip.toList)
    (ha : net.ParseAddr ip.toList = some (.v4 b)) (hp : p ≤ 32) :
    ∃ a, parseAddress addr (ip ++ "/" ++ toString p) negative = .ret a none ∧
      a.v.take 4 = List.zipWith (fun x y => x &&& y) b (net.CIDRMask p 32) ∧
      (a.v.drop 16).take 4 = net.CIDRMask p 32 := by
  obtain ⟨dp, h1, h2, h3, h4⟩ := cidr_text ip p
  have hb := (ParseAddr_length ip.toList).1 b ha
  have hm := (CIDRMask_bits p 32 (Or.inl rfl) hp).1
  have hc := ParseCIDR_text ip p (.v4 b) hslash ha rfl hp
  simp only [net.Addr.As16, net.Addr.BitLen, Mask_v4 b _ hb hm] at hc
  have hs : ContainsRune (ip ++ "/" ++ toString p) '/' = true := by
    simp [ContainsRune, h1]
  have hcol : ContainsRune (ip ++ "/" ++ toString p) ':' = false := by
    have hn := ParseAddr_v4_no_colon ip b ha
    simp only [ContainsRune, decide_eq_false_iff_not] at hn ⊢
    rw [h1]
    simp only [List.mem_append, List.mem_cons, not_or]
    refine ⟨hn, by decide, fun hmem => ?_⟩
    have := scanner.isDecimal_bounds _ (h3 _ hmem)
    exact absurd this (by decide)
  have hneg : (if negative = true then { addr with neg := 1 } else addr).v = addr.v := by
    split_ifs <;> rfl
  have hz : (List.zipWith (fun x y => x &&& y) b (net.CIDRMask p 32)).length = 4 := by
    simp [hb, hm]
  have hto4 : net.To4 (List.zipWith (fun x y => x &&& y) b (net.CIDRMask p 32)) =
      List.zipWith (fun x y => x &&& y) b (net.CIDRMask p 32) := by
    simp [net.To4, hz]
  unfold parseAddress
  simp only [hs, hcol, hc, if_true, Bool.false_eq_true, if_false, hneg, hto4]
  refine ⟨_, rfl, ?_, ?_⟩
  · simp only
    have hlen : (copyInto addr.v 0 4
        (List.zipWith (fun x y => x &&& y) b (net.CIDRMask p 32))).length = 32 := by
      rw [copyInto_length _ _ _ _ (by omega), hv]
    rw [copyInto_take_before _ 16 20 4 _ (by omega) (by omega)]
    have := copyInto_read addr.v 0 4 _ (by omega) hz
    simpa using this
  · simp only
    have hlen : (copyInto addr.v 0 4
        (List.zipWith (fun x y => x &&& y) b (net.CIDRMask p 32))).length = 32 := by
      rw [copyInto_length _ _ _ _ (by omega), hv]
    exact copyInto_read _ 16 20 _ (by omega) hm

/-- The record `parseAddress` leaves on the text `ip/p` of a valid IPv6
address: the network address in `v[0:16]` and the mask in `v[16:32]`. -/
theorem parseAddress_cidr_v6 (addr : pf_rule_addr) (ip : String) (p : Nat) (negative : Bool)
    (b : List Nat) (hv : addr.v.length = 32) (hslash : '/' ∉ ip.toList)
    (ha : net.ParseAddr ip.toList = some (.v6 b [])) (hp : p ≤ 128) :
    ∃ a, parseAddress addr (ip ++ "/" ++ toString p) negative = .ret a none ∧
      a.v.take 16 = List.zipWith (fun x y => x &&& y) b (net.CIDRMask p 128) ∧
      (a.v.drop 16).take 16 = net.CIDRMask p 128 := by
  obtain ⟨dp, h1, h2, h3, h4⟩ := cidr_text ip p
  have hb := (ParseAddr_length ip.toList).2 b [] ha
  have hm := (CIDRMask_bits p 128 (Or.inr rfl) hp).1
  have hc := ParseCIDR_text ip p (.v6 b []) hslash ha rfl hp
  simp only [net.Addr.As16, net.Addr.BitLen, Mask_v6 b _ hb hm] at hc
  have hs : ContainsRune (ip ++ "/" ++ toString p) '/' = true := by
    simp [ContainsRune, h1]
  have hcol : ContainsRune (ip ++ "/" ++ toString p) ':' = true := by
    have hn := ParseAddr_v6_colon ip b [] ha
    simp only [ContainsRune, decide_eq_true_eq] at hn ⊢
    rw [h1]
    exact List.mem_append_left _ hn
  have hneg : (if negative = true then { addr with neg := 1 } else addr).v = addr.v := by
    split_ifs <;> rfl
  have hz : (List.zipWith (fun x y => x &&& y) b (net.CIDRMask p 128)).length = 16 := by
    simp [hb, hm]
  unfold parseAddress
  simp only [hs, hcol, hc, if_true, hneg]
  refine ⟨_, rfl, ?_, ?_⟩
  · simp only
    have hlen : (copyInto addr.v 0 16
        (List.zipWith (fun x y => x &&& y) b (net.CIDRMask p 128))).length = 32 := by
      rw [copyInto_length _ _ _ _ (by omega), hv]
    rw [copyInto_take_before _ 16 32 16 _ (by omega) (by omega)]
    have := copyInto_read addr.v 0 16 _ (by omega) hz
    simpa using this
  · simp only
    have hlen : (copyInto addr.v 0 16
        (List.zipWith (fun x y => x &&& y) b (net.CIDRMask p 128))).length = 32 := by
      rw [copyInto_length _ _ _ _ (by omega), hv]
    exact copyInto_read _ 16 32 _ (by omega) hm

/-- Claim C11.  For every valid address text `ip` and prefix length `p` within
the width of its family (32 for IPv4, 128 for IPv6), `parseAddress` returns
`nil` on the text `ip/p` and the mask it stores, in `v[16:20]` for IPv4 and in
`v[16:32]` for IPv6, consists of `p` one-bits followed by zero-bits, so the
prefix length recomputed from the stored mask is `p`. -/
theorem parseAddress_cidr_round_trip (addr : pf_rule_addr) (ip : String) (p : Nat)
    (negative : Bool) (hv : addr.v.length = 32) (hslash : '/' ∉ ip.toList) :
    ((∃ b, net.ParseAddr ip.toList = some (.v4 b)) → p ≤ 32 →
        ∃ a, parseAddress addr (ip ++ "/" ++ toString p) negative = .ret a none ∧
          maskBits ((a.v.drop 16).take 4) =
            List.replicate p true ++ List.replicate (32 - p) false ∧
          prefixLength ((a.v.drop 16).take 4) = p) ∧
      ((∃ b, net.ParseAddr ip.toList = some (.v6 b [])) → p ≤ 128 →
        ∃ a, parseAddress addr (ip ++ "/" ++ toString p) negative = .ret a none ∧
          maskBits ((a.v.drop 16).take 16) =
            List.replicate p true ++ List.replicate (128 - p) false ∧
          prefixLength ((a.v.drop 16).take 16) = p) := by
  constructor
  · rintro ⟨b, hb⟩ hp
    obtain ⟨a, h1, _, h3⟩ := parseAddress_cidr_v4 addr ip p negative b hv hslash hb hp
    obtain ⟨_, h5, h6⟩ := CIDRMask_bits p 32 (Or.inl rfl) hp
    exact ⟨a, h1, by rw [h3]; exact h5, by rw [h3]; exact h6⟩
  · rintro ⟨b, hb⟩ hp
    obtain ⟨a, h1, _, h3⟩ := parseAddress_cidr_v6 addr ip p negative b hv hslash hb hp
    obtain ⟨_, h5, h6⟩ := CIDRMask_bits p 128 (Or.inr rfl) hp
    exact ⟨a, h1, by rw [h3]; exact h5, by rw [h3]; exact h6⟩

/-- The networks `192.168.1.5/24` and `2001:db8::1/33` on the sample record. -/
theorem parseAddress_cidr_round_trip_witness :
    (sampleAddr.v.length = 32 ∧ '/' ∉ "192.168.1.5".toList ∧
        net.ParseAddr "192.168.1.5".toList = some (.v4 [192, 168, 1, 5]) ∧ 24 ≤ 32 ∧
        ∃ a, parseAddress sampleAddr ("192.168.1.5" ++ "/" ++ toString 24) false =
            .ret a none ∧
          maskBits ((a.v.drop 16).take 4) =
            List.replicate 24 true ++ List.replicate (32 - 24) false ∧
          prefixLength ((a.v.drop 16).take 4) = 24) ∧
      ('/' ∉ "2001:db8::1".toList ∧
        net.ParseAddr "2001:db8::1".toList =
          some (.v6 [0x20, 0x01, 0x0d, 0xb8, 0, 0, 0, 0, 0, 0, 0, 0, 0, 0, 0, 1] []) ∧
        33 ≤ 128 ∧
        ∃ a, parseAddress sampleAddr ("2001:db8::1" ++ "/" ++ toString 33) false =
            .ret a none ∧
          maskBits ((a.v.drop 16).take 16) =
            List.replicate 33 true ++ List.replicate (128 - 33) false ∧
          prefixLength ((a.v.drop 16).take 16) = 33) :=
  ⟨⟨by decide, by decide, by decide, by decide,
      (parseAddress_cidr_round_trip sampleAddr "192.168.1.5" 24 false (by decide)
        (by decide)).1 ⟨[192, 168, 1, 5], by decide⟩ (by decide)⟩,
    ⟨by decide, by decide, by decide,
      (parseAddress_cidr_round_trip sampleAddr "2001:db8::1" 33 false (by decide)
        (by decide)).2
        ⟨[0x20, 0x01, 0x0d, 0xb8, 0, 0, 0, 0, 0, 0, 0, 0, 0, 0, 0, 1], by decide⟩
        (by decide)⟩⟩

/-- Claim C20.  For every valid address text `ip` and prefix length `p` within
the width of its family, the address bytes `parseAddress` stores on the text
`ip/p`, in `v[0:4]` for IPv4 and in `v[0:16]` for IPv6, are the bytes of `ip`
each combined by a bitwise and with the stored mask byte: the network address,
with the host bits cleared; and the stored address combined with the stored
mask is the stored address. -/
theorem parseAddress_cidr_network (addr : pf_rule_addr) (ip : String) (p : Nat)
    (negative : Bool) (hv : addr.v.length = 32) (hslash : '/' ∉ ip.toList) :
    (∀ b, net.ParseAddr ip.toList = some (.v4 b) → p ≤ 32 →
        ∃ a, parseAddress addr (ip ++ "/" ++ toString p) negative = .ret a none ∧
          a.v.take 4 = List.zipWith (fun x y => x &&& y) b ((a.v.drop 16).take 4) ∧
          List.zipWith (fun x y => x &&& y) (a.v.take 4) ((a.v.drop 16).take 4) =
            a.v.take 4) ∧
      (∀ b, net.ParseAddr ip.toList = some (.v6 b []) → p ≤ 128 →
        ∃ a, parseAddress addr (ip ++ "/" ++ toString p) negative = .ret a none ∧
          a.v.take 16 = List.zipWith (fun x y => x &&& y) b ((a.v.drop 16).take 16) ∧
          List.zipWith (fun x y => x &&& y) (a.v.take 16) ((a.v.drop 16).take 16) =
            a.v.take 16) := by
  constructor
  · intro b hb hp
    obtain ⟨a, h1, h2, h3⟩ := parseAddress_cidr_v4 addr ip p negative b hv hslash hb hp
    exact ⟨a, h1, by rw [h2, h3], by rw [h2, h3]; exact zipWith_land_idem _ _⟩
  · intro b hb hp
    obtain ⟨a, h1, h2, h3⟩ := parseAddress_cidr_v6 addr ip p negative b hv hslash hb hp
    exact ⟨a, h1, by rw [h2, h3], by rw [h2, h3]; exact zipWith_land_idem _ _⟩

/-- The network `192.168.1.5/24` is stored as `192.168.1.0` with the mask
`255.255.255.0`, and `2001:db8::1/33` with the host bits cleared. -/
theorem parseAddress_cidr_network_witness :
    (parseAddress sampleAddr "192.168.1.5/24" false =
        .ret { sampleAddr with
          v := [192, 168, 1, 0] ++ List.replicate 12 0 ++ [255, 255, 255, 0] ++
            List.replicate 12 0 } none ∧
      sampleAddr.v.length = 32 ∧ '/' ∉ "192.168.1.5".toList ∧
      net.ParseAddr "192.168.1.5".toList = some (.v4 [192, 168, 1, 5]) ∧ 24 ≤ 32 ∧
      ∃ a, parseAddress sampleAddr ("192.168.1.5" ++ "/" ++ toString 24) false =
          .ret a none ∧
        a.v.take 4 =
          List.zipWith (fun x y => x &&& y) [192, 168, 1, 5] ((a.v.drop 16).take 4) ∧
        List.zipWith (fun x y => x &&& y) (a.v.take 4) ((a.v.drop 16).take 4) =
          a.v.take 4) ∧
    ('/' ∉ "2001:db8::1".toList ∧
      net.ParseAddr "2001:db8::1".toList =
        some (.v6 [0x20, 0x01, 0x0d, 0xb8, 0, 0, 0, 0, 0, 0, 0, 0, 0, 0, 0, 1] []) ∧
      33 ≤ 128 ∧
      ∃ a, parseAddress sampleAddr ("2001:db8::1" ++ "/" ++ toString 33) false =
          .ret a none ∧
        a.v.take 16 =
          List.zipWith (fun x y => x &&& y)
            [0x20, 0x01, 0x0d, 0xb8, 0, 0, 0, 0, 0, 0, 0, 0, 0, 0, 0, 1]
            ((a.v.drop 16).take 16) ∧
        List.zipWith (fun x y => x &&& y) (a.v.take 16) ((a.v.drop 16).take 16) =
          a.v.take 16) :=
  ⟨⟨by decide, by decide, by decide, by decide, by decide,
      (parseAddress_cidr_network sampleAddr "192.168.1.5" 24 false (by decide)
        (by decide)).1 [192, 168, 1, 5] (by decide) (by decide)⟩,
    ⟨by decide, by decide, by decide,
      (parseAddress_cidr_network sampleAddr "2001:db8::1" 33 false (by decide)
        (by decide)).2 [0x20, 0x01, 0x0d, 0xb8, 0, 0, 0, 0, 0, 0, 0, 0, 0, 0, 0, 1]
        (by decide) (by decide)⟩⟩

/-- The fuel of the group loop of `parseIPv6` is never used up: with an even
number of bytes stored and enough fuel left to reach sixteen, one more unit
changes nothing. -/
theorem parseIPv6Loop_fuel (n : Nat) :
    ∀ (s : List Char) (ip : List Nat) (ellipsis : Option Nat),
      17 ≤ ip.length + 2 * n →
      net.parseIPv6Loop n s ip ellipsis = net.parseIPv6Loop (n + 1) s ip ellipsis := by
  induction n with
  | zero =>
    intro s ip ellipsis h
    have h1 : ¬ ip.length < 16 := by omega
    simp [net.parseIPv6Loop, h1]
  | succ n ih =>
    intro s ip ellipsis h
    have e1 : ∀ (x y : Nat) (r : List Char) (e : Option Nat),
        net.parseIPv6Loop n r (ip ++ [x, y]) e = net.parseIPv6Loop (n + 1) r (ip ++ [x, y]) e :=
      fun x y r e => ih r _ e (by simp; omega)
    rw [net.parseIPv6Loop, net.parseIPv6Loop]
    simp only [e1]

end pf
